import Mathlib

/-!
# A shallow embedding of nanoemoji's glyph assembly and shape-reuse encoder

This file embeds `src/nanoemoji/nanoemoji.py` (the emoji font assembler) in
Lean 4 and proves properties of the embedded code.

Conventions:
* Python functions become Lean functions with the same name, with the leading
  underscore dropped (`_glyf_ufo` becomes `glyfUfo`, etc.).
* Mutation of the UFO object becomes explicit state passing.
* Python exceptions become `Except BuildErr`.
* Floating point coordinates are embedded as rationals; color channels as
  naturals.
* Helper modules of the repository that are not part of the embedded source
  file (`nanoemoji.colors`, `nanoemoji.color_glyph`, `nanoemoji.paint`,
  `nanoemoji.glyph`, `nanoemoji.disjoint_set`) and the external `picosvg`
  transform type are modelled; every such definition carries a doc comment
  saying what it models.
-/

namespace Nanoemoji

/-! ## Affine transforms

From picosvg's `svg_transform.Affine2D` (external collaborator): an affine map
`(x, y) ↦ (a*x + c*y + e, b*x + d*y + f)`. -/

/-- Affine transform with coefficients `a b c d e f`, as in picosvg's
`Affine2D` named tuple. -/
structure Affine2D where
  a : ℚ
  b : ℚ
  c : ℚ
  d : ℚ
  e : ℚ
  f : ℚ
deriving DecidableEq, Repr

/-- `Affine2D.identity()`. -/
def Affine2D.identity : Affine2D := ⟨1, 0, 0, 1, 0, 0⟩

/-- picosvg's `Affine2D.product(first, second)`: the affine applying `first`
and then `second`. -/
def Affine2D.product (first second : Affine2D) : Affine2D :=
  { a := first.a * second.a + first.b * second.c
    b := first.a * second.b + first.b * second.d
    c := first.c * second.a + first.d * second.c
    d := first.c * second.b + first.d * second.d
    e := second.a * first.e + second.c * first.f + second.e
    f := second.b * first.e + second.d * first.f + second.f }

/-- picosvg's `Affine2D.translate(tx, ty)`: prepend a translation (no-op when
the offset is zero). -/
def Affine2D.translate (t : Affine2D) (tx ty : ℚ) : Affine2D :=
  if tx = 0 ∧ ty = 0 then t
  else Affine2D.product ⟨1, 0, 0, 1, tx, ty⟩ t

/-- picosvg's `Affine2D.gettranslate()`: the translation components `(e, f)`. -/
def Affine2D.gettranslate (t : Affine2D) : ℚ × ℚ := (t.e, t.f)

/-! ## Lexicographic comparison on `List Nat`

Python's `sorted` compares tuples lexicographically; this Boolean comparator
is the workhorse for every `sorted(...)` call in the embedded code. -/

/-- Lexicographic `≤` on lists of naturals (Python tuple comparison). -/
def listLexLe : List Nat → List Nat → Bool
  | [], _ => true
  | _ :: _, [] => false
  | a :: as, b :: bs => if a = b then listLexLe as bs else decide (a < b)

theorem listLexLe_refl (l : List Nat) : listLexLe l l = true := by
  induction l with
  | nil => rfl
  | cons a as ih => simp [listLexLe, ih]

theorem listLexLe_total (l₁ l₂ : List Nat) :
    (listLexLe l₁ l₂ || listLexLe l₂ l₁) = true := by
  induction l₁ generalizing l₂ with
  | nil => simp [listLexLe]
  | cons a as ih =>
    cases l₂ with
    | nil => simp [listLexLe]
    | cons b bs =>
      by_cases hab : a = b
      · subst hab
        simpa [listLexLe] using ih bs
      · have : a < b ∨ b < a := by omega
        rcases this with h | h <;>
          simp [listLexLe, hab, Ne.symm hab, h, Nat.lt_asymm h]

theorem listLexLe_antisymm : ∀ {l₁ l₂ : List Nat},
    listLexLe l₁ l₂ = true → listLexLe l₂ l₁ = true → l₁ = l₂
  | [], [], _, _ => rfl
  | [], _ :: _, _, h₂ => by simp [listLexLe] at h₂
  | _ :: _, [], h₁, _ => by simp [listLexLe] at h₁
  | a :: as, b :: bs, h₁, h₂ => by
    by_cases hab : a = b
    · subst hab
      simp only [listLexLe, if_pos rfl] at h₁ h₂
      exact congrArg (a :: ·) (listLexLe_antisymm h₁ h₂)
    · simp only [listLexLe, if_neg hab, if_neg (Ne.symm hab),
        decide_eq_true_eq] at h₁ h₂
      omega

theorem listLexLe_trans : ∀ {l₁ l₂ l₃ : List Nat},
    listLexLe l₁ l₂ = true → listLexLe l₂ l₃ = true → listLexLe l₁ l₃ = true
  | [], _, _, _, _ => rfl
  | _ :: _, [], _, h₁, _ => by simp [listLexLe] at h₁
  | _ :: _, _ :: _, [], _, h₂ => by simp [listLexLe] at h₂
  | a :: as, b :: bs, c :: cs, h₁, h₂ => by
    by_cases hab : a = b <;> by_cases hbc : b = c
    · subst hab; subst hbc
      simp only [listLexLe, if_pos rfl] at h₁ h₂ ⊢
      exact listLexLe_trans h₁ h₂
    · subst hab
      simp only [listLexLe, if_pos rfl, if_neg hbc] at h₁ h₂ ⊢
      exact h₂
    · subst hbc
      simp only [listLexLe, if_neg hab, if_pos rfl] at h₁ ⊢
      exact h₁
    · simp only [listLexLe, if_neg hab, if_neg hbc, decide_eq_true_eq] at h₁ h₂
      by_cases hac : a = c
      · omega
      · simp only [listLexLe, if_neg hac, decide_eq_true_eq]
        omega

/-! ## Colors

Modelled from the spec: `nanoemoji.colors.Color` (not under src) — a color
with red/green/blue channels and an alpha; `opaque()` forgets the alpha.
Channels and alpha are embedded as naturals (alpha scaled to 0..255) so that
Python's lexicographic namedtuple comparison used by `sorted` is exact. -/

/-- Modelled from the spec: `nanoemoji.colors.Color` — an RGBA color. -/
structure Color where
  red : Nat
  green : Nat
  blue : Nat
  alpha : Nat
deriving DecidableEq, Repr

/-- The alpha value denoting full opacity in the embedding. -/
def fullAlpha : Nat := 255

/-- Modelled from the spec: `Color.opaque()` — the same color with full
alpha ("palette holds only the opaque reduction of colors"). -/
def Color.opaque (c : Color) : Color := { c with alpha := fullAlpha }

/-- Field tuple of a color, for lexicographic comparison. -/
def Color.fields (c : Color) : List Nat := [c.red, c.green, c.blue, c.alpha]

/-- Python's `<=` on `Color` namedtuples: lexicographic on the fields. -/
def colorLe (c₁ c₂ : Color) : Bool := listLexLe c₁.fields c₂.fields

theorem colorLe_total (c₁ c₂ : Color) : (colorLe c₁ c₂ || colorLe c₂ c₁) = true :=
  listLexLe_total _ _

theorem colorLe_trans {c₁ c₂ c₃ : Color} (h₁ : colorLe c₁ c₂ = true)
    (h₂ : colorLe c₂ c₃ = true) : colorLe c₁ c₃ = true :=
  listLexLe_trans h₁ h₂

theorem colorLe_antisymm {c₁ c₂ : Color} (h₁ : colorLe c₁ c₂ = true)
    (h₂ : colorLe c₂ c₁ = true) : c₁ = c₂ := by
  have h := listLexLe_antisymm h₁ h₂
  cases c₁; cases c₂
  simpa [Color.fields] using h

instance : IsAntisymm Color (fun c₁ c₂ => colorLe c₁ c₂ = true) :=
  ⟨fun _ _ => colorLe_antisymm⟩

instance : IsTotal Color (fun c₁ c₂ => colorLe c₁ c₂ = true) :=
  ⟨fun a b => by
    have := colorLe_total a b
    rcases Bool.or_eq_true_iff.mp this with h | h
    · exact Or.inl h
    · exact Or.inr h⟩

instance : IsTrans Color (fun c₁ c₂ => colorLe c₁ c₂ = true) :=
  ⟨fun _ _ _ => colorLe_trans⟩

/-! ## Errors

Python exceptions raised by the embedded code. -/

/-- Exceptions raised by the embedded code: `NotImplementedError`,
`ValueError`, and `StopIteration` (from `next()` on an empty generator). -/
inductive BuildErr where
  | notImplemented (msg : String)
  | valueError (msg : String)
  | stopIteration
deriving DecidableEq, Repr

/-! ## Paints

Modelled from the spec: `nanoemoji.paint.Paint` (not under src) — "a color or
gradient descriptor"; a gradient carries ordered color stops (offset + color).
`Paint.colors()` yields the colors mentioned by the descriptor in order;
`Paint.to_ufo_paint(palette)` is the COLRv1 structure: "solid-by-palette-index,
or gradient referencing multiple palette indices plus stop offsets". -/

/-- Modelled from the spec: a gradient color stop (offset plus color). -/
structure ColorStop where
  offset : ℚ
  color : Color
deriving DecidableEq, Repr

/-- Modelled from the spec: `nanoemoji.paint.Paint` — solid color or
linear/radial gradient descriptor. -/
inductive Paint where
  | solid (color : Color)
  | linearGradient (stops : List ColorStop)
  | radialGradient (stops : List ColorStop)
deriving DecidableEq, Repr

/-- Modelled from the spec: `Paint.colors()` — the colors mentioned by the
paint descriptor, in order (a gradient's first color is its first stop's). -/
def Paint.colors : Paint → List Color
  | .solid c => [c]
  | .linearGradient stops => stops.map (·.color)
  | .radialGradient stops => stops.map (·.color)

/-- A UFO paint value: for COLRv0 a bare palette index, for COLRv1 a solid or
gradient structure whose entries are `(stop offset, palette index, alpha)`. -/
inductive UfoPaint where
  | paletteIndex (i : Nat)
  | solid (paletteIndex : Nat) (alpha : Nat)
  | linearGradient (stops : List (ℚ × Nat × Nat))
  | radialGradient (stops : List (ℚ × Nat × Nat))
deriving DecidableEq, Repr

/-- Python's `list.index(x)`: first index of `x`, `ValueError` if absent. -/
def listIndex {α : Type} [DecidableEq α] (l : List α) (x : α) : Except BuildErr Nat :=
  match l with
  | [] => .error (.valueError "x not in list")
  | y :: rest => if y = x then .ok 0 else (listIndex rest x).map (· + 1)

/-- The index `list.index(x)` returns when `x` is present (used to state
palette lookups; defaults to the length when absent, which does not occur). -/
def paletteIdx {α : Type} [DecidableEq α] (l : List α) (x : α) : Nat :=
  (listIndex l x).toOption.getD l.length

/-- Modelled from the spec: the per-stop palette lookup of
`Paint.to_ufo_paint` — each stop becomes `(offset, palette index of its
opaque color, alpha)`. -/
def stopsToUfo (palette : List Color) : List ColorStop → Except BuildErr (List (ℚ × Nat × Nat))
  | [] => .ok []
  | s :: rest => do
    let i ← listIndex palette s.color.opaque
    let entries ← stopsToUfo palette rest
    return (s.offset, i, s.color.alpha) :: entries

/-- Modelled from the spec: `Paint.to_ufo_paint(palette)` — the COLRv1 paint
structure: a solid is a palette index (of the opaque color) plus its alpha; a
gradient references one palette index per stop plus the stop offsets. -/
def Paint.to_ufo_paint (paint : Paint) (palette : List Color) : Except BuildErr UfoPaint :=
  match paint with
  | .solid c => do
    let i ← listIndex palette c.opaque
    return .solid i c.alpha
  | .linearGradient stops => do
    let entries ← stopsToUfo palette stops
    return .linearGradient entries
  | .radialGradient stops => do
    let entries ← stopsToUfo palette stops
    return .radialGradient entries

/-! ## Paths and painted layers -/

/-- The fill attribute of an SVG path: either a plain value or a
`url(#id)` reference to a gradient definition (the shape
`regex.match(r"url\(#([^)]+)*\)", ...)` looks for). -/
inductive Fill where
  | plain (value : String)
  | url (id : String)
deriving DecidableEq, Repr

/-- picosvg's `SVGPath` as consumed by the embedded code: the path data `d`
and the fill attribute. -/
structure SVGPath where
  d : String
  fill : Fill := .plain ""
deriving DecidableEq, Repr

/-- A gradient element of the artwork: id attribute plus the rest of its
serialization (`etree.tostring` once the id is removed). -/
structure GradientEl where
  id : String
  body : String
deriving DecidableEq, Repr

/-- `nanoemoji.color_glyph.PaintedLayer` (not under src), modelled from the
spec: "(path: a closed-curve outline description, paint: a color or gradient
descriptor, reuses: ordered sequence of affine transforms)". -/
structure PaintedLayer where
  path : SVGPath
  paint : Paint
  reuses : List Affine2D := []
deriving DecidableEq, Repr

/-- The reuse key type: `(painted_layer.path.d, painted_layer.reuses)`. -/
abbrev ReuseKey := String × List Affine2D

/-- `_inter_glyph_reuse_key(painted_layer)`: individual glyf entries,
including composites, can be reused; paint is not part of the key. -/
def interGlyphReuseKey (pl : PaintedLayer) : ReuseKey :=
  (pl.path.d, pl.reuses)

/-! ## Glyph names

Glyph name strings that appear in the source: `.notdef` and `.space`,
`glyph_name(codepoint)` / `glyph_name(codepoints)` (from `nanoemoji.glyph`,
not under src: "glyph naming derives deterministically from codepoints;
collisions are impossible"), and the derived names minted by `_next_name`,
`f"{base}.{i}"` and `f"{base}.component.{i}"`. The name strings are embedded
as an inductive type; constructor injectivity embeds the collision-freeness
the spec asserts for the string forms. -/

/-- A glyph name. `fromCp`/`fromCps` model `nanoemoji.glyph.glyph_name`
applied to one codepoint / a codepoint sequence; `derived base i` models
`f"{base}.{i}"`; `component base i` models `f"{base}.component.{i}"`. -/
inductive GName where
  | notdef
  | space
  | fromCp (cp : Nat)
  | fromCps (cps : List Nat)
  | derived (base : GName) (i : Nat)
  | component (base : GName) (i : Nat)
deriving DecidableEq, Repr

/-- Injective encoding of a glyph name as a word over ℕ, used to compare
names the way Python compares the underlying strings. -/
def GName.enc : GName → List Nat
  | .notdef => [0]
  | .space => [1]
  | .fromCp cp => [2, cp]
  | .fromCps cps => 3 :: cps
  | .derived base i => GName.enc base ++ [4, i]
  | .component base i => GName.enc base ++ [5, i]

/-- Modelled from the spec: the deterministic total order on glyph names used
by `sorted`; on single-codepoint names it orders by codepoint ("extends the
glyph order deterministically (sorted by codepoint)"). -/
def gnameLe (n₁ n₂ : GName) : Bool := listLexLe n₁.enc n₂.enc

theorem gnameLe_total (n₁ n₂ : GName) : (gnameLe n₁ n₂ || gnameLe n₂ n₁) = true :=
  listLexLe_total _ _

theorem gnameLe_trans {n₁ n₂ n₃ : GName} (h₁ : gnameLe n₁ n₂ = true)
    (h₂ : gnameLe n₂ n₃ = true) : gnameLe n₁ n₃ = true :=
  listLexLe_trans h₁ h₂

theorem gnameLe_fromCp (a b : Nat) :
    gnameLe (.fromCp a) (.fromCp b) = decide (a ≤ b) := by
  by_cases h : a = b
  · subst h; simp [gnameLe, GName.enc, listLexLe]
  · have : (a < b) = (a ≤ b) := by
      simp only [eq_iff_iff]
      omega
    simp [gnameLe, GName.enc, listLexLe, h, this]

/-! ## Glyphs and the UFO

`ufoLib2` objects (external collaborator), embedded as records. A drawn
contour records the source path and the transform it was drawn through
(`_draw` renders through a `TransformPen`); `_draw_glyph_extents` adds the
full-upem diagonal extent contour. -/

/-- One contour of a glyph: either the result of `_draw(source, dest,
transform)` or the extent diagonal drawn by `_draw_glyph_extents`. -/
inductive Contour where
  | drawn (path : SVGPath) (transform : Affine2D)
  | extent (upem : Nat)
deriving DecidableEq, Repr

/-- `ufoLib2.objects.Component`: a placement of another glyph. -/
structure UComponent where
  baseGlyph : GName
  transformation : Affine2D
deriving DecidableEq, Repr

/-- `ufoLib2.objects.Glyph`: name, advance width, unicode mapping, contours
and components. -/
structure Glyph where
  name : GName
  width : Nat := 0
  unicode : Option Nat := none
  contours : List Contour := []
  components : List UComponent := []
deriving DecidableEq, Repr

/-- `ufoLib2.Font` as used by the embedded code: units per em, the glyphs in
creation order, the glyph order list, and the two `ufo.lib` keys the color
encoders write (`COLOR_PALETTES_KEY`, `COLOR_LAYERS_KEY`). -/
structure UFO where
  upem : Nat
  glyphs : List Glyph := []
  glyphOrder : List GName := []
  colorPalettes : List (List Color) := []
  colorLayers : List (GName × List (GName × UfoPaint)) := []
deriving DecidableEq, Repr

/-- The names of the glyphs present in the font. -/
def UFO.names (ufo : UFO) : List GName := ufo.glyphs.map (·.name)

/-- Python `name in ufo`. -/
def UFO.contains (ufo : UFO) (n : GName) : Bool := ufo.names.contains n

/-- Python `ufo.get(name)` / `ufo[name]`. -/
def UFO.get (ufo : UFO) (n : GName) : Option Glyph :=
  ufo.glyphs.find? (·.name = n)

/-- Python `ufo.newGlyph(name)`: append a fresh empty glyph. -/
def UFO.newGlyph (ufo : UFO) (n : GName) : UFO :=
  { ufo with glyphs := ufo.glyphs ++ [{ name := n }] }

/-- In-place mutation of the glyph named `n` (Python attribute assignment or
list append on a glyph object held in the font). -/
def UFO.modify (ufo : UFO) (n : GName) (f : Glyph → Glyph) : UFO :=
  { ufo with glyphs := ufo.glyphs.map (fun g => if g.name = n then f g else g) }

/-- Python `ufo[name] = other_glyph`: the glyph slot `name` takes over the
other glyph's definition (contents), keeping the name. -/
def UFO.setGlyph (ufo : UFO) (n : GName) (g : Glyph) : UFO :=
  ufo.modify n (fun _ => { g with name := n })

/-! ## Color glyphs -/

/-- `nanoemoji.color_glyph.ColorGlyph` (not under src), modelled from the
spec: glyph name, glyph id, codepoints, the derived ordered sequence of
painted layers (`as_painted_layers()`), and the affine map to font space
(`transform_for_font_space()`). -/
structure ColorGlyph where
  glyph_name : GName
  glyph_id : Nat
  codepoints : List Nat
  layers : List PaintedLayer
  transform : Affine2D
  /-- The gradient elements under the artwork's defs
  (`color_glyph.picosvg.xpath("//svg:defs/*")`), with the id attribute
  split off from the rest of the serialization. -/
  gradients : List GradientEl := []
deriving DecidableEq, Repr

/-- Modelled from the spec: `ColorGlyph.colors()` — the colors used by the
glyph, i.e. all colors of all of its layers' paints. -/
def ColorGlyph.colors (cg : ColorGlyph) : List Color :=
  cg.layers.flatMap (·.paint.colors)

/-! ## Drawing and glyph creation -/

/-- `_draw(source, dest, svg_units_to_font_units)`: render `source` through
the transform onto `dest` (recorded as a drawn contour). -/
def draw (source : SVGPath) (dest : Glyph) (svg_units_to_font_units : Affine2D) : Glyph :=
  { dest with contours := dest.contours ++ [.drawn source svg_units_to_font_units] }

/-- `_next_name(ufo, name_fn)`: the first `i = 0, 1, ...` with `name_fn i`
not yet in the font. The font has finitely many glyphs, so searching
`taken.length + 1` candidates suffices when `name_fn` is injective. -/
def nextNameIndex (taken : List GName) (name_fn : Nat → GName) : Nat :=
  (((List.range (taken.length + 1)).find? (fun i => !taken.contains (name_fn i))).getD
    (taken.length + 1))

/-- `_next_name(ufo, name_fn)` — the name itself. -/
def nextName (ufo : UFO) (name_fn : Nat → GName) : GName :=
  name_fn (nextNameIndex ufo.names name_fn)

theorem nextNameIndex_spec (taken : List GName) (name_fn : Nat → GName)
    (hinj : Function.Injective name_fn) :
    name_fn (nextNameIndex taken name_fn) ∉ taken := by
  unfold nextNameIndex
  -- among `taken.length + 1` distinct candidate names at most `taken.length`
  -- can be taken, so the search succeeds
  have hex : ∃ i ∈ List.range (taken.length + 1), (!taken.contains (name_fn i)) = true := by
    by_contra hall
    push_neg at hall
    have hmem : ∀ i ∈ List.range (taken.length + 1), name_fn i ∈ taken := by
      intro i hi
      have := hall i hi
      simpa using this
    classical
    have hsub : (Finset.range (taken.length + 1)).image name_fn ⊆ taken.toFinset := by
      intro x hx
      rcases Finset.mem_image.mp hx with ⟨i, hi, rfl⟩
      exact List.mem_toFinset.mpr (hmem i (List.mem_range.mpr (Finset.mem_range.mp hi)))
    have hcard₁ : ((Finset.range (taken.length + 1)).image name_fn).card
        = taken.length + 1 := by
      rw [Finset.card_image_of_injective _ hinj, Finset.card_range]
    have hcard₂ : taken.toFinset.card ≤ taken.length := List.toFinset_card_le taken
    have := Finset.card_le_card hsub
    omega
  have h : (((List.range (taken.length + 1)).find?
      (fun i => !taken.contains (name_fn i)))).isSome := by
    rw [List.find?_isSome]
    rcases hex with ⟨i, hi, hp⟩
    exact ⟨i, hi, hp⟩
  rcases Option.isSome_iff_exists.mp h with ⟨j, hj⟩
  have hpj := List.find?_some hj
  rw [hj]
  simp only [Option.getD_some]
  simpa using hpj

theorem nextName_fresh (ufo : UFO) (name_fn : Nat → GName)
    (hinj : Function.Injective name_fn) :
    ufo.contains (nextName ufo name_fn) = false := by
  have := nextNameIndex_spec ufo.names name_fn hinj
  unfold nextName UFO.contains
  simpa using this

/-- `_create_glyph(color_glyph, painted_layer)`: materialize a new outline
glyph for the layer, returning the updated font and the created glyph's name.
If the layer records intra-glyph `reuses`, a second base glyph holds the
untransformed path and the new glyph is a composite referencing it once at
identity and once per reuse transform (translation rescaled into font
space). -/
def createGlyph (ufo : UFO) (color_glyph : ColorGlyph) (painted_layer : PaintedLayer) :
    UFO × GName :=
  let gname := nextName ufo (fun i => .derived color_glyph.glyph_name i)
  let ufo₁ := (ufo.newGlyph gname).modify gname (fun g => { g with width := ufo.upem })
  let svg_units_to_font_units := color_glyph.transform
  if painted_layer.reuses ≠ [] then
    -- Shape repeats, form a composite
    let baseName := nextName ufo₁ (fun i => .component gname i)
    let ufo₂ := (ufo₁.newGlyph baseName).modify baseName
      (fun g => draw painted_layer.path g svg_units_to_font_units)
    let comps := UComponent.mk baseName Affine2D.identity ::
      painted_layer.reuses.map (fun transform =>
        -- scale x/y translation to match font space; already drawn there
        UComponent.mk baseName
          { transform with
            e := transform.e * svg_units_to_font_units.a
            f := transform.f * svg_units_to_font_units.d })
    let ufo₃ := ufo₂.modify gname (fun g => { g with components := g.components ++ comps })
    ({ ufo₃ with glyphOrder := ufo₃.glyphOrder ++ [gname, baseName] }, gname)
  else
    -- Not a composite, just draw directly on the glyph
    let ufo₂ := ufo₁.modify gname (fun g => draw painted_layer.path g svg_units_to_font_units)
    ({ ufo₂ with glyphOrder := ufo₂.glyphOrder ++ [gname] }, gname)

/-- `_draw_glyph_extents(ufo, glyph)`: draw the full-upem diagonal onto the
glyph so renderers see a nonempty base extent. -/
def drawGlyphExtents (upem : Nat) (g : Glyph) : Glyph :=
  { g with contours := g.contours ++ [.extent upem] }

/-! ## The glyf-style encoder (`_glyf_ufo`)

The run additionally records, per processed painted layer, which reuse key it
presented, which outline glyph its component ended up referencing, and whether
that glyph was created by this layer (the `reuse_key not in glyphs` branch) or
fetched from the reuse dict. -/

/-- One processed painted layer of a `_glyf_ufo` / `_colr_ufo` run: the reuse
key, the outline glyph referenced, and whether the glyph was newly created. -/
structure ReuseEvent where
  key : ReuseKey
  glyph : GName
  isNew : Bool
deriving DecidableEq, Repr

/-- Association-list lookup for the `glyphs` reuse dict. -/
def assocFind (key : ReuseKey) (glyphs : List (ReuseKey × GName)) : Option GName :=
  (glyphs.find? (·.1 = key)).map (·.2)

/-- The body shared by the per-layer loops of `_glyf_ufo` and `_colr_ufo`:
"if we've seen this shape before reuse it" — look the reuse key up, create a
glyph on a miss, register it, and return the outline glyph to reference. -/
def reuseLookup (ufo : UFO) (glyphs : List (ReuseKey × GName))
    (color_glyph : ColorGlyph) (painted_layer : PaintedLayer) :
    UFO × List (ReuseKey × GName) × GName × Bool :=
  let reuse_key := interGlyphReuseKey painted_layer
  match assocFind reuse_key glyphs with
  | none =>
    let (ufo', glyph) := createGlyph ufo color_glyph painted_layer
    (ufo', glyphs ++ [(reuse_key, glyph)], glyph, true)
  | some glyph => (ufo, glyphs, glyph, false)

/-- State threaded through a `_glyf_ufo` run: the font, the `glyphs` reuse
dict, and the log of processed layers. -/
structure GlyfState where
  ufo : UFO
  glyphs : List (ReuseKey × GName)
  log : List ReuseEvent
deriving Repr

/-- Inner loop body of `_glyf_ufo`: process one painted layer of
`color_glyph`, appending a component reference to the parent glyph. -/
def glyfLayer (color_glyph : ColorGlyph) (st : GlyfState) (painted_layer : PaintedLayer) :
    GlyfState :=
  let reuse_key := interGlyphReuseKey painted_layer
  let (ufo', glyphs', glyph, isNew) :=
    reuseLookup st.ufo st.glyphs color_glyph painted_layer
  let ufo'' := ufo'.modify color_glyph.glyph_name (fun pg =>
    { pg with components := pg.components ++ [UComponent.mk glyph Affine2D.identity] })
  { ufo := ufo'', glyphs := glyphs', log := st.log ++ [⟨reuse_key, glyph, isNew⟩] }

/-- Outer loop body of `_glyf_ufo`: process one color glyph's layers, then
collapse the parent onto its single component when there is exactly one
("no great reason to keep single-component glyphs around"). -/
def glyfGlyph (st : GlyfState) (color_glyph : ColorGlyph) : GlyfState :=
  let st' := color_glyph.layers.foldl (glyfLayer color_glyph) st
  match st'.ufo.get color_glyph.glyph_name with
  | none => st'
  | some parent_glyph =>
    if parent_glyph.components.length = 1 then
      match parent_glyph.components.head? with
      | none => st'
      | some comp =>
        match st'.ufo.get comp.baseGlyph with
        | some child => { st' with ufo := st'.ufo.setGlyph color_glyph.glyph_name child }
        | none => st'
    else st'

/-- `_glyf_ufo(ufo, color_glyphs)`. -/
def glyfUfo (ufo : UFO) (color_glyphs : List ColorGlyph) : GlyfState :=
  color_glyphs.foldl glyfGlyph { ufo := ufo, glyphs := [], log := [] }

/-! ## The COLR-style encoder (`_colr_paint`, `_colr_ufo`) -/

/-- `_colr_paint(colr_version, paint, palette)`: for COLRv0 the palette index
of the first available color on the layer; for COLRv1 the paint structure;
otherwise `ValueError`. -/
def colrPaint (colr_version : Nat) (paint : Paint) (palette : List Color) :
    Except BuildErr UfoPaint :=
  if colr_version = 0 then
    -- COLRv0: draw using the first available color on the glyph_layer
    match paint.colors.head? with
    | none => .error .stopIteration
    | some color => do
      let i ← listIndex palette color
      return .paletteIndex i
  else if colr_version = 1 then
    -- COLRv1: solid or gradient paint
    paint.to_ufo_paint palette
  else
    .error (.valueError s!"Unsupported COLR version: {colr_version}")

/-- The color stream `_colr_ufo` collects before sorting:
`(c if colr_version == 0 else c.opaque() for c in chain(g.colors() ...))`,
with Python's `set(...)` embedded as `dedup` (the enumeration order of the
set is irrelevant once sorted; see `colrUfoFrom`). -/
def colrColorSet (colr_version : Nat) (color_glyphs : List ColorGlyph) : List Color :=
  ((color_glyphs.flatMap ColorGlyph.colors).map
    (fun c => if colr_version = 0 then c else c.opaque)).dedup

/-- The sorted color palette of `_colr_ufo`: "Sort colors so the index into
colors == index into CPAL palette". -/
def colrPalette (colr_version : Nat) (color_glyphs : List ColorGlyph) : List Color :=
  (colrColorSet colr_version color_glyphs).mergeSort colorLe

/-- State threaded through a `_colr_ufo` run: the font, the `glyphs` reuse
dict, the accumulated `color_layers` dict, and the log of processed layers. -/
structure ColrState where
  ufo : UFO
  glyphs : List (ReuseKey × GName)
  colorLayers : List (GName × List (GName × UfoPaint))
  log : List ReuseEvent
deriving Repr

/-- Inner loop body of `_colr_ufo`: process one painted layer, reusing or
creating the outline glyph and computing its paint against the palette. -/
def colrLayer (colr_version : Nat) (colors : List Color) (color_glyph : ColorGlyph)
    (acc : ColrState × List (GName × UfoPaint)) (painted_layer : PaintedLayer) :
    Except BuildErr (ColrState × List (GName × UfoPaint)) := do
  let (st, glyph_colr_layers) := acc
  let reuse_key := interGlyphReuseKey painted_layer
  let (ufo', glyphs', glyph, isNew) :=
    reuseLookup st.ufo st.glyphs color_glyph painted_layer
  let paint ← colrPaint colr_version painted_layer.paint colors
  return ({ st with
            ufo := ufo'
            glyphs := glyphs'
            log := st.log ++ [⟨reuse_key, glyph, isNew⟩] },
          glyph_colr_layers ++ [(glyph, paint)])

/-- Outer loop body of `_colr_ufo`: accumulate the glyph's layers in z-order,
then draw the base glyph extents and record its color layers. -/
def colrGlyph (colr_version : Nat) (colors : List Color) (st : ColrState)
    (color_glyph : ColorGlyph) : Except BuildErr ColrState := do
  let (st', glyph_colr_layers) ←
    color_glyph.layers.foldlM (colrLayer colr_version colors color_glyph) (st, [])
  let ufo' := st'.ufo.modify color_glyph.glyph_name
    (drawGlyphExtents st'.ufo.upem)
  return { st' with
           ufo := ufo'
           colorLayers := st'.colorLayers ++ [(color_glyph.glyph_name, glyph_colr_layers)] }

/-- `_colr_ufo(colr_version, ufo, color_glyphs)`, parameterized over the
enumeration order `colorSet` that Python's `set(...)` happens to yield; the
palette is its sort. `colrUfo` instantiates it with the canonical order. -/
def colrUfoFrom (colorSet : List Color) (colr_version : Nat) (ufo : UFO)
    (color_glyphs : List ColorGlyph) : Except BuildErr ColrState := do
  let colors := colorSet.mergeSort colorLe
  -- KISS; use a single global palette
  let ufo₀ := { ufo with colorPalettes := [colors] }
  let st ← color_glyphs.foldlM (colrGlyph colr_version colors)
    { ufo := ufo₀, glyphs := [], colorLayers := [], log := [] }
  return { st with ufo := { st.ufo with colorLayers := st.colorLayers } }

/-- `_colr_ufo(colr_version, ufo, color_glyphs)`. -/
def colrUfo (colr_version : Nat) (ufo : UFO) (color_glyphs : List ColorGlyph) :
    Except BuildErr ColrState :=
  colrUfoFrom (colrColorSet colr_version color_glyphs) colr_version ufo color_glyphs

/-! ## `_not_impl` and the color format generator table -/

/-- `_not_impl(*_)`: raise `NotImplementedError("%s not implemented" %
FLAGS.color_format)`. -/
def notImpl (color_format : String) : Except BuildErr Unit :=
  .error (.notImplemented (color_format ++ " not implemented"))

/-! ## Python dicts as association lists -/

/-- Python dict assignment `m[k] = v` (overwrite or append). -/
def dictSet {κ ν : Type} [DecidableEq κ] (m : List (κ × ν)) (k : κ) (v : ν) :
    List (κ × ν) :=
  if m.any (·.1 = k) then m.map (fun p => if p.1 = k then (k, v) else p)
  else m ++ [(k, v)]

/-- Python dict lookup `m.get(k)`. -/
def dictGet? {κ ν : Type} [DecidableEq κ] (m : List (κ × ν)) (k : κ) : Option ν :=
  (m.find? (·.1 = k)).map (·.2)

/-! ## The disjoint set (`nanoemoji.disjoint_set.DisjointSet`)

Modelled from the spec (not under src): a union-find over glyph names whose
`sorted()` yields "a partition of all glyph names into groups, each internally
sorted for determinism, groups themselves ordered by their minimum member's
original position". The sets are kept in insertion order of their first member
and `union` merges the later set into the earlier one, so the group order is
by minimum original position. -/

/-- Modelled from the spec: `nanoemoji.disjoint_set.DisjointSet`. -/
structure DisjointSet where
  sets : List (List GName)
deriving DecidableEq, Repr

/-- Modelled from the spec: `DisjointSet.make_set(x)` — add a singleton set
for `x` unless `x` is already present. -/
def DisjointSet.make_set (ds : DisjointSet) (x : GName) : DisjointSet :=
  if ds.sets.any (fun s => s.contains x) then ds else ⟨ds.sets ++ [[x]]⟩

/-- Modelled from the spec: `DisjointSet.union(x, y)` — merge the set holding
`y` with the set holding `x` (into the earlier of the two). -/
def DisjointSet.union (ds : DisjointSet) (x y : GName) : DisjointSet :=
  match ds.sets.findIdx? (fun s => s.contains x),
        ds.sets.findIdx? (fun s => s.contains y) with
  | some i, some j =>
    if i = j then ds
    else
      let lo := min i j
      let hi := max i j
      ⟨(ds.sets.set lo (ds.sets.getD lo [] ++ ds.sets.getD hi [])).eraseIdx hi⟩
  | _, _ => ds

/-- Modelled from the spec: `DisjointSet.sorted()` — each group sorted, the
groups in order of their minimum member's original position (maintained by
`union`). -/
def DisjointSet.sorted (ds : DisjointSet) : List (List GName) :=
  ds.sets.map (fun s => s.mergeSort gnameLe)

/-! ## The embedded-document encoder (`_svg_*`) -/

/-- The layer loop body of `_svg_glyph_groups`: the first glyph to present a
reuse key owns it, any later glyph presenting the same key is unioned into
the owner's group. -/
def svgGroupsLayerStep (color_glyph_name : GName)
    (acc₂ : List (ReuseKey × GName) × DisjointSet) (painted_layer : PaintedLayer) :
    List (ReuseKey × GName) × DisjointSet :=
  let reuse_key := interGlyphReuseKey painted_layer
  match assocFind reuse_key acc₂.1 with
  | none => (acc₂.1 ++ [(reuse_key, color_glyph_name)], acc₂.2)
  | some owner => (acc₂.1, acc₂.2.union color_glyph_name owner)

/-- The glyph loop body of `_svg_glyph_groups`: make a set for the glyph,
then process its layers. -/
def svgGroupsGlyphStep (acc : List (ReuseKey × GName) × DisjointSet)
    (color_glyph : ColorGlyph) : List (ReuseKey × GName) × DisjointSet :=
  let acc := (acc.1, acc.2.make_set color_glyph.glyph_name)
  color_glyph.layers.foldl (svgGroupsLayerStep color_glyph.glyph_name) acc

/-- `_svg_glyph_groups(color_glyphs)`: find glyphs that need to be kept
together by union find. -/
def svgGlyphGroups (color_glyphs : List ColorGlyph) : List (List GName) :=
  (color_glyphs.foldl svgGroupsGlyphStep ([], ⟨[]⟩)).2.sorted

/-- Assign sequentially increasing glyph ids to the members of one group
(inner loop of `_svg_update_glyph_order`). -/
def assignSeq (gid : Nat) (m : List (GName × ColorGlyph)) :
    List GName → List (GName × ColorGlyph)
  | [] => m
  | glyph_name :: rest =>
    assignSeq (gid + 1)
      (m.map (fun p =>
        if p.1 = glyph_name then (p.1, { p.2 with glyph_id := gid }) else p))
      rest

/-- Assign glyph ids group by group, returning the updated color glyph dict
and the concatenation of the groups (the appended glyph order). -/
def assignGroups (gid : Nat) (m : List (GName × ColorGlyph)) :
    List (List GName) → List (GName × ColorGlyph) × List GName
  | [] => (m, [])
  | group :: rest =>
    let r := assignGroups (gid + group.length) (assignSeq gid m group) rest
    (r.1, group ++ r.2)

/-- An id occurring in an emitted SVG document. -/
inductive SvgId where
  | orig (s : String)
  | renamed (owner : GName) (orig : String)
  | child (parent : GName) (nth : Nat)
deriving DecidableEq, Repr

/-- A key of the `id_updates` dict, which is keyed both by original id
strings and by gradient serializations. -/
inductive IdKey where
  | ident (s : String)
  | xml (s : String)
deriving DecidableEq, Repr

/-- The fill of an emitted SVG shape, after `url(#...)` rewriting. -/
inductive SvgFill where
  | plain (value : String)
  | url (id : SvgId)
deriving DecidableEq, Repr

/-- A child element of a per-glyph SVG group: a drawn shape (with optional
id) or a `use` back-reference with optional x/y offsets. -/
inductive SvgEl where
  | shape (d : String) (fill : SvgFill) (id : Option SvgId)
  | use (href : SvgId) (x y : Option ℚ)
deriving DecidableEq, Repr

/-- `_add_unique_gradients(id_updates, svg_defs, color_glyph)`: copy the
glyph's gradients into the shared defs, deduplicated by serialization and
renamed to `f"{glyph_name}::{current_id}"`. -/
def addUniqueGradients (color_glyph_name : GName) (gradients : List GradientEl)
    (acc : List (IdKey × SvgId) × List (SvgId × String)) :
    List (IdKey × SvgId) × List (SvgId × String) :=
  gradients.foldl
    (fun (acc : List (IdKey × SvgId) × List (SvgId × String)) gradient =>
      let (id_updates, svg_defs) := acc
      let curr_id := gradient.id
      let new_id := SvgId.renamed color_glyph_name curr_id
      match dictGet? id_updates (.xml gradient.body) with
      | some existing => (dictSet id_updates (.ident curr_id) existing, svg_defs)
      | none =>
        (dictSet (dictSet id_updates (.ident curr_id) new_id) (.xml gradient.body) new_id,
         svg_defs ++ [(new_id, gradient.body)]))
    acc

/-- `_ensure_has_id(el)`: give the shape at index `idx` the id
`f'{parent_id}::{nth_child}'` if it has none (the parent group's id is the
glyph name; `nth_child` is the element's index among its siblings). -/
def ensureHasId (parent : GName) (children : List SvgEl) (idx : Nat) : List SvgEl :=
  match children.get? idx with
  | some (.shape d fill none) => children.set idx (.shape d fill (some (.child parent idx)))
  | _ => children

/-- The id of the element at `idx`, if any. -/
def getElId (children : List SvgEl) (idx : Nat) : Option SvgId :=
  match children.get? idx with
  | some (.shape _ _ (some i)) => some i
  | _ => none

/-- State of `_add_glyph_to_svg`'s layer loop: the children of the glyph's
group element and the intra-glyph `glyphs` reuse dict (shape key to the
index of the emitted shape element). -/
structure SvgGState where
  children : List SvgEl
  glyphs : List (ReuseKey × Nat)
deriving Repr

/-- Intra-glyph lookup in the `glyphs` dict of `_add_glyph_to_svg`. -/
def assocFindIdx (key : ReuseKey) (glyphs : List (ReuseKey × Nat)) : Option Nat :=
  (glyphs.find? (·.1 = key)).map (·.2)

/-- One iteration of the `for reuse in painted_layer.reuses` loop of
`_add_glyph_to_svg`: ensure the shape at `idx` has an id, append a `use`
back-reference carrying the reuse's translation as x/y (only when nonzero),
and raise `NotImplementedError` when stripping the translation off the reuse
transform leaves a residue (scale/rotation). -/
def svgReuseStep (parent : GName) (idx : Nat) (cs : List SvgEl) (reuse : Affine2D) :
    Except BuildErr (List SvgEl) :=
  let cs := ensureHasId parent cs idx
  let href := (getElId cs idx).getD (.child parent idx)
  let tx := reuse.gettranslate.1
  let ty := reuse.gettranslate.2
  let cs := cs ++ [.use href (if tx ≠ 0 then some tx else none)
                             (if ty ≠ 0 then some ty else none)]
  let transform := reuse.translate (-tx) (-ty)
  if transform ≠ Affine2D.identity then
    -- TODO apply scale and rotation. Just slap a transform on the use?
    .error (.notImplemented "TODO apply scale & rotation to use")
  else
    .ok cs

/-- One layer of `_add_glyph_to_svg`: emit the shape on a reuse-key miss
(plus one `use` per recorded intra-glyph reuse, via `svgReuseStep`); on a
hit emit a bare `use` of the earlier shape. -/
def addSvgLayer (color_glyph_name : GName) (id_updates : List (IdKey × SvgId))
    (st : SvgGState) (painted_layer : PaintedLayer) : Except BuildErr SvgGState := do
  let reuse_key := interGlyphReuseKey painted_layer
  match assocFindIdx reuse_key st.glyphs with
  | none =>
    let fill : SvgFill :=
      match painted_layer.path.fill with
      | .plain v => .plain v
      | .url gid => .url ((dictGet? id_updates (.ident gid)).getD (.orig gid))
    let idx := st.children.length
    let children₀ := st.children ++ [.shape painted_layer.path.d fill none]
    let glyphs' := st.glyphs ++ [(reuse_key, idx)]
    let children ← painted_layer.reuses.foldlM (svgReuseStep color_glyph_name idx) children₀
    return ⟨children, glyphs'⟩
  | some idx =>
    let children := ensureHasId color_glyph_name st.children idx
    let href := (getElId children idx).getD (.child color_glyph_name idx)
    return ⟨children ++ [.use href none none], st.glyphs⟩

/-- `_add_glyph_to_svg(svg, color_glyph, id_updates)`: the children of the
glyph's very own group element. -/
def addGlyphToSvg (color_glyph : ColorGlyph) (id_updates : List (IdKey × SvgId)) :
    Except BuildErr (List SvgEl) := do
  let st ← color_glyph.layers.foldlM (addSvgLayer color_glyph.glyph_name id_updates) ⟨[], []⟩
  return st.children

/-- One embedded SVG document: the shared defs and one group element per
glyph (id = glyph name) with that glyph's children. -/
structure SvgDoc where
  defs : List (SvgId × String)
  glyphGroups : List (GName × List SvgEl)
deriving DecidableEq, Repr

/-- `fontTools.ttLib.TTFont` as used by the embedded code: the glyph order
and the `SVG ` table (compression flag plus the doc list, each entry a
document and its inclusive `[min gid, max gid]` range). -/
structure TTFont where
  glyphOrder : List GName
  svgTable : Option (Bool × List (SvgDoc × Nat × Nat)) := none
deriving DecidableEq, Repr

/-- The portion of the original glyph order that survives
`_svg_update_glyph_order`: everything but the trailing color glyph block
(Python's `glyph_order[:-len(color_glyphs)]`, empty when there are no color
glyphs since `[:-0]` is `[:0]`). -/
def svgBaseOrder (numColorGlyphs : Nat) (ttfont : TTFont) : List GName :=
  if numColorGlyphs = 0 then []
  else ttfont.glyphOrder.take (ttfont.glyphOrder.length - numColorGlyphs)

/-- `_svg_update_glyph_order(color_glyphs, ttfont, reuse_groups)`: svg
requires glyphs in the same doc to have sequential gids; strip the trailing
color glyph block off the glyph order, then re-append the color glyphs group
by group with sequentially increasing gids (Python's `order[:-n]` is empty
when `n == 0`). -/
def svgUpdateGlyphOrder (color_glyphs : List (GName × ColorGlyph)) (ttfont : TTFont)
    (reuse_groups : List (List GName)) : List (GName × ColorGlyph) × TTFont :=
  let glyph_order :=
    if color_glyphs.length = 0 then []
    else ttfont.glyphOrder.take (ttfont.glyphOrder.length - color_glyphs.length)
  let gid := glyph_order.length
  let (color_glyphs', appended) := assignGroups gid color_glyphs reuse_groups
  (color_glyphs', { ttfont with glyphOrder := glyph_order ++ appended })

/-- Minimum of a list of glyph ids (Python `min(gids)`; 0 on the empty list,
which does not occur: groups are nonempty). -/
def natListMin : List Nat → Nat
  | [] => 0
  | x :: xs => xs.foldl Nat.min x

/-- Maximum of a list of glyph ids (Python `max(gids)`). -/
def natListMax : List Nat → Nat
  | [] => 0
  | x :: xs => xs.foldl Nat.max x

/-- Build one group's document: per member, copy its unique gradients into
the shared defs, then add the glyph's group element (members missing from the
dict are skipped; the groups partition the dict's keys, so this does not
occur). -/
def svgDocForGroup (color_glyphs : List (GName × ColorGlyph))
    (id_updates : List (IdKey × SvgId)) (group : List GName) :
    Except BuildErr (SvgDoc × List (IdKey × SvgId)) := do
  let (doc, id_updates) ← group.foldlM
    (fun (acc : SvgDoc × List (IdKey × SvgId)) g => do
      match dictGet? color_glyphs g with
      | none => return acc
      | some color_glyph =>
        let (id_updates', svg_defs') :=
          addUniqueGradients color_glyph.glyph_name color_glyph.gradients
            (acc.2, acc.1.defs)
        let children ← addGlyphToSvg color_glyph id_updates'
        return (⟨svg_defs', acc.1.glyphGroups ++ [(color_glyph.glyph_name, children)]⟩,
                id_updates'))
    (⟨[], []⟩, id_updates)
  return (doc, id_updates)

/-- One iteration of `_svg_ttfont`'s doc loop: build the group's document and
record it with the inclusive `[min gid, max gid]` range of the group. -/
def svgDocStep (color_glyphs : List (GName × ColorGlyph))
    (acc : List (SvgDoc × Nat × Nat) × List (IdKey × SvgId)) (group : List GName) :
    Except BuildErr (List (SvgDoc × Nat × Nat) × List (IdKey × SvgId)) := do
  let (doc, id_updates) ← svgDocForGroup color_glyphs acc.2 group
  let gids := group.map (fun g => ((dictGet? color_glyphs g).map (·.glyph_id)).getD 0)
  return (acc.1 ++ [(doc, natListMin gids, natListMax gids)], id_updates)

/-- `_svg_ttfont(_, color_glyphs, ttfont, zip)`: build an SVG table
optimizing for reuse of shapes — group glyphs by shared reuse keys, reassign
glyph ids so groups are contiguous, and emit one document per group recording
the inclusive `[min gid, max gid]` range it covers. -/
def svgTtfont (color_glyphs : List ColorGlyph) (ttfont : TTFont) (zip : Bool) :
    Except BuildErr TTFont := do
  let reuse_groups := svgGlyphGroups color_glyphs
  let color_glyphs := color_glyphs.map (fun c => (c.glyph_name, c))
  let r := svgUpdateGlyphOrder color_glyphs ttfont reuse_groups
  let res ← reuse_groups.foldlM (svgDocStep r.1) ([], [])
  return { r.2 with svgTable := some (zip, res.1) }

/-! ## Feature rule generation (`_generate_fea`) -/

/-- One line of the generated feature text. `sub glyphs target` renders as
`"  sub g1 g2 ... by target;"`, `languagesystem s l` as
`"languagesystem s l;"`, `featureOpen t` as `"feature t {"` and
`featureClose t` as `"} t;"`. -/
inductive FeaLine where
  | languagesystem (script lang : String)
  | featureOpen (tag : String)
  | sub (glyphs : List GName) (target : GName)
  | featureClose (tag : String)
deriving DecidableEq, Repr

/-- Python's tuple comparison on `(rgi, target)` pairs, as used by
`sorted(rgi_sequences)`: by codepoint sequence, ties by target name. -/
def rgiLe (p₁ p₂ : List Nat × GName) : Bool :=
  if p₁.1 = p₂.1 then gnameLe p₁.2 p₂.2 else listLexLe p₁.1 p₂.1

/-- `_generate_fea(rgi_sequences)`: the default script/language boilerplate
and, inside the `rlig` feature, one substitution rule per multi-codepoint
sequence in sorted order (single-codepoint sequences are skipped). -/
def generateFea (rgi_sequences : List (List Nat × GName)) : List FeaLine :=
  let rules := [FeaLine.languagesystem "DFLT" "dflt",
                FeaLine.languagesystem "latn" "dflt",
                FeaLine.featureOpen "rlig"]
  let rules := (rgi_sequences.mergeSort rgiLe).foldl
    (fun rules p =>
      if p.1.length = 1 then rules
      else rules ++ [FeaLine.sub (p.1.map GName.fromCp) p.2])
    rules
  rules ++ [FeaLine.featureClose "rlig"]

/-! ## Blank glyphs for indirectly used codepoints
(`_ensure_codepoints_will_have_glyphs`) -/

/-- `InputGlyph`: filename, codepoints, artwork. The artwork document is
external (picosvg) and not consumed by the embedded functions. -/
structure InputGlyph where
  filename : String
  codepoints : List Nat
  picosvg : Unit := ()
deriving DecidableEq, Repr

/-- Python `set.update`, with the set as an insertion-ordered list. -/
def pySetUpdate (s : List Nat) (xs : List Nat) : List Nat :=
  xs.foldl (fun s x => if x ∈ s then s else s ++ [x]) s

/-- The set-collection loop of `_ensure_codepoints_will_have_glyphs`,
accumulating `(all_codepoints, direct_mapped_codepoints)`. -/
def collectGo (acc : List Nat × List Nat) : List InputGlyph → List Nat × List Nat
  | [] => acc
  | gi :: rest =>
    let direct :=
      if gi.codepoints.length = 1 then pySetUpdate acc.2 gi.codepoints else acc.2
    collectGo (pySetUpdate acc.1 gi.codepoints, direct) rest

/-- `(all_codepoints, direct_mapped_codepoints)` of
`_ensure_codepoints_will_have_glyphs`. -/
def collectCodepointSets (glyph_inputs : List InputGlyph) : List Nat × List Nat :=
  collectGo ([], []) glyph_inputs

/-- The glyph-creation loop of `_ensure_codepoints_will_have_glyphs`: one
blank glyph per codepoint needing one, collecting the created names. -/
def addBlankGo (acc : UFO × List GName) : List Nat → UFO × List GName
  | [] => acc
  | codepoint :: rest =>
    -- Any layer is fine; we aren't going to draw
    let g := GName.fromCp codepoint
    addBlankGo
      ((acc.1.newGlyph g).modify g (fun glyph => { glyph with unicode := some codepoint }),
       acc.2 ++ [g])
      rest

/-- The blank glyphs added for `need_blanks`, plus the collected names. -/
def addBlankGlyphs (ufo : UFO) (need_blanks : List Nat) : UFO × List GName :=
  addBlankGo (ufo, []) need_blanks

/-- `need_blanks = all_codepoints - direct_mapped_codepoints`. -/
def needBlanks (glyph_inputs : List InputGlyph) : List Nat :=
  (collectCodepointSets glyph_inputs).1.filter
    (· ∉ (collectCodepointSets glyph_inputs).2)

/-- `_ensure_codepoints_will_have_glyphs(ufo, glyph_inputs)`: add a blank
glyph, mapped to its codepoint, for every codepoint used only in
multi-codepoint sequences; extend the glyph order by the sorted new names. -/
def ensureCodepointsWillHaveGlyphs (ufo : UFO) (glyph_inputs : List InputGlyph) : UFO :=
  { (addBlankGlyphs ufo (needBlanks glyph_inputs)).1 with
    glyphOrder := (addBlankGlyphs ufo (needBlanks glyph_inputs)).1.glyphOrder ++
      (addBlankGlyphs ufo (needBlanks glyph_inputs)).2.mergeSort gnameLe }

/-- `_ufo(family, upem, keep_glyph_names)`, restricted to its glyph-set
effect: a fresh font with `.notdef` and a blank `.space` of width upem
mapped to the space codepoint (name metadata is external). -/
def makeUfo (upem : Nat) : UFO :=
  { upem := upem
    glyphs := [{ name := .notdef }, { name := .space, width := upem, unicode := some 0x20 }]
    glyphOrder := [.notdef, .space] }

/-! ## The color format generator table (`_COLOR_FORMAT_GENERATORS`) -/

/-- `ColorGenerator`: `apply_ufo` updates the generated UFO, `apply_ttfont`
allows fixups after compilation. -/
structure ColorGenerator where
  apply_ufo : UFO → List ColorGlyph → Except BuildErr UFO
  apply_ttfont : UFO → List ColorGlyph → TTFont → Except BuildErr TTFont

/-- `_COLOR_FORMAT_GENERATORS`: the dispatch from color format name to its
two generator phases; `cbdt` and `sbix` raise `_not_impl` in both phases. -/
def colorFormatGenerators : String → Option ColorGenerator
  | "glyf" => some ⟨fun ufo cgs => .ok (glyfUfo ufo cgs).ufo, fun _ _ t => .ok t⟩
  | "colr_0" => some ⟨fun ufo cgs => (colrUfo 0 ufo cgs).map (·.ufo), fun _ _ t => .ok t⟩
  | "colr_1" => some ⟨fun ufo cgs => (colrUfo 1 ufo cgs).map (·.ufo), fun _ _ t => .ok t⟩
  | "svg" => some ⟨fun ufo _ => .ok ufo, fun _ cgs t => svgTtfont cgs t false⟩
  | "svgz" => some ⟨fun ufo _ => .ok ufo, fun _ cgs t => svgTtfont cgs t true⟩
  | "cbdt" => some ⟨fun ufo _ => (notImpl "cbdt").map (fun _ => ufo),
                    fun _ _ t => (notImpl "cbdt").map (fun _ => t)⟩
  | "sbix" => some ⟨fun ufo _ => (notImpl "sbix").map (fun _ => ufo),
                    fun _ _ t => (notImpl "sbix").map (fun _ => t)⟩
  | _ => none

/-! # Theorems -/

/-- C9: selecting either bitmap color format (`cbdt` or `sbix`) raises a
not-implemented error in both the glyph-set phase (`apply_ufo`) and the
compiled-container phase (`apply_ttfont`) — neither silently degrades to
another format — and requesting a palette version other than 0 or 1 makes
`_colr_paint` raise a `ValueError` naming the unsupported version. -/
theorem bitmap_formats_not_implemented_and_bad_colr_version_fails :
    (∀ fmt ∈ ["cbdt", "sbix"],
      ∃ gen, colorFormatGenerators fmt = some gen ∧
        (∀ ufo color_glyphs, gen.apply_ufo ufo color_glyphs =
          .error (.notImplemented (fmt ++ " not implemented"))) ∧
        (∀ ufo color_glyphs ttfont, gen.apply_ttfont ufo color_glyphs ttfont =
          .error (.notImplemented (fmt ++ " not implemented")))) ∧
    (∀ colr_version paint palette, colr_version ≠ 0 → colr_version ≠ 1 →
      colrPaint colr_version paint palette =
        .error (.valueError s!"Unsupported COLR version: {colr_version}")) := by
  constructor
  · intro fmt hfmt
    rcases List.mem_cons.mp hfmt with rfl | hfmt
    · exact ⟨_, rfl, fun _ _ => rfl, fun _ _ _ => rfl⟩
    rcases List.mem_cons.mp hfmt with rfl | hfmt
    · exact ⟨_, rfl, fun _ _ => rfl, fun _ _ _ => rfl⟩
    · simp at hfmt
  · intro v paint palette h0 h1
    simp [colrPaint, h0, h1]

/-! ### C3: reuse transform round-trip in embedded-document mode -/

/-- Stripping its own translation off an affine leaves the identity exactly
when the affine is a pure translation. -/
theorem translate_back_eq_identity_iff (r : Affine2D) :
    r.translate (-r.e) (-r.f) = Affine2D.identity ↔
      (r.a = 1 ∧ r.b = 0 ∧ r.c = 0 ∧ r.d = 1) := by
  obtain ⟨a, b, c, d, e, f⟩ := r
  unfold Affine2D.translate Affine2D.product Affine2D.identity
  by_cases h : -e = 0 ∧ -f = 0
  · rw [if_pos h]
    obtain ⟨he, hf⟩ := h
    simp only [Affine2D.mk.injEq]
    constructor
    · rintro ⟨h₁, h₂, h₃, h₄, -, -⟩
      exact ⟨h₁, h₂, h₃, h₄⟩
    · rintro ⟨h₁, h₂, h₃, h₄⟩
      refine ⟨h₁, h₂, h₃, h₄, by linarith, by linarith⟩
  · rw [if_neg h]
    simp only [Affine2D.mk.injEq]
    constructor
    · rintro ⟨h₁, h₂, h₃, h₄, -, -⟩
      constructor
      · linarith
      refine ⟨by linarith, by linarith, by linarith⟩
    · rintro ⟨h₁, h₂, h₃, h₄⟩
      subst h₁; subst h₂; subst h₃; subst h₄
      norm_num

/-- The `use` element `svgReuseStep` emits for the reuse transform `r`. -/
def useFor (parent : GName) (idx : Nat) (r : Affine2D) : SvgEl :=
  .use (.child parent idx) (if r.e ≠ 0 then some r.e else none)
                           (if r.f ≠ 0 then some r.f else none)

theorem exceptBind_ok {ε α β : Type} (x : α) (f : α → Except ε β) :
    (Except.ok x >>= f) = f x := rfl

theorem exceptBind_error {ε α β : Type} (e : ε) (f : α → Except ε β) :
    ((Except.error e : Except ε α) >>= f) = Except.error e := rfl

theorem set_concat_length {α : Type} (xs : List α) (x y : α) :
    (xs ++ [x]).set xs.length y = xs ++ [y] := by
  simp [List.set_append]

theorem ensureHasId_of_some (parent : GName) (cs : List SvgEl) (idx : Nat)
    (d : String) (fill : SvgFill) (i : SvgId)
    (h : cs.get? idx = some (.shape d fill (some i))) :
    ensureHasId parent cs idx = cs := by
  unfold ensureHasId
  rw [h]

theorem ensureHasId_of_none (parent : GName) (cs : List SvgEl) (idx : Nat)
    (d : String) (fill : SvgFill)
    (h : cs.get? idx = some (.shape d fill none)) :
    ensureHasId parent cs idx = cs.set idx (.shape d fill (some (.child parent idx))) := by
  unfold ensureHasId
  rw [h]

theorem getElId_of_some (cs : List SvgEl) (idx : Nat)
    (d : String) (fill : SvgFill) (i : SvgId)
    (h : cs.get? idx = some (.shape d fill (some i))) :
    getElId cs idx = some i := by
  unfold getElId
  rw [h]

/-- `svgReuseStep` on a shape that already has its id: appends the `use` on
a pure translation, raises `NotImplementedError` otherwise. -/
theorem svgReuseStep_of_some (parent : GName) (idx : Nat) (cs : List SvgEl)
    (r : Affine2D) (d : String) (fill : SvgFill)
    (h : cs.get? idx = some (.shape d fill (some (.child parent idx)))) :
    svgReuseStep parent idx cs r =
      if r.a = 1 ∧ r.b = 0 ∧ r.c = 0 ∧ r.d = 1 then
        .ok (cs ++ [useFor parent idx r])
      else .error (.notImplemented "TODO apply scale & rotation to use") := by
  simp only [svgReuseStep, ensureHasId_of_some parent cs idx d fill _ h,
    getElId_of_some cs idx d fill _ h, Option.getD_some, Affine2D.gettranslate]
  by_cases hp : r.a = 1 ∧ r.b = 0 ∧ r.c = 0 ∧ r.d = 1
  · have hid : r.translate (-r.e) (-r.f) = Affine2D.identity :=
      (translate_back_eq_identity_iff r).mpr hp
    rw [if_pos hp]
    simp [hid, useFor]
  · have hid : r.translate (-r.e) (-r.f) ≠ Affine2D.identity := by
      intro hcon
      exact hp ((translate_back_eq_identity_iff r).mp hcon)
    rw [if_neg hp]
    simp [hid]

/-- `get?` at an index strictly inside the left part of an append. -/
theorem get?_append_left' {α : Type} {xs ys : List α} {i : Nat} {x : α}
    (h : xs.get? i = some x) : (xs ++ ys).get? i = some x := by
  have hlt : i < xs.length := by
    by_contra hge
    rw [List.get?_eq_getElem?, List.getElem?_eq_none (by omega)] at h
    exact Option.noConfusion h
  rw [List.get?_eq_getElem?, List.getElem?_append_left hlt, ← List.get?_eq_getElem?]
  exact h

/-- The reuse-loop fold, for a shape that already has its id: all pure
translations succeed and append their `use` elements in order; a reuse with
any non-translation component fails the whole fold. -/
theorem svgReuseFold (parent : GName) (idx : Nat) (d : String) (fill : SvgFill) :
    ∀ (rs : List Affine2D) (cs : List SvgEl),
    cs.get? idx = some (.shape d fill (some (.child parent idx))) →
    ((∀ r ∈ rs, r.a = 1 ∧ r.b = 0 ∧ r.c = 0 ∧ r.d = 1) →
      rs.foldlM (svgReuseStep parent idx) cs = .ok (cs ++ rs.map (useFor parent idx))) ∧
    ((∃ r ∈ rs, ¬(r.a = 1 ∧ r.b = 0 ∧ r.c = 0 ∧ r.d = 1)) →
      rs.foldlM (svgReuseStep parent idx) cs =
        .error (.notImplemented "TODO apply scale & rotation to use")) := by
  intro rs
  induction rs with
  | nil =>
    intro cs h
    constructor
    · intro _
      simp only [List.foldlM_nil, List.map_nil, List.append_nil]
      rfl
    · rintro ⟨r, hr, -⟩
      simp at hr
  | cons r rs ih =>
    intro cs h
    have hstep := svgReuseStep_of_some parent idx cs r d fill h
    by_cases hp : r.a = 1 ∧ r.b = 0 ∧ r.c = 0 ∧ r.d = 1
    · rw [if_pos hp] at hstep
      have h' : (cs ++ [useFor parent idx r]).get? idx =
          some (.shape d fill (some (.child parent idx))) := get?_append_left' h
      constructor
      · intro hall
        rw [List.foldlM_cons, hstep, exceptBind_ok,
          ((ih (cs ++ [useFor parent idx r]) h').1
            (fun x hx => hall x (List.mem_cons_of_mem r hx)))]
        simp
      · rintro ⟨x, hx, hxnp⟩
        rcases List.mem_cons.mp hx with rfl | hx'
        · exact absurd hp hxnp
        rw [List.foldlM_cons, hstep, exceptBind_ok,
          ((ih (cs ++ [useFor parent idx r]) h').2 ⟨x, hx', hxnp⟩)]
    · rw [if_neg hp] at hstep
      constructor
      · intro hall
        exact absurd (hall r (List.mem_cons_self r rs)) hp
      · rintro -
        rw [List.foldlM_cons, hstep, exceptBind_error]

/-- `svgReuseStep` on a shape that does not yet have an id: the first
iteration assigns the id, then behaves like `svgReuseStep_of_some`. -/
theorem svgReuseStep_of_none (parent : GName) (idx : Nat) (cs : List SvgEl)
    (r : Affine2D) (d : String) (fill : SvgFill)
    (h : cs.get? idx = some (.shape d fill none)) :
    svgReuseStep parent idx cs r =
      if r.a = 1 ∧ r.b = 0 ∧ r.c = 0 ∧ r.d = 1 then
        .ok (cs.set idx (.shape d fill (some (.child parent idx))) ++ [useFor parent idx r])
      else .error (.notImplemented "TODO apply scale & rotation to use") := by
  have hlt : idx < cs.length := by
    by_contra hge
    rw [List.get?_eq_getElem?, List.getElem?_eq_none (by omega)] at h
    exact Option.noConfusion h
  have hset : (cs.set idx (.shape d fill (some (.child parent idx)))).get? idx =
      some (.shape d fill (some (.child parent idx))) := by
    rw [List.get?_eq_getElem?]
    exact List.getElem?_set_self (by simpa using hlt)
  simp only [svgReuseStep, ensureHasId_of_none parent cs idx d fill h,
    getElId_of_some _ _ d fill _ hset, Option.getD_some, Affine2D.gettranslate]
  by_cases hp : r.a = 1 ∧ r.b = 0 ∧ r.c = 0 ∧ r.d = 1
  · have hid : r.translate (-r.e) (-r.f) = Affine2D.identity :=
      (translate_back_eq_identity_iff r).mpr hp
    rw [if_pos hp]
    simp [hid, useFor]
  · have hid : r.translate (-r.e) (-r.f) ≠ Affine2D.identity := by
      intro hcon
      exact hp ((translate_back_eq_identity_iff r).mp hcon)
    rw [if_neg hp]
    simp [hid]

/-- C3: in embedded-document mode, a painted layer whose recorded reuses are
pure translations emits, per reuse `(tx, ty)`, a back-reference `use`
carrying exactly the offset `(tx, ty)` (an absent attribute is 0) and
nothing else; and a layer with any non-translation reuse transform makes
`_add_glyph_to_svg` raise `NotImplementedError` instead of dropping data. -/
theorem svg_reuse_translation_roundtrip_and_nontranslation_fatal
    (g : GName) (id_updates : List (IdKey × SvgId)) (st : SvgGState)
    (pl : PaintedLayer)
    (hkey : assocFindIdx (interGlyphReuseKey pl) st.glyphs = none) :
    ((∀ r ∈ pl.reuses, r.a = 1 ∧ r.b = 0 ∧ r.c = 0 ∧ r.d = 1) → pl.reuses ≠ [] →
      ∃ fill, addSvgLayer g id_updates st pl = .ok
        ⟨(st.children ++
            [.shape pl.path.d fill (some (.child g st.children.length))]) ++
          pl.reuses.map (useFor g st.children.length),
         st.glyphs ++ [(interGlyphReuseKey pl, st.children.length)]⟩ ∧
        ∀ r ∈ pl.reuses,
          ((if r.e ≠ 0 then some r.e else none).getD 0,
           (if r.f ≠ 0 then some r.f else none).getD 0) = r.gettranslate) ∧
    ((∃ r ∈ pl.reuses, ¬(r.a = 1 ∧ r.b = 0 ∧ r.c = 0 ∧ r.d = 1)) →
      addSvgLayer g id_updates st pl =
        .error (.notImplemented "TODO apply scale & rotation to use")) := by
  have hunfold : addSvgLayer g id_updates st pl =
      (pl.reuses.foldlM (svgReuseStep g st.children.length)
        (st.children ++ [.shape pl.path.d
          (match pl.path.fill with
           | .plain v => .plain v
           | .url gid => .url ((dictGet? id_updates (.ident gid)).getD (.orig gid))) none]))
      >>= fun children => pure
        ⟨children, st.glyphs ++ [(interGlyphReuseKey pl, st.children.length)]⟩ := by
    unfold addSvgLayer
    simp only [hkey]
  set fill : SvgFill :=
    match pl.path.fill with
    | .plain v => .plain v
    | .url gid => .url ((dictGet? id_updates (.ident gid)).getD (.orig gid)) with hfill
  set idx := st.children.length with hidx
  have hshape₀ : (st.children ++ [SvgEl.shape pl.path.d fill none]).get? idx =
      some (.shape pl.path.d fill none) := List.get?_concat_length _ _
  have hset₁ : (st.children ++ [SvgEl.shape pl.path.d fill none]).set idx
      (.shape pl.path.d fill (some (.child g idx))) =
      st.children ++ [SvgEl.shape pl.path.d fill (some (.child g idx))] :=
    set_concat_length _ _ _
  have hshape₁ : (st.children ++ [SvgEl.shape pl.path.d fill (some (.child g idx))]).get? idx =
      some (.shape pl.path.d fill (some (.child g idx))) := List.get?_concat_length _ _
  constructor
  · intro hall hne
    refine ⟨fill, ?_, ?_⟩
    · cases hrs : pl.reuses with
      | nil => exact absurd hrs hne
      | cons r rs =>
        have hr := hall r (by rw [hrs]; exact List.mem_cons_self r rs)
        have hstep₁ := svgReuseStep_of_none g idx
          (st.children ++ [SvgEl.shape pl.path.d fill none]) r pl.path.d fill hshape₀
        rw [if_pos hr, hset₁] at hstep₁
        have h' : ((st.children ++ [SvgEl.shape pl.path.d fill (some (.child g idx))]) ++
            [useFor g idx r]).get? idx =
            some (.shape pl.path.d fill (some (.child g idx))) := get?_append_left' hshape₁
        have hfold := (svgReuseFold g idx pl.path.d fill rs _ h').1
          (fun x hx => hall x (by rw [hrs]; exact List.mem_cons_of_mem r hx))
        rw [hunfold, hrs, List.foldlM_cons, hstep₁, exceptBind_ok, hfold, exceptBind_ok]
        simp [List.append_assoc, pure, Except.pure]
    · intro r hr
      have h := hall r hr
      simp only [Affine2D.gettranslate, Prod.mk.injEq]
      constructor
      · by_cases he : r.e = 0 <;> simp [he]
      · by_cases hf : r.f = 0 <;> simp [hf]
  · rintro ⟨r, hr, hnp⟩
    cases hrs : pl.reuses with
    | nil => rw [hrs] at hr; simp at hr
    | cons r₀ rs =>
      have hstep₁ := svgReuseStep_of_none g idx
        (st.children ++ [SvgEl.shape pl.path.d fill none]) r₀ pl.path.d fill hshape₀
      by_cases hp₀ : r₀.a = 1 ∧ r₀.b = 0 ∧ r₀.c = 0 ∧ r₀.d = 1
      · rw [if_pos hp₀, hset₁] at hstep₁
        have h' : ((st.children ++ [SvgEl.shape pl.path.d fill (some (.child g idx))]) ++
            [useFor g idx r₀]).get? idx =
            some (.shape pl.path.d fill (some (.child g idx))) := get?_append_left' hshape₁
        have hmem : r ∈ rs := by
          rw [hrs] at hr
          rcases List.mem_cons.mp hr with rfl | hx
          · exact absurd hp₀ hnp
          · exact hx
        have hfold := (svgReuseFold g idx pl.path.d fill rs _ h').2 ⟨r, hmem, hnp⟩
        rw [hunfold, hrs, List.foldlM_cons, hstep₁, exceptBind_ok, hfold]
        rfl
      · rw [if_neg hp₀] at hstep₁
        rw [hunfold, hrs, List.foldlM_cons, hstep₁]
        rfl

/-- Witness for C3: a concrete pure-translation reuse `(5, 7)` and a
concrete scaled reuse, processed from the empty group state. -/
theorem svg_reuse_translation_roundtrip_witness :
    (assocFindIdx (interGlyphReuseKey
        ⟨⟨"M0,0 L1,1 Z", .plain "#fff"⟩, .solid ⟨1, 2, 3, 255⟩, [⟨1, 0, 0, 1, 5, 7⟩]⟩) [] = none ∧
      (∃ fill, addSvgLayer (.fromCps [0x1F600]) [] ⟨[], []⟩
        ⟨⟨"M0,0 L1,1 Z", .plain "#fff"⟩, .solid ⟨1, 2, 3, 255⟩, [⟨1, 0, 0, 1, 5, 7⟩]⟩ =
        .ok ⟨([] ++ [.shape "M0,0 L1,1 Z" fill (some (.child (.fromCps [0x1F600]) 0))]) ++
               [useFor (.fromCps [0x1F600]) 0 ⟨1, 0, 0, 1, 5, 7⟩],
             [] ++ [((("M0,0 L1,1 Z" : String), [(⟨1, 0, 0, 1, 5, 7⟩ : Affine2D)]), 0)]⟩ ∧
        ∀ r ∈ [(⟨1, 0, 0, 1, 5, 7⟩ : Affine2D)],
          ((if r.e ≠ 0 then some r.e else none).getD 0,
           (if r.f ≠ 0 then some r.f else none).getD 0) = r.gettranslate)) ∧
    (addSvgLayer (.fromCps [0x1F600]) [] ⟨[], []⟩
        ⟨⟨"M0,0 L1,1 Z", .plain "#fff"⟩, .solid ⟨1, 2, 3, 255⟩, [⟨2, 0, 0, 2, 5, 7⟩]⟩ =
        .error (.notImplemented "TODO apply scale & rotation to use")) := by
  have hkey₁ : assocFindIdx (interGlyphReuseKey
      ⟨⟨"M0,0 L1,1 Z", .plain "#fff"⟩, .solid ⟨1, 2, 3, 255⟩, [⟨1, 0, 0, 1, 5, 7⟩]⟩) [] = none := by
    rfl
  have hkey₂ : assocFindIdx (interGlyphReuseKey
      ⟨⟨"M0,0 L1,1 Z", .plain "#fff"⟩, .solid ⟨1, 2, 3, 255⟩, [⟨2, 0, 0, 2, 5, 7⟩]⟩) [] = none := by
    rfl
  refine ⟨⟨hkey₁, ?_⟩, ?_⟩
  · exact (svg_reuse_translation_roundtrip_and_nontranslation_fatal
        (.fromCps [0x1F600]) [] ⟨[], []⟩ _ hkey₁).1
        (by intro r hr; simp at hr; rw [hr]; exact ⟨rfl, rfl, rfl, rfl⟩)
        (by simp)
  · exact (svg_reuse_translation_roundtrip_and_nontranslation_fatal
        (.fromCps [0x1F600]) [] ⟨[], []⟩ _ hkey₂).2
        ⟨⟨2, 0, 0, 2, 5, 7⟩, by simp, by intro h; exact absurd h.1 (by norm_num)⟩

/-- Witness for C9: the theorem applied at `cbdt` and at version 2. -/
theorem bitmap_formats_not_implemented_witness :
    ("cbdt" ∈ ["cbdt", "sbix"] ∧
      ∃ gen, colorFormatGenerators "cbdt" = some gen ∧
        gen.apply_ufo (makeUfo 1024) [] =
          .error (.notImplemented "cbdt not implemented")) ∧
    ((2 : Nat) ≠ 0 ∧ (2 : Nat) ≠ 1 ∧
      colrPaint 2 (.solid ⟨0, 0, 0, 255⟩) [] =
        .error (.valueError s!"Unsupported COLR version: {(2 : Nat)}")) := by
  constructor
  · refine ⟨by decide, ?_⟩
    rcases (bitmap_formats_not_implemented_and_bad_colr_version_fails.1 "cbdt"
      (by decide)) with ⟨gen, hgen, hufo, -⟩
    exact ⟨gen, hgen, hufo (makeUfo 1024) []⟩
  · exact ⟨by decide, by decide,
      bitmap_formats_not_implemented_and_bad_colr_version_fails.2 2
        (.solid ⟨0, 0, 0, 255⟩) [] (by decide) (by decide)⟩

/-! ### C4: blank glyphs for indirectly used codepoints -/

theorem fromCp_injective : Function.Injective GName.fromCp := by
  intro a b h
  injection h

theorem mem_pySetUpdate (x : Nat) : ∀ (xs s : List Nat),
    x ∈ pySetUpdate s xs ↔ x ∈ s ∨ x ∈ xs := by
  intro xs
  induction xs with
  | nil => simp [pySetUpdate]
  | cons y ys ih =>
    intro s
    show x ∈ List.foldl _ (if y ∈ s then s else s ++ [y]) ys ↔ _
    rw [show List.foldl (fun s x => if x ∈ s then s else s ++ [x])
        (if y ∈ s then s else s ++ [y]) ys =
        pySetUpdate (if y ∈ s then s else s ++ [y]) ys from rfl, ih]
    by_cases hy : y ∈ s
    · simp only [if_pos hy, List.mem_cons]
      constructor
      · rintro (h | h)
        · exact Or.inl h
        · exact Or.inr (Or.inr h)
      · rintro (h | rfl | h)
        · exact Or.inl h
        · exact Or.inl hy
        · exact Or.inr h
    · simp only [if_neg hy, List.mem_append, List.mem_singleton, List.mem_cons]
      tauto

theorem nodup_pySetUpdate : ∀ (xs s : List Nat), s.Nodup → (pySetUpdate s xs).Nodup := by
  intro xs
  induction xs with
  | nil => intro s hs; exact hs
  | cons y ys ih =>
    intro s hs
    show (List.foldl _ (if y ∈ s then s else s ++ [y]) ys).Nodup
    rw [show List.foldl (fun s x => if x ∈ s then s else s ++ [x])
        (if y ∈ s then s else s ++ [y]) ys =
        pySetUpdate (if y ∈ s then s else s ++ [y]) ys from rfl]
    apply ih
    by_cases hy : y ∈ s
    · simpa [hy] using hs
    · rw [if_neg hy]
      simpa [List.nodup_append] using ⟨hs, hy⟩

theorem collectGo_spec (x : Nat) : ∀ (inputs : List InputGlyph) (acc : List Nat × List Nat),
    (x ∈ (collectGo acc inputs).1 ↔ x ∈ acc.1 ∨ ∃ gi ∈ inputs, x ∈ gi.codepoints) ∧
    (x ∈ (collectGo acc inputs).2 ↔ x ∈ acc.2 ∨ ∃ gi ∈ inputs, gi.codepoints = [x]) ∧
    (acc.1.Nodup → (collectGo acc inputs).1.Nodup) := by
  intro inputs
  induction inputs with
  | nil => intro acc; simp [collectGo]
  | cons gi rest ih =>
    intro acc
    simp only [collectGo]
    obtain ⟨ih1, ih2, ih3⟩ := ih (pySetUpdate acc.1 gi.codepoints,
      if gi.codepoints.length = 1 then pySetUpdate acc.2 gi.codepoints else acc.2)
    refine ⟨?_, ?_, ?_⟩
    · rw [ih1]
      simp only [mem_pySetUpdate]
      constructor
      · rintro (⟨h | h⟩ | ⟨g, hg, hx⟩)
        · exact Or.inl h
        · exact Or.inr ⟨gi, List.mem_cons_self _ _, h⟩
        · exact Or.inr ⟨g, List.mem_cons_of_mem _ hg, hx⟩
      · rintro (h | ⟨g, hg, hx⟩)
        · exact Or.inl (Or.inl h)
        · rcases List.mem_cons.mp hg with rfl | hg'
          · exact Or.inl (Or.inr hx)
          · exact Or.inr ⟨g, hg', hx⟩
    · rw [ih2]
      by_cases hlen : gi.codepoints.length = 1
      · rw [if_pos hlen]
        simp only [mem_pySetUpdate]
        constructor
        · rintro (⟨h | h⟩ | ⟨g, hg, hx⟩)
          · exact Or.inl h
          · refine Or.inr ⟨gi, List.mem_cons_self _ _, ?_⟩
            cases hcps : gi.codepoints with
            | nil => rw [hcps] at h; simp at h
            | cons c cs =>
              rw [hcps] at hlen h
              have hcs : cs = [] := by simpa using hlen
              subst hcs
              simp at h
              rw [h]
          · exact Or.inr ⟨g, List.mem_cons_of_mem _ hg, hx⟩
        · rintro (h | ⟨g, hg, hx⟩)
          · exact Or.inl (Or.inl h)
          · rcases List.mem_cons.mp hg with rfl | hg'
            · exact Or.inl (Or.inr (by rw [hx]; exact List.mem_singleton_self x))
            · exact Or.inr ⟨g, hg', hx⟩
      · rw [if_neg hlen]
        constructor
        · rintro (h | ⟨g, hg, hx⟩)
          · exact Or.inl h
          · exact Or.inr ⟨g, List.mem_cons_of_mem _ hg, hx⟩
        · rintro (h | ⟨g, hg, hx⟩)
          · exact Or.inl h
          · rcases List.mem_cons.mp hg with rfl | hg'
            · exfalso
              rw [hx] at hlen
              simp at hlen
            · exact Or.inr ⟨g, hg', hx⟩
    · intro hnd
      exact ih3 (nodup_pySetUpdate _ _ hnd)

/-- The blank glyph created for a codepoint. -/
def blankGlyph (codepoint : Nat) : Glyph :=
  { name := GName.fromCp codepoint, unicode := some codepoint }

theorem addBlankGo_spec : ∀ (nb : List Nat) (ufo₀ : UFO) (names₀ : List GName),
    (∀ cp ∈ nb, GName.fromCp cp ∉ ufo₀.names) → nb.Nodup →
    addBlankGo (ufo₀, names₀) nb =
      ({ ufo₀ with glyphs := ufo₀.glyphs ++ nb.map blankGlyph },
       names₀ ++ nb.map GName.fromCp) := by
  intro nb
  induction nb with
  | nil => intro ufo₀ names₀ _ _; simp [addBlankGo]
  | cons cp rest ih =>
    intro ufo₀ names₀ hfresh hnd
    simp only [addBlankGo]
    have hstep : (ufo₀.newGlyph (GName.fromCp cp)).modify (GName.fromCp cp)
        (fun glyph => { glyph with unicode := some cp }) =
        { ufo₀ with glyphs := ufo₀.glyphs ++ [blankGlyph cp] } := by
      have hgne : ∀ g ∈ ufo₀.glyphs,
          (if g.name = GName.fromCp cp then
            ({ g with unicode := some cp } : Glyph) else g) = id g := by
        intro g hg
        have hne : ¬(g.name = GName.fromCp cp) := by
          intro hcon
          exact hfresh cp (List.mem_cons_self _ _)
            (by rw [← hcon]; exact List.mem_map_of_mem _ hg)
        rw [if_neg hne]
        rfl
      have h₁ : List.map (fun g => if g.name = GName.fromCp cp then
          ({ g with unicode := some cp } : Glyph) else g) ufo₀.glyphs = ufo₀.glyphs := by
        rw [List.map_congr_left hgne, List.map_id]
      unfold UFO.newGlyph UFO.modify
      simp only [List.map_append, h₁]
      simp [blankGlyph]
    rw [hstep]
    have hfresh' : ∀ c ∈ rest, GName.fromCp c ∉
        ({ ufo₀ with glyphs := ufo₀.glyphs ++ [blankGlyph cp] } : UFO).names := by
      intro c hc
      have hcp : c ≠ cp := by
        intro rfl'
        subst rfl'
        exact (List.nodup_cons.mp hnd).1 hc
      have h₁ := hfresh c (List.mem_cons_of_mem _ hc)
      simp only [UFO.names, List.map_append] at h₁ ⊢
      intro hcon
      rcases List.mem_append.mp hcon with h | h
      · exact h₁ (by simpa [UFO.names] using h)
      · simp [blankGlyph] at h
        exact hcp h
    rw [ih _ _ hfresh' (List.nodup_cons.mp hnd).2]
    simp [List.append_assoc, blankGlyph]

theorem find?_blank (cp : Nat) : ∀ nb : List Nat, cp ∈ nb →
    (nb.map blankGlyph).find? (fun g => g.name = GName.fromCp cp) =
      some (blankGlyph cp) := by
  intro nb
  induction nb with
  | nil => intro h; simp at h
  | cons c rest ih =>
    intro h
    by_cases hc : c = cp
    · subst hc
      simp [List.find?, blankGlyph]
    · have hne : (GName.fromCp c = GName.fromCp cp) = False := by
        simp only [eq_iff_iff, iff_false]
        intro hcon
        exact hc (fromCp_injective hcon)
      rcases List.mem_cons.mp h with rfl | h'
      · exact absurd rfl hc
      · simp only [List.map_cons, List.find?, blankGlyph, hne]
        simpa [blankGlyph] using ih h'

/-- C4 (corrected): `_ensure_codepoints_will_have_glyphs` adds one blank
glyph, mapped to its codepoint, for exactly those codepoints that occur in
some sequence but never as a sole codepoint, and appends the new names to
the glyph order sorted by codepoint. On the example batch `{(0x1F600,),
(0x1F600, 0x200D, 0x1F648)}` this means blanks for both `0x200D` and
`0x1F648` — `0x1F648` also never occurs alone — and none for `0x1F600`; the
claim's assertion that no blank is added for `0x1F648` contradicts the code
(see the counterexample below). -/
theorem ensure_codepoints_blank_glyphs (ufo : UFO) (glyph_inputs : List InputGlyph)
    (hfresh : ∀ cp, GName.fromCp cp ∉ ufo.names) :
    (∀ cp, GName.fromCp cp ∈ (ensureCodepointsWillHaveGlyphs ufo glyph_inputs).names ↔
      ((∃ gi ∈ glyph_inputs, cp ∈ gi.codepoints) ∧
        ¬∃ gi ∈ glyph_inputs, gi.codepoints = [cp])) ∧
    (∀ cp, GName.fromCp cp ∈ (ensureCodepointsWillHaveGlyphs ufo glyph_inputs).names →
      (ensureCodepointsWillHaveGlyphs ufo glyph_inputs).get (GName.fromCp cp) =
        some (blankGlyph cp)) ∧
    (∃ suffix, (ensureCodepointsWillHaveGlyphs ufo glyph_inputs).glyphOrder =
        ufo.glyphOrder ++ suffix ∧
      (∀ n ∈ suffix, ∃ cp, n = GName.fromCp cp ∧
        GName.fromCp cp ∈ (ensureCodepointsWillHaveGlyphs ufo glyph_inputs).names) ∧
      (∀ cp, GName.fromCp cp ∈ (ensureCodepointsWillHaveGlyphs ufo glyph_inputs).names →
        GName.fromCp cp ∈ suffix) ∧
      suffix.Pairwise (fun n₁ n₂ => ∀ a b, n₁ = GName.fromCp a → n₂ = GName.fromCp b →
        a ≤ b)) := by
  have hsets := fun x => collectGo_spec x glyph_inputs ([], [])
  set nb := needBlanks glyph_inputs with hnb
  have hnbmem : ∀ cp, cp ∈ nb ↔
      ((∃ gi ∈ glyph_inputs, cp ∈ gi.codepoints) ∧
        ¬∃ gi ∈ glyph_inputs, gi.codepoints = [cp]) := by
    intro cp
    rw [hnb]
    unfold needBlanks collectCodepointSets
    rw [List.mem_filter]
    obtain ⟨h1, h2, -⟩ := hsets cp
    constructor
    · rintro ⟨ha, hd⟩
      have ha' := h1.mp ha
      simp only [List.not_mem_nil, false_or] at ha'
      refine ⟨ha', ?_⟩
      intro hcon
      rw [decide_eq_true_eq] at hd
      exact hd (h2.mpr (Or.inr hcon))
    · rintro ⟨ha, hd⟩
      refine ⟨h1.mpr (Or.inr ha), ?_⟩
      rw [decide_eq_true_eq]
      intro hcon
      rcases h2.mp hcon with h | h
      · simp at h
      · exact hd h
  have hnbnd : nb.Nodup := by
    obtain ⟨-, -, h3⟩ := hsets 0
    rw [hnb]
    unfold needBlanks collectCodepointSets
    exact (h3 (List.nodup_nil)).filter _
  have hfresh' : ∀ cp ∈ nb, GName.fromCp cp ∉ ufo.names := fun cp _ => hfresh cp
  have hblank := addBlankGo_spec nb ufo [] hfresh' hnbnd
  have hmain : ensureCodepointsWillHaveGlyphs ufo glyph_inputs =
      { ufo with
        glyphs := ufo.glyphs ++ nb.map blankGlyph
        glyphOrder := ufo.glyphOrder ++ (nb.map GName.fromCp).mergeSort gnameLe } := by
    unfold ensureCodepointsWillHaveGlyphs addBlankGlyphs
    rw [← hnb, hblank]
    simp
  have hnames : (ensureCodepointsWillHaveGlyphs ufo glyph_inputs).names =
      ufo.names ++ nb.map GName.fromCp := by
    rw [hmain]
    simp [UFO.names, List.map_map, blankGlyph]
  have hmemnames : ∀ cp, GName.fromCp cp ∈
      (ensureCodepointsWillHaveGlyphs ufo glyph_inputs).names ↔ cp ∈ nb := by
    intro cp
    rw [hnames, List.mem_append]
    constructor
    · rintro (h | h)
      · exact absurd h (hfresh cp)
      · rcases List.mem_map.mp h with ⟨c, hc, hceq⟩
        rwa [← fromCp_injective hceq]
    · intro h
      exact Or.inr (List.mem_map_of_mem _ h)
  refine ⟨?_, ?_, ?_⟩
  · intro cp
    rw [hmemnames, hnbmem]
  · intro cp hmem
    have hcpnb : cp ∈ nb := (hmemnames cp).mp hmem
    rw [hmain]
    unfold UFO.get
    simp only []
    rw [List.find?_append]
    have hnone : ufo.glyphs.find? (fun g => g.name = GName.fromCp cp) = none := by
      rw [List.find?_eq_none]
      intro g hg
      simp only [decide_eq_true_eq]
      intro hcon
      exact hfresh cp (by rw [← hcon]; exact List.mem_map_of_mem _ hg)
    rw [hnone, Option.none_or]
    exact find?_blank cp nb hcpnb
  · refine ⟨(nb.map GName.fromCp).mergeSort gnameLe, ?_, ?_, ?_, ?_⟩
    · rw [hmain]
    · intro n hn
      have hn' := (List.mergeSort_perm (nb.map GName.fromCp) gnameLe).mem_iff.mp hn
      rcases List.mem_map.mp hn' with ⟨cp, hcp, rfl⟩
      exact ⟨cp, rfl, (hmemnames cp).mpr hcp⟩
    · intro cp hmem
      have hcpnb : cp ∈ nb := (hmemnames cp).mp hmem
      exact (List.mergeSort_perm (nb.map GName.fromCp) gnameLe).mem_iff.mpr
        (List.mem_map_of_mem _ hcpnb)
    · have hsorted := @List.sorted_mergeSort GName gnameLe
        (fun _ _ _ h₁ h₂ => gnameLe_trans h₁ h₂) gnameLe_total (nb.map GName.fromCp)
      refine hsorted.imp ?_
      intro n₁ n₂ h a b ha hb
      subst ha; subst hb
      rw [gnameLe_fromCp] at h
      exact of_decide_eq_true h

/-- Witness for C4: the example batch `{(0x1F600,), (0x1F600, 0x200D,
0x1F648)}` — a blank glyph exists for `0x200D` (and `0x1F648`) but not for
`0x1F600`. -/
theorem ensure_codepoints_blank_glyphs_witness :
    (∀ cp, GName.fromCp cp ∉ (makeUfo 1024).names) ∧
    (GName.fromCp 0x200D ∈ (ensureCodepointsWillHaveGlyphs (makeUfo 1024)
      [⟨"emoji_u1f600.svg", [0x1F600], ()⟩,
       ⟨"emoji_u1f600_200d_1f648.svg", [0x1F600, 0x200D, 0x1F648], ()⟩]).names ↔
      ((∃ gi ∈ [(⟨"emoji_u1f600.svg", [0x1F600], ()⟩ : InputGlyph),
          ⟨"emoji_u1f600_200d_1f648.svg", [0x1F600, 0x200D, 0x1F648], ()⟩],
          0x200D ∈ gi.codepoints) ∧
        ¬∃ gi ∈ [(⟨"emoji_u1f600.svg", [0x1F600], ()⟩ : InputGlyph),
          ⟨"emoji_u1f600_200d_1f648.svg", [0x1F600, 0x200D, 0x1F648], ()⟩],
          gi.codepoints = [0x200D])) ∧
    GName.fromCp 0x200D ∈ (ensureCodepointsWillHaveGlyphs (makeUfo 1024)
      [⟨"emoji_u1f600.svg", [0x1F600], ()⟩,
       ⟨"emoji_u1f600_200d_1f648.svg", [0x1F600, 0x200D, 0x1F648], ()⟩]).names ∧
    GName.fromCp 0x1F600 ∉ (ensureCodepointsWillHaveGlyphs (makeUfo 1024)
      [⟨"emoji_u1f600.svg", [0x1F600], ()⟩,
       ⟨"emoji_u1f600_200d_1f648.svg", [0x1F600, 0x200D, 0x1F648], ()⟩]).names := by
  have hfresh : ∀ cp, GName.fromCp cp ∉ (makeUfo 1024).names := by
    intro cp
    simp [makeUfo, UFO.names]
  have h := (ensure_codepoints_blank_glyphs (makeUfo 1024)
    [⟨"emoji_u1f600.svg", [0x1F600], ()⟩,
     ⟨"emoji_u1f600_200d_1f648.svg", [0x1F600, 0x200D, 0x1F648], ()⟩] hfresh).1
  refine ⟨hfresh, h 0x200D, ?_, ?_⟩
  · rw [h 0x200D]
    refine ⟨⟨⟨"emoji_u1f600_200d_1f648.svg", [0x1F600, 0x200D, 0x1F648], ()⟩,
      by simp, by decide⟩, ?_⟩
    rintro ⟨gi, hgi, hcps⟩
    rcases List.mem_cons.mp hgi with rfl | hgi'
    · simp at hcps
    rcases List.mem_cons.mp hgi' with rfl | hgi''
    · simp at hcps
    · simp at hgi''
  · rw [h 0x1F600]
    rintro ⟨-, hno⟩
    exact hno ⟨⟨"emoji_u1f600.svg", [0x1F600], ()⟩, by simp, rfl⟩

/-- Counterexample to C4's example: on the batch `{(0x1F600,), (0x1F600,
0x200D, 0x1F648)}`, `need_blanks = all_codepoints - direct_mapped_codepoints
= {0x200D, 0x1F648}`, so a blank glyph IS added for `0x1F648` (it never
appears as a sole codepoint), mapped to its codepoint — contrary to the
claim's assertion that no blank is added for `0x1F648`. -/
theorem ensure_codepoints_blank_glyphs_counterexample :
    needBlanks
      [⟨"emoji_u1f600.svg", [0x1F600], ()⟩,
       ⟨"emoji_u1f600_200d_1f648.svg", [0x1F600, 0x200D, 0x1F648], ()⟩] =
      [0x200D, 0x1F648] ∧
    GName.fromCp 0x1F648 ∈ (ensureCodepointsWillHaveGlyphs (makeUfo 1024)
      [⟨"emoji_u1f600.svg", [0x1F600], ()⟩,
       ⟨"emoji_u1f600_200d_1f648.svg", [0x1F600, 0x200D, 0x1F648], ()⟩]).names ∧
    (ensureCodepointsWillHaveGlyphs (makeUfo 1024)
      [⟨"emoji_u1f600.svg", [0x1F600], ()⟩,
       ⟨"emoji_u1f600_200d_1f648.svg", [0x1F600, 0x200D, 0x1F648], ()⟩]).get
      (GName.fromCp 0x1F648) = some (blankGlyph 0x1F648) := by
  refine ⟨by decide, by decide, by decide⟩

/-! ### C7: ligature rule emission -/

theorem rgiLe_total (p₁ p₂ : List Nat × GName) : (rgiLe p₁ p₂ || rgiLe p₂ p₁) = true := by
  unfold rgiLe
  by_cases h : p₁.1 = p₂.1
  · rw [if_pos h, if_pos h.symm]
    exact gnameLe_total _ _
  · rw [if_neg h, if_neg (Ne.symm h)]
    exact listLexLe_total _ _

theorem rgiLe_trans {p₁ p₂ p₃ : List Nat × GName} (h₁ : rgiLe p₁ p₂ = true)
    (h₂ : rgiLe p₂ p₃ = true) : rgiLe p₁ p₃ = true := by
  unfold rgiLe at h₁ h₂ ⊢
  by_cases e₁₂ : p₁.1 = p₂.1 <;> by_cases e₂₃ : p₂.1 = p₃.1
  · rw [if_pos e₁₂] at h₁
    rw [if_pos e₂₃] at h₂
    rw [if_pos (e₁₂.trans e₂₃)]
    exact gnameLe_trans h₁ h₂
  · rw [if_neg e₂₃] at h₂
    have hne : p₁.1 ≠ p₃.1 := by rw [e₁₂]; exact e₂₃
    rw [if_neg hne, e₁₂]
    exact h₂
  · rw [if_neg e₁₂] at h₁
    have hne : p₁.1 ≠ p₃.1 := by rw [← e₂₃]; exact e₁₂
    rw [if_neg hne, ← e₂₃]
    exact h₁
  · rw [if_neg e₁₂] at h₁
    rw [if_neg e₂₃] at h₂
    by_cases e₁₃ : p₁.1 = p₃.1
    · exfalso
      rw [← e₁₃] at h₂
      exact e₁₂ (listLexLe_antisymm h₁ h₂)
    · rw [if_neg e₁₃]
      exact listLexLe_trans h₁ h₂

/-- The rule (if any) `_generate_fea` emits for one `(rgi, target)` pair. -/
def feaRuleFor (p : List Nat × GName) : Option FeaLine :=
  if p.1.length = 1 then none
  else some (.sub (p.1.map GName.fromCp) p.2)

theorem feaRules_foldl_eq (l : List (List Nat × GName)) (acc : List FeaLine) :
    l.foldl (fun rules p =>
      if p.1.length = 1 then rules
      else rules ++ [FeaLine.sub (p.1.map GName.fromCp) p.2]) acc =
    acc ++ l.filterMap feaRuleFor := by
  induction l generalizing acc with
  | nil => simp
  | cons p l ih =>
    by_cases h : p.1.length = 1
    · simp [h, ih, feaRuleFor]
    · simp [h, ih, feaRuleFor]

theorem count_filterMap_eq {α β : Type} [DecidableEq α] [DecidableEq β]
    (f : α → Option β) (b : β) (p : α) (hf : ∀ a, f a = some b ↔ a = p) :
    ∀ l : List α, (l.filterMap f).count b = l.count p := by
  intro l
  induction l with
  | nil => simp
  | cons a l ih =>
    rw [List.filterMap_cons]
    cases hfa : f a with
    | none =>
      have hne : a ≠ p := by
        intro rfl
        rw [(hf a).mpr rfl] at hfa
        exact Option.noConfusion hfa
      rw [List.count_cons]
      simp [hne, ih]
    | some c =>
      by_cases hcb : c = b
      · subst hcb
        have : a = p := (hf a).mp hfa
        subst this
        rw [List.count_cons, List.count_cons]
        simp [ih]
      · have hne : a ≠ p := by
          intro rfl
          rw [(hf a).mpr rfl] at hfa
          exact hcb (Option.some.inj hfa).symm
        rw [List.count_cons, List.count_cons]
        simp [hne, hcb, ih]

/-- C7: for every input list of `(codepoint sequence, target glyph)` pairs
with distinct sequences, `_generate_fea` emits the fixed default
script/language boilerplate around the `rlig` feature; inside it, the rules
are exactly one substitution "input glyphs to target" per sequence of length
greater than 1, none for single-codepoint sequences, listed in the sorted
order of the sequences. -/
theorem generate_fea_rules (rgis : List (List Nat × GName))
    (hnodup : (rgis.map Prod.fst).Nodup) :
    (generateFea rgis =
      [.languagesystem "DFLT" "dflt", .languagesystem "latn" "dflt", .featureOpen "rlig"] ++
      (rgis.mergeSort rgiLe).filterMap feaRuleFor ++
      [.featureClose "rlig"]) ∧
    List.Pairwise (fun p q => rgiLe p q = true) (rgis.mergeSort rgiLe) ∧
    (∀ p ∈ rgis, 1 < p.1.length →
      (generateFea rgis).count (.sub (p.1.map GName.fromCp) p.2) = 1) ∧
    (∀ glyphs target, glyphs.length = 1 → FeaLine.sub glyphs target ∉ generateFea rgis) := by
  have hdecomp : generateFea rgis =
      [.languagesystem "DFLT" "dflt", .languagesystem "latn" "dflt", .featureOpen "rlig"] ++
      (rgis.mergeSort rgiLe).filterMap feaRuleFor ++ [.featureClose "rlig"] := by
    simp only [generateFea]
    rw [feaRules_foldl_eq]
  refine ⟨hdecomp,
    @List.sorted_mergeSort _ rgiLe (fun _ _ _ h₁ h₂ => rgiLe_trans h₁ h₂) rgiLe_total rgis,
    ?_, ?_⟩
  · intro p hp hlen
    have hinj : ∀ q, feaRuleFor q = some (.sub (p.1.map GName.fromCp) p.2) ↔ q = p := by
      intro q
      constructor
      · intro hq
        unfold feaRuleFor at hq
        by_cases h1 : q.1.length = 1
        · rw [if_pos h1] at hq
          exact Option.noConfusion hq
        · rw [if_neg h1] at hq
          have := Option.some.inj hq
          have hgs : q.1.map GName.fromCp = p.1.map GName.fromCp := by
            injection this
          have ht : q.2 = p.2 := by
            injection this
          have hfst : q.1 = p.1 :=
            List.map_injective_iff.mpr fromCp_injective hgs
          exact Prod.ext hfst ht
      · rintro rfl
        unfold feaRuleFor
        rw [if_neg (by omega)]
    rw [hdecomp]
    rw [List.count_append, List.count_append]
    have hboiler : ([FeaLine.languagesystem "DFLT" "dflt",
        FeaLine.languagesystem "latn" "dflt",
        FeaLine.featureOpen "rlig"]).count (FeaLine.sub (p.1.map GName.fromCp) p.2) = 0 := by
      simp [List.count_cons]
    have hclose : ([FeaLine.featureClose "rlig"]).count
        (FeaLine.sub (p.1.map GName.fromCp) p.2) = 0 := by
      simp [List.count_cons]
    rw [hboiler, hclose,
      count_filterMap_eq feaRuleFor _ p hinj,
      (List.mergeSort_perm rgis rgiLe).count_eq,
      List.count_eq_one_of_mem (hnodup.of_map Prod.fst) hp]
  · intro glyphs target hlen hmem
    rw [hdecomp] at hmem
    rw [List.append_assoc] at hmem
    rcases List.mem_append.mp hmem with hb | hmem
    · simp at hb
    rcases List.mem_append.mp hmem with hmid | hc
    · rcases List.mem_filterMap.mp hmid with ⟨q, -, hq⟩
      unfold feaRuleFor at hq
      by_cases h1 : q.1.length = 1
      · rw [if_pos h1] at hq
        exact Option.noConfusion hq
      · rw [if_neg h1] at hq
        have hpair := FeaLine.sub.inj (Option.some.inj hq)
        apply h1
        rw [← hpair.1] at hlen
        simpa using hlen
    · simp at hc

/-- Witness for C7: the example batch with the man-technologist sequence and
a single-codepoint sequence. -/
theorem generate_fea_rules_witness :
    (([([0x1F468, 0x200D, 0x1F4BB], GName.fromCps [0x1F468, 0x200D, 0x1F4BB]),
       ([0x1F600], GName.fromCps [0x1F600])].map Prod.fst).Nodup) ∧
    (generateFea [([0x1F468, 0x200D, 0x1F4BB], GName.fromCps [0x1F468, 0x200D, 0x1F4BB]),
       ([0x1F600], GName.fromCps [0x1F600])]).count
      (.sub ([0x1F468, 0x200D, 0x1F4BB].map GName.fromCp)
        (GName.fromCps [0x1F468, 0x200D, 0x1F4BB])) = 1 ∧
    (∀ target, FeaLine.sub [GName.fromCp 0x1F600] target ∉
      generateFea [([0x1F468, 0x200D, 0x1F4BB], GName.fromCps [0x1F468, 0x200D, 0x1F4BB]),
        ([0x1F600], GName.fromCps [0x1F600])]) := by
  refine ⟨by decide, ?_, ?_⟩
  · exact (generate_fea_rules _ (by decide)).2.2.1
      ([0x1F468, 0x200D, 0x1F4BB], GName.fromCps [0x1F468, 0x200D, 0x1F4BB])
      (by simp) (by decide)
  · intro target
    exact (generate_fea_rules _ (by decide)).2.2.2 [GName.fromCp 0x1F600] target (by decide)

/-! ### C5, C8, C10: the COLR palette and paint encodings -/

theorem listIndex_of_mem {α : Type} [DecidableEq α] {x : α} :
    ∀ l : List α, x ∈ l →
    listIndex l x = .ok (paletteIdx l x) ∧ l.get? (paletteIdx l x) = some x := by
  intro l
  induction l with
  | nil => intro h; simp at h
  | cons y rest ih =>
    intro h
    by_cases hy : y = x
    · subst hy
      constructor
      · simp [listIndex, paletteIdx, Except.toOption]
      · simp [listIndex, paletteIdx, Except.toOption]
    · have hx : x ∈ rest := by
        rcases List.mem_cons.mp h with rfl | h'
        · exact absurd rfl hy
        · exact h'
      obtain ⟨ih1, ih2⟩ := ih hx
      have hidx : listIndex (y :: rest) x = .ok (paletteIdx rest x + 1) := by
        show (if y = x then Except.ok 0 else (listIndex rest x).map (· + 1)) = _
        rw [if_neg hy, ih1]
        rfl
      have hpi : paletteIdx (y :: rest) x = paletteIdx rest x + 1 := by
        rw [paletteIdx, hidx]
        rfl
      refine ⟨by rw [hidx, hpi], ?_⟩
      rw [hpi]
      simpa using ih2

theorem mem_colrPalette (colr_version : Nat) (color_glyphs : List ColorGlyph) (c : Color) :
    c ∈ colrPalette colr_version color_glyphs ↔
      c ∈ (color_glyphs.flatMap ColorGlyph.colors).map
        (fun x => if colr_version = 0 then x else x.opaque) := by
  unfold colrPalette colrColorSet
  rw [(List.mergeSort_perm _ colorLe).mem_iff, List.mem_dedup]

theorem paint_color_mem_glyph_colors {cg : ColorGlyph} {pl : PaintedLayer} {c : Color}
    (hpl : pl ∈ cg.layers) (hc : c ∈ pl.paint.colors) : c ∈ cg.colors := by
  unfold ColorGlyph.colors
  exact List.mem_flatMap.mpr ⟨pl, hpl, hc⟩

theorem stopsToUfo_ok (palette : List Color) :
    ∀ stops : List ColorStop, (∀ s ∈ stops, s.color.opaque ∈ palette) →
    stopsToUfo palette stops =
      .ok (stops.map (fun s => (s.offset, paletteIdx palette s.color.opaque, s.color.alpha))) := by
  intro stops
  induction stops with
  | nil => intro _; rfl
  | cons s rest ih =>
    intro h
    show ((listIndex palette s.color.opaque) >>= fun i =>
      (stopsToUfo palette rest) >>= fun entries =>
        pure ((s.offset, i, s.color.alpha) :: entries)) = _
    rw [(listIndex_of_mem palette (h s (List.mem_cons_self s rest))).1, exceptBind_ok,
      ih (fun x hx => h x (List.mem_cons_of_mem s hx)), exceptBind_ok]
    rfl

/-- The v0 palette contains exactly the colors used by the glyphs. -/
theorem mem_colrPalette_zero (color_glyphs : List ColorGlyph) (c : Color) :
    c ∈ colrPalette 0 color_glyphs ↔ ∃ cg ∈ color_glyphs, c ∈ cg.colors := by
  have hmap : (color_glyphs.flatMap ColorGlyph.colors).map
      (fun x => if 0 = 0 then x else x.opaque) = color_glyphs.flatMap ColorGlyph.colors := by
    simp
  rw [mem_colrPalette, hmap]
  exact List.mem_flatMap

/-- The v1 palette contains exactly the opaque reductions of used colors. -/
theorem mem_colrPalette_one (color_glyphs : List ColorGlyph) (c : Color) :
    c ∈ colrPalette 1 color_glyphs ↔
      ∃ cg ∈ color_glyphs, ∃ c', c' ∈ cg.colors ∧ c = c'.opaque := by
  rw [mem_colrPalette]
  constructor
  · intro h
    rcases List.mem_map.mp h with ⟨c', hc', hceq⟩
    rcases List.mem_flatMap.mp hc' with ⟨cg, hcg, hmem⟩
    exact ⟨cg, hcg, c', hmem, by simpa using hceq.symm⟩
  · rintro ⟨cg, hcg, c', hmem, rfl⟩
    apply List.mem_map.mpr
    exact ⟨c', List.mem_flatMap.mpr ⟨cg, hcg, hmem⟩, by simp⟩

/-- `_colr_paint` at version 0 on a paint whose first color is in the
palette: the palette index of that color. -/
theorem colrPaint_zero_eval (paint : Paint) (palette : List Color) (c : Color)
    (hhead : paint.colors.head? = some c) (hmem : c ∈ palette) :
    colrPaint 0 paint palette = .ok (.paletteIndex (paletteIdx palette c)) := by
  unfold colrPaint
  rw [if_pos rfl, hhead]
  show ((listIndex palette c) >>= fun i => pure (UfoPaint.paletteIndex i)) = _
  rw [(listIndex_of_mem palette hmem).1, exceptBind_ok]
  rfl

/-- C5: under COLR v0 the palette holds every distinct color used by any
glyph and each layer's paint is the palette index of the first color of its
paint descriptor (a gradient reduces to exactly one index, its first stop's
color); under COLR v1 the palette holds only the opaque reductions of used
colors, and a gradient is a structure with one palette index per stop plus
the stop positions. -/
theorem colr_palette_versions (color_glyphs : List ColorGlyph) :
    (∀ c, c ∈ colrPalette 0 color_glyphs ↔ ∃ cg ∈ color_glyphs, c ∈ cg.colors) ∧
    (∀ cg ∈ color_glyphs, ∀ pl ∈ cg.layers, ∀ c, pl.paint.colors.head? = some c →
      colrPaint 0 pl.paint (colrPalette 0 color_glyphs) =
        .ok (.paletteIndex (paletteIdx (colrPalette 0 color_glyphs) c)) ∧
      (colrPalette 0 color_glyphs).get? (paletteIdx (colrPalette 0 color_glyphs) c) =
        some c) ∧
    (∀ cg ∈ color_glyphs, ∀ pl ∈ cg.layers, ∀ stops s,
      (pl.paint = .linearGradient stops ∨ pl.paint = .radialGradient stops) →
      stops.head? = some s →
      colrPaint 0 pl.paint (colrPalette 0 color_glyphs) =
        .ok (.paletteIndex (paletteIdx (colrPalette 0 color_glyphs) s.color))) ∧
    (∀ c, c ∈ colrPalette 1 color_glyphs ↔
      ∃ cg ∈ color_glyphs, ∃ c', c' ∈ cg.colors ∧ c = c'.opaque) ∧
    (∀ cg ∈ color_glyphs, ∀ pl ∈ cg.layers, ∀ stops,
      (pl.paint = .linearGradient stops ∨ pl.paint = .radialGradient stops) →
      ∃ entries,
        (colrPaint 1 pl.paint (colrPalette 1 color_glyphs) = .ok (.linearGradient entries) ∨
         colrPaint 1 pl.paint (colrPalette 1 color_glyphs) = .ok (.radialGradient entries)) ∧
        entries = stops.map (fun s =>
          (s.offset, paletteIdx (colrPalette 1 color_glyphs) s.color.opaque, s.color.alpha)) ∧
        ∀ s ∈ stops,
          (colrPalette 1 color_glyphs).get?
              (paletteIdx (colrPalette 1 color_glyphs) s.color.opaque) =
            some s.color.opaque) := by
  have hpart2 : ∀ cg ∈ color_glyphs, ∀ pl ∈ cg.layers, ∀ c, pl.paint.colors.head? = some c →
      colrPaint 0 pl.paint (colrPalette 0 color_glyphs) =
        .ok (.paletteIndex (paletteIdx (colrPalette 0 color_glyphs) c)) ∧
      (colrPalette 0 color_glyphs).get? (paletteIdx (colrPalette 0 color_glyphs) c) =
        some c := by
    intro cg hcg pl hpl c hhead
    have hcmem : c ∈ pl.paint.colors := by
      cases hcol : pl.paint.colors with
      | nil => rw [hcol] at hhead; exact Option.noConfusion hhead
      | cons x rest =>
        rw [hcol] at hhead
        have hx : x = c := by simpa using hhead
        rw [hx]
        exact List.mem_cons_self c rest
    have hpal : c ∈ colrPalette 0 color_glyphs :=
      (mem_colrPalette_zero color_glyphs c).mpr
        ⟨cg, hcg, paint_color_mem_glyph_colors hpl hcmem⟩
    exact ⟨colrPaint_zero_eval pl.paint _ c hhead hpal, (listIndex_of_mem _ hpal).2⟩
  have hstopmem : ∀ cg ∈ color_glyphs, ∀ pl ∈ cg.layers, ∀ stops,
      (pl.paint = .linearGradient stops ∨ pl.paint = .radialGradient stops) →
      ∀ s ∈ stops, s.color.opaque ∈ colrPalette 1 color_glyphs := by
    intro cg hcg pl hpl stops hgrad s hs
    apply (mem_colrPalette_one color_glyphs _).mpr
    refine ⟨cg, hcg, s.color, paint_color_mem_glyph_colors hpl ?_, rfl⟩
    rcases hgrad with h | h <;>
      · rw [h, Paint.colors]
        exact List.mem_map_of_mem _ hs
  refine ⟨mem_colrPalette_zero color_glyphs, hpart2, ?_, mem_colrPalette_one color_glyphs, ?_⟩
  · intro cg hcg pl hpl stops s hgrad hhead
    have hhead' : pl.paint.colors.head? = some s.color := by
      rcases hgrad with h | h <;>
        · rw [h]
          simp [Paint.colors, List.head?_map, hhead]
    exact (hpart2 cg hcg pl hpl s.color hhead').1
  · intro cg hcg pl hpl stops hgrad
    have hstops := stopsToUfo_ok (colrPalette 1 color_glyphs) stops
      (hstopmem cg hcg pl hpl stops hgrad)
    refine ⟨stops.map (fun s =>
      (s.offset, paletteIdx (colrPalette 1 color_glyphs) s.color.opaque, s.color.alpha)),
      ?_, rfl, ?_⟩
    · rcases hgrad with h | h
      · left
        unfold colrPaint
        rw [if_neg (by omega), if_pos rfl, h]
        show ((stopsToUfo (colrPalette 1 color_glyphs) stops) >>= fun entries =>
          pure (UfoPaint.linearGradient entries)) = _
        rw [hstops, exceptBind_ok]
        rfl
      · right
        unfold colrPaint
        rw [if_neg (by omega), if_pos rfl, h]
        show ((stopsToUfo (colrPalette 1 color_glyphs) stops) >>= fun entries =>
          pure (UfoPaint.radialGradient entries)) = _
        rw [hstops, exceptBind_ok]
        rfl
    · intro s hs
      exact (listIndex_of_mem _ (hstopmem cg hcg pl hpl stops hgrad s hs)).2

/-- Witness for C5: one glyph with a two-stop gradient layer; under v0 the
paint is a single palette index, under v1 a gradient with two entries. -/
theorem colr_palette_versions_witness :
    ((⟨0, ⟨255, 0, 0, 100⟩⟩ : ColorStop) ∈
      ([⟨0, ⟨255, 0, 0, 100⟩⟩, ⟨1, ⟨0, 0, 255, 200⟩⟩] : List ColorStop)) ∧
    colrPaint 0
      (Paint.linearGradient [⟨0, ⟨255, 0, 0, 100⟩⟩, ⟨1, ⟨0, 0, 255, 200⟩⟩])
      (colrPalette 0 [⟨.fromCps [0x41], 2, [0x41],
        [⟨⟨"M0,0 Z", .plain ""⟩,
          .linearGradient [⟨0, ⟨255, 0, 0, 100⟩⟩, ⟨1, ⟨0, 0, 255, 200⟩⟩], []⟩],
        Affine2D.identity, []⟩]) =
      .ok (.paletteIndex (paletteIdx
        (colrPalette 0 [⟨.fromCps [0x41], 2, [0x41],
          [⟨⟨"M0,0 Z", .plain ""⟩,
            .linearGradient [⟨0, ⟨255, 0, 0, 100⟩⟩, ⟨1, ⟨0, 0, 255, 200⟩⟩], []⟩],
          Affine2D.identity, []⟩])
        (⟨255, 0, 0, 100⟩ : Color))) ∧
    (∃ entries,
      (colrPaint 1
        (Paint.linearGradient [⟨0, ⟨255, 0, 0, 100⟩⟩, ⟨1, ⟨0, 0, 255, 200⟩⟩])
        (colrPalette 1 [⟨.fromCps [0x41], 2, [0x41],
          [⟨⟨"M0,0 Z", .plain ""⟩,
            .linearGradient [⟨0, ⟨255, 0, 0, 100⟩⟩, ⟨1, ⟨0, 0, 255, 200⟩⟩], []⟩],
          Affine2D.identity, []⟩]) = .ok (.linearGradient entries) ∨
       colrPaint 1
        (Paint.linearGradient [⟨0, ⟨255, 0, 0, 100⟩⟩, ⟨1, ⟨0, 0, 255, 200⟩⟩])
        (colrPalette 1 [⟨.fromCps [0x41], 2, [0x41],
          [⟨⟨"M0,0 Z", .plain ""⟩,
            .linearGradient [⟨0, ⟨255, 0, 0, 100⟩⟩, ⟨1, ⟨0, 0, 255, 200⟩⟩], []⟩],
          Affine2D.identity, []⟩]) = .ok (.radialGradient entries)) ∧
      entries.length = 2) := by
  have h := colr_palette_versions [⟨.fromCps [0x41], 2, [0x41],
    [⟨⟨"M0,0 Z", .plain ""⟩,
      .linearGradient [⟨0, ⟨255, 0, 0, 100⟩⟩, ⟨1, ⟨0, 0, 255, 200⟩⟩], []⟩],
    Affine2D.identity, []⟩]
  refine ⟨List.mem_cons_self _ _, ?_, ?_⟩
  · exact h.2.2.1 _ (List.mem_cons_self _ _) _ (List.mem_cons_self _ _)
      [⟨0, ⟨255, 0, 0, 100⟩⟩, ⟨1, ⟨0, 0, 255, 200⟩⟩] ⟨0, ⟨255, 0, 0, 100⟩⟩
      (Or.inl rfl) rfl
  · rcases h.2.2.2.2 _ (List.mem_cons_self _ _) _ (List.mem_cons_self _ _)
      [⟨0, ⟨255, 0, 0, 100⟩⟩, ⟨1, ⟨0, 0, 255, 200⟩⟩] (Or.inl rfl) with
      ⟨entries, hres, hentries, -⟩
    exact ⟨entries, hres, by rw [hentries]; rfl⟩

/-- C10: with version 0, for every color glyph in the encoded list and every
painted layer of it, the first color of the layer's paint is a member of the
palette `_colr_ufo` builds beforehand, so the `palette.index` lookup in
`_colr_paint` succeeds — its error branch is unreachable. -/
theorem colr_v0_palette_lookup_total (color_glyphs : List ColorGlyph)
    (cg : ColorGlyph) (pl : PaintedLayer) (c : Color)
    (hcg : cg ∈ color_glyphs) (hpl : pl ∈ cg.layers)
    (hhead : pl.paint.colors.head? = some c) :
    c ∈ colrPalette 0 color_glyphs ∧
    listIndex (colrPalette 0 color_glyphs) c =
      .ok (paletteIdx (colrPalette 0 color_glyphs) c) ∧
    colrPaint 0 pl.paint (colrPalette 0 color_glyphs) =
      .ok (.paletteIndex (paletteIdx (colrPalette 0 color_glyphs) c)) := by
  have hcmem : c ∈ pl.paint.colors := by
    cases hcol : pl.paint.colors with
    | nil => rw [hcol] at hhead; exact Option.noConfusion hhead
    | cons x rest =>
      rw [hcol] at hhead
      have hx : x = c := by simpa using hhead
      rw [hx]
      exact List.mem_cons_self c rest
  have hpal : c ∈ colrPalette 0 color_glyphs :=
    (mem_colrPalette_zero color_glyphs c).mpr
      ⟨cg, hcg, paint_color_mem_glyph_colors hpl hcmem⟩
  exact ⟨hpal, (listIndex_of_mem _ hpal).1, colrPaint_zero_eval pl.paint _ c hhead hpal⟩

/-- Witness for C10: a solid red layer in a one-glyph list. -/
theorem colr_v0_palette_lookup_total_witness :
    (⟨.fromCps [0x42], 2, [0x42],
        [⟨⟨"M0,0 Z", .plain ""⟩, .solid ⟨255, 0, 0, 255⟩, []⟩],
        Affine2D.identity, []⟩ : ColorGlyph) ∈
      ([⟨.fromCps [0x42], 2, [0x42],
        [⟨⟨"M0,0 Z", .plain ""⟩, .solid ⟨255, 0, 0, 255⟩, []⟩],
        Affine2D.identity, []⟩] : List ColorGlyph) ∧
    (⟨⟨"M0,0 Z", .plain ""⟩, .solid ⟨255, 0, 0, 255⟩, []⟩ : PaintedLayer) ∈
      [(⟨⟨"M0,0 Z", .plain ""⟩, .solid ⟨255, 0, 0, 255⟩, []⟩ : PaintedLayer)] ∧
    (Paint.solid ⟨255, 0, 0, 255⟩).colors.head? = some ⟨255, 0, 0, 255⟩ ∧
    (⟨255, 0, 0, 255⟩ : Color) ∈ colrPalette 0
      [⟨.fromCps [0x42], 2, [0x42],
        [⟨⟨"M0,0 Z", .plain ""⟩, .solid ⟨255, 0, 0, 255⟩, []⟩],
        Affine2D.identity, []⟩] := by
  refine ⟨List.mem_cons_self _ _, List.mem_cons_self _ _, rfl, ?_⟩
  exact (colr_v0_palette_lookup_total
    [⟨.fromCps [0x42], 2, [0x42],
      [⟨⟨"M0,0 Z", .plain ""⟩, .solid ⟨255, 0, 0, 255⟩, []⟩],
      Affine2D.identity, []⟩]
    ⟨.fromCps [0x42], 2, [0x42],
      [⟨⟨"M0,0 Z", .plain ""⟩, .solid ⟨255, 0, 0, 255⟩, []⟩],
      Affine2D.identity, []⟩
    ⟨⟨"M0,0 Z", .plain ""⟩, .solid ⟨255, 0, 0, 255⟩, []⟩
    ⟨255, 0, 0, 255⟩
    (List.mem_cons_self _ _) (List.mem_cons_self _ _) rfl).1

/-- C8: the palette-layered encoder is deterministic — the result does not
depend on the enumeration order of the intermediate color set (the sorted
palette is the same for any order), and equal inputs yield equal outputs. -/
theorem colr_ufo_deterministic (colr_version : Nat) (ufo : UFO)
    (color_glyphs : List ColorGlyph) (enum₁ enum₂ : List Color)
    (h₁ : enum₁.Perm (colrColorSet colr_version color_glyphs))
    (h₂ : enum₂.Perm (colrColorSet colr_version color_glyphs)) :
    colrUfoFrom enum₁ colr_version ufo color_glyphs =
      colrUfoFrom enum₂ colr_version ufo color_glyphs ∧
    (∀ color_glyphs', color_glyphs = color_glyphs' →
      colrUfo colr_version ufo color_glyphs = colrUfo colr_version ufo color_glyphs') := by
  constructor
  · have hpal : enum₁.mergeSort colorLe = enum₂.mergeSort colorLe := by
      exact @List.eq_of_perm_of_sorted Color (fun c₁ c₂ => colorLe c₁ c₂ = true) _ _ _
        (((List.mergeSort_perm enum₁ colorLe).trans h₁).trans
          (((List.mergeSort_perm enum₂ colorLe).trans h₂).symm))
        (@List.sorted_mergeSort Color colorLe
          (fun _ _ _ ha hb => colorLe_trans ha hb) colorLe_total enum₁)
        (@List.sorted_mergeSort Color colorLe
          (fun _ _ _ ha hb => colorLe_trans ha hb) colorLe_total enum₂)
    unfold colrUfoFrom
    rw [hpal]
  · rintro cgs' rfl
    rfl

/-- Witness for C8: two enumeration orders of a two-color set produce the
same encoder output. -/
theorem colr_ufo_deterministic_witness :
    ([(⟨0, 0, 255, 255⟩ : Color), ⟨255, 0, 0, 255⟩].Perm
      (colrColorSet 0 [⟨.fromCps [0x43], 2, [0x43],
        [⟨⟨"M0,0 Z", .plain ""⟩, .solid ⟨255, 0, 0, 255⟩, []⟩,
         ⟨⟨"M1,1 Z", .plain ""⟩, .solid ⟨0, 0, 255, 255⟩, []⟩],
        Affine2D.identity, []⟩])) ∧
    ([(⟨255, 0, 0, 255⟩ : Color), ⟨0, 0, 255, 255⟩].Perm
      (colrColorSet 0 [⟨.fromCps [0x43], 2, [0x43],
        [⟨⟨"M0,0 Z", .plain ""⟩, .solid ⟨255, 0, 0, 255⟩, []⟩,
         ⟨⟨"M1,1 Z", .plain ""⟩, .solid ⟨0, 0, 255, 255⟩, []⟩],
        Affine2D.identity, []⟩])) ∧
    colrUfoFrom [⟨0, 0, 255, 255⟩, ⟨255, 0, 0, 255⟩] 0 (makeUfo 1024)
      [⟨.fromCps [0x43], 2, [0x43],
        [⟨⟨"M0,0 Z", .plain ""⟩, .solid ⟨255, 0, 0, 255⟩, []⟩,
         ⟨⟨"M1,1 Z", .plain ""⟩, .solid ⟨0, 0, 255, 255⟩, []⟩],
        Affine2D.identity, []⟩] =
    colrUfoFrom [⟨255, 0, 0, 255⟩, ⟨0, 0, 255, 255⟩] 0 (makeUfo 1024)
      [⟨.fromCps [0x43], 2, [0x43],
        [⟨⟨"M0,0 Z", .plain ""⟩, .solid ⟨255, 0, 0, 255⟩, []⟩,
         ⟨⟨"M1,1 Z", .plain ""⟩, .solid ⟨0, 0, 255, 255⟩, []⟩],
        Affine2D.identity, []⟩] := by
  have hperm₁ : [(⟨0, 0, 255, 255⟩ : Color), ⟨255, 0, 0, 255⟩].Perm
      (colrColorSet 0 [⟨.fromCps [0x43], 2, [0x43],
        [⟨⟨"M0,0 Z", .plain ""⟩, .solid ⟨255, 0, 0, 255⟩, []⟩,
         ⟨⟨"M1,1 Z", .plain ""⟩, .solid ⟨0, 0, 255, 255⟩, []⟩],
        Affine2D.identity, []⟩]) := by
    have : colrColorSet 0 [⟨.fromCps [0x43], 2, [0x43],
        [⟨⟨"M0,0 Z", .plain ""⟩, .solid ⟨255, 0, 0, 255⟩, []⟩,
         ⟨⟨"M1,1 Z", .plain ""⟩, .solid ⟨0, 0, 255, 255⟩, []⟩],
        Affine2D.identity, []⟩] = [⟨255, 0, 0, 255⟩, ⟨0, 0, 255, 255⟩] := by decide
    rw [this]
    exact List.Perm.swap _ _ _
  have hperm₂ : [(⟨255, 0, 0, 255⟩ : Color), ⟨0, 0, 255, 255⟩].Perm
      (colrColorSet 0 [⟨.fromCps [0x43], 2, [0x43],
        [⟨⟨"M0,0 Z", .plain ""⟩, .solid ⟨255, 0, 0, 255⟩, []⟩,
         ⟨⟨"M1,1 Z", .plain ""⟩, .solid ⟨0, 0, 255, 255⟩, []⟩],
        Affine2D.identity, []⟩]) := by
    have : colrColorSet 0 [⟨.fromCps [0x43], 2, [0x43],
        [⟨⟨"M0,0 Z", .plain ""⟩, .solid ⟨255, 0, 0, 255⟩, []⟩,
         ⟨⟨"M1,1 Z", .plain ""⟩, .solid ⟨0, 0, 255, 255⟩, []⟩],
        Affine2D.identity, []⟩] = [⟨255, 0, 0, 255⟩, ⟨0, 0, 255, 255⟩] := by decide
    rw [this]
  exact ⟨hperm₁, hperm₂, (colr_ufo_deterministic 0 (makeUfo 1024) _ _ _ hperm₁ hperm₂).1⟩

/-! ### C1, C6: the reuse discipline of the glyf/COLR encoders

Supporting lemmas about the UFO operations and the `glyphs` reuse dict, an
invariant on the `(glyphs, log)` pair maintained by every layer step, and
the claims' theorems. -/

/-- Number of outline contours drawn by `_draw` in one glyph. -/
def glyphDrawn (g : Glyph) : Nat :=
  (g.contours.filter
    (fun c => match c with | .drawn _ _ => true | .extent _ => false)).length

/-- Number of outline contours drawn by `_draw` across the whole font. -/
def drawnCount (ufo : UFO) : Nat :=
  (ufo.glyphs.map glyphDrawn).sum

theorem names_modify (ufo : UFO) (n : GName) (f : Glyph → Glyph)
    (hf : ∀ g : Glyph, g.name = n → (f g).name = g.name) :
    (ufo.modify n f).names = ufo.names := by
  unfold UFO.modify UFO.names
  simp only [List.map_map]
  apply List.map_congr_left
  intro g _
  by_cases hg : g.name = n
  · simp [hg, hf g hg]
  · simp [hg]

theorem drawnCount_modify (ufo : UFO) (n : GName) (f : Glyph → Glyph)
    (hf : ∀ g : Glyph, (f g).contours = g.contours) :
    drawnCount (ufo.modify n f) = drawnCount ufo := by
  unfold UFO.modify drawnCount
  simp only [List.map_map]
  congr 1
  apply List.map_congr_left
  intro g _
  by_cases hg : g.name = n
  · simp [hg, glyphDrawn, hf g]
  · simp [hg]

theorem get_modify (ufo : UFO) (n : GName) (f : Glyph → Glyph)
    (hf : ∀ g : Glyph, g.name = n → (f g).name = n)
    (pg : Glyph) (h : ufo.get n = some pg) :
    (ufo.modify n f).get n = some (f pg) := by
  unfold UFO.get UFO.modify at *
  simp only []
  rw [List.find?_map]
  have hp : ∀ g : Glyph,
      (fun g : Glyph => decide (g.name = n))
        ((fun g : Glyph => if g.name = n then f g else g) g) =
      decide (g.name = n) := by
    intro g
    by_cases hg : g.name = n
    · simp [hg, hf g hg]
    · simp [hg]
  have hfind : List.find? ((fun g : Glyph => decide (g.name = n)) ∘
      (fun g : Glyph => if g.name = n then f g else g)) ufo.glyphs =
      List.find? (fun g : Glyph => decide (g.name = n)) ufo.glyphs := by
    apply congrArg (fun p => List.find? p ufo.glyphs)
    funext g
    exact hp g
  rw [hfind, h]
  have hname : pg.name = n := by
    have := List.find?_some h
    simpa using this
  simp [hname]

theorem get_setGlyph (ufo : UFO) (n : GName) (g : Glyph)
    (pg : Glyph) (h : ufo.get n = some pg) :
    (ufo.setGlyph n g).get n = some ({ g with name := n }) := by
  unfold UFO.setGlyph
  exact get_modify ufo n (fun _ => { g with name := n }) (fun _ _ => rfl) pg h

theorem assocFind_eq_none_iff (k : ReuseKey) (l : List (ReuseKey × GName)) :
    assocFind k l = none ↔ ∀ p ∈ l, p.1 ≠ k := by
  unfold assocFind
  rw [Option.map_eq_none', List.find?_eq_none]
  constructor
  · intro h p hp
    have := h p hp
    simpa using this
  · intro h p hp
    simpa using h p hp

theorem assocFind_append_of_some {k : ReuseKey} {l : List (ReuseKey × GName)}
    {g : GName} (h : assocFind k l = some g) (tail : List (ReuseKey × GName)) :
    assocFind k (l ++ tail) = some g := by
  unfold assocFind at *
  rw [List.find?_append]
  rcases Option.map_eq_some'.mp h with ⟨p, hp, hpg⟩
  rw [hp]
  simpa using hpg

theorem assocFind_append_of_none {k : ReuseKey} {l : List (ReuseKey × GName)}
    (h : assocFind k l = none) (k' : ReuseKey) (g : GName) :
    assocFind k (l ++ [(k', g)]) = if k' = k then some g else none := by
  unfold assocFind at *
  rw [List.find?_append]
  rw [Option.map_eq_none'] at h
  rw [h, Option.none_or]
  by_cases hk : k' = k
  · simp [List.find?, hk]
  · simp [List.find?, hk]

/-- The invariant maintained by the `glyphs` reuse dict and the event log of
a `_glyf_ufo` / `_colr_ufo` run: every logged event references the glyph the
dict holds for its key; the dict holds exactly the logged keys; and an event
is a creation exactly when its key has not occurred earlier in the log. -/
def ReuseInv (glyphs : List (ReuseKey × GName)) (log : List ReuseEvent) : Prop :=
  (∀ e ∈ log, assocFind e.key glyphs = some e.glyph) ∧
  (∀ k, (assocFind k glyphs).isSome = true ↔ k ∈ log.map (·.key)) ∧
  (∀ i (h : i < log.length), (log.get ⟨i, h⟩).isNew = true ↔
    (log.get ⟨i, h⟩).key ∉ (log.take i).map (·.key))

theorem reuseInv_nil : ReuseInv [] [] := by
  refine ⟨by simp, by simp [assocFind], by simp⟩

theorem log_get_append {log : List ReuseEvent} {e : ReuseEvent} {i : Nat}
    (h : i < log.length) :
    (log ++ [e]).get ⟨i, by simp; omega⟩ = log.get ⟨i, h⟩ := by
  rw [List.get_eq_getElem, List.get_eq_getElem, List.getElem_append_left]

theorem log_take_append {log : List ReuseEvent} {e : ReuseEvent} {i : Nat}
    (h : i ≤ log.length) : (log ++ [e]).take i = log.take i := by
  rw [List.take_append_eq_append_take]
  have : i - log.length = 0 := by omega
  rw [this]
  simp

theorem reuseInv_hit {glyphs : List (ReuseKey × GName)} {log : List ReuseEvent}
    {k₀ : ReuseKey} {g : GName} (hinv : ReuseInv glyphs log)
    (hk : assocFind k₀ glyphs = some g) :
    ReuseInv glyphs (log ++ [⟨k₀, g, false⟩]) := by
  obtain ⟨h1, h2, h3⟩ := hinv
  refine ⟨?_, ?_, ?_⟩
  · intro e he
    rcases List.mem_append.mp he with he' | he'
    · exact h1 e he'
    · have : e = ⟨k₀, g, false⟩ := by simpa using he'
      rw [this]
      exact hk
  · intro k
    rw [List.map_append, List.mem_append]
    constructor
    · intro h
      exact Or.inl ((h2 k).mp h)
    · rintro (h | h)
      · exact (h2 k).mpr h

      · have : k = k₀ := by simpa using h
        rw [this, hk]
        rfl
  · intro i hlen
    rw [List.length_append, List.length_cons, List.length_nil] at hlen
    by_cases hi : i < log.length
    · rw [log_get_append hi, log_take_append (by omega)]
      exact h3 i hi
    · have hieq : i = log.length := by omega
      subst hieq
      have hget : (log ++ [(⟨k₀, g, false⟩ : ReuseEvent)]).get
          ⟨log.length, by simp⟩ = ⟨k₀, g, false⟩ := by
        rw [List.get_eq_getElem]
        simp
      rw [hget, log_take_append (by omega)]
      simp only [List.take_length]
      constructor
      · intro hfalse
        exact absurd hfalse (by simp)
      · intro hnot
        exfalso
        apply hnot
        apply (h2 k₀).mp
        rw [hk]
        rfl

theorem reuseInv_miss {glyphs : List (ReuseKey × GName)} {log : List ReuseEvent}
    {k₀ : ReuseKey} (g : GName) (hinv : ReuseInv glyphs log)
    (hk : assocFind k₀ glyphs = none) :
    ReuseInv (glyphs ++ [(k₀, g)]) (log ++ [⟨k₀, g, true⟩]) := by
  obtain ⟨h1, h2, h3⟩ := hinv
  refine ⟨?_, ?_, ?_⟩
  · intro e he
    rcases List.mem_append.mp he with he' | he'
    · exact assocFind_append_of_some (h1 e he') _
    · have : e = ⟨k₀, g, true⟩ := by simpa using he'
      rw [this]
      rw [assocFind_append_of_none hk k₀ g]
      simp
  · intro k
    rw [List.map_append, List.mem_append]
    by_cases hkk : k ∈ log.map (·.key)
    · have hsome := (h2 k).mpr hkk
      rcases Option.isSome_iff_exists.mp hsome with ⟨g', hg'⟩
      rw [assocFind_append_of_some hg' _]
      simp [hkk]
    · have hnone : assocFind k glyphs = none := by
        cases hh : assocFind k glyphs with
        | none => rfl
        | some g' =>
          exfalso
          exact hkk ((h2 k).mp (by rw [hh]; rfl))
      rw [assocFind_append_of_none hnone k₀ g]
      by_cases hk0 : k₀ = k
      · subst hk0
        simp [hkk]
      · simp [hk0, hkk]
        intro hcon
        exact hk0 hcon.symm
  · intro i hlen
    rw [List.length_append, List.length_cons, List.length_nil] at hlen
    by_cases hi : i < log.length
    · rw [log_get_append hi, log_take_append (by omega)]
      exact h3 i hi
    · have hieq : i = log.length := by omega
      subst hieq
      have hget : (log ++ [(⟨k₀, g, true⟩ : ReuseEvent)]).get
          ⟨log.length, by simp⟩ = ⟨k₀, g, true⟩ := by
        rw [List.get_eq_getElem]
        simp
      rw [hget, log_take_append (by omega)]
      simp only [List.take_length]
      constructor
      · intro _
        intro hcon
        have := (h2 k₀).mpr hcon
        rw [hk] at this
        exact Bool.noConfusion this
      · intro _
        trivial

theorem foldl_preserves {σ α : Type} (P : σ → Prop) (f : σ → α → σ)
    (hf : ∀ s a, P s → P (f s a)) :
    ∀ (l : List α) (s : σ), P s → P (l.foldl f s) := by
  intro l
  induction l with
  | nil => intro s h; exact h
  | cons a l ih =>
    intro s h
    exact ih (f s a) (hf s a h)

theorem foldlM_preserves {σ α : Type} (P : σ → Prop) (f : σ → α → Except BuildErr σ)
    (hf : ∀ s a s', P s → f s a = .ok s' → P s') :
    ∀ (l : List α) (s s' : σ), P s → l.foldlM f s = .ok s' → P s' := by
  intro l
  induction l with
  | nil =>
    intro s s' h hfold
    rw [List.foldlM_nil] at hfold
    have : s = s' := by
      have := hfold
      simpa [pure, Except.pure] using this
    rwa [← this]
  | cons a l ih =>
    intro s s' h hfold
    rw [List.foldlM_cons] at hfold
    cases hfa : f s a with
    | error e =>
      rw [hfa, exceptBind_error] at hfold
      exact Except.noConfusion hfold
    | ok s₁ =>
      rw [hfa, exceptBind_ok] at hfold
      exact ih s₁ s' (hf s a s₁ h hfa) hfold

/-- In-place glyph mutation when exactly one glyph in the list carries the
target name. -/
theorem modifyF_eq (n : GName) (f : Glyph → Glyph) (l₁ l₂ : List Glyph) (x : Glyph)
    (h₁ : ∀ y ∈ l₁, y.name ≠ n) (h₂ : ∀ y ∈ l₂, y.name ≠ n) (hx : x.name = n) :
    (l₁ ++ [x] ++ l₂).map (fun g => if g.name = n then f g else g) =
      l₁ ++ [f x] ++ l₂ := by
  rw [List.map_append, List.map_append]
  have e₁ : l₁.map (fun g => if g.name = n then f g else g) = l₁ := by
    have : ∀ y ∈ l₁, (if y.name = n then f y else y) = id y := by
      intro y hy
      rw [if_neg (h₁ y hy)]
      rfl
    rw [List.map_congr_left this, List.map_id]
  have e₂ : l₂.map (fun g => if g.name = n then f g else g) = l₂ := by
    have : ∀ y ∈ l₂, (if y.name = n then f y else y) = id y := by
      intro y hy
      rw [if_neg (h₂ y hy)]
      rfl
    rw [List.map_congr_left this, List.map_id]
  rw [e₁, e₂]
  simp [hx]

theorem modify_concat (ufo : UFO) (x : Glyph) (n : GName) (f : Glyph → Glyph)
    (hn : n ∉ ufo.names) (hx : x.name = n) :
    ({ ufo with glyphs := ufo.glyphs ++ [x] } : UFO).modify n f =
      { ufo with glyphs := ufo.glyphs ++ [f x] } := by
  unfold UFO.modify
  have h₁ : ∀ y ∈ ufo.glyphs, y.name ≠ n := by
    intro y hy hcon
    exact hn (by rw [← hcon]; exact List.mem_map_of_mem _ hy)
  have := modifyF_eq n f ufo.glyphs [] x h₁ (by simp) hx
  simp only [List.append_nil] at this
  simp only [this]

theorem newGlyph_modify_fresh (ufo : UFO) (n : GName) (f : Glyph → Glyph)
    (hn : n ∉ ufo.names) :
    (ufo.newGlyph n).modify n f = { ufo with glyphs := ufo.glyphs ++ [f { name := n }] } := by
  unfold UFO.newGlyph
  exact modify_concat ufo { name := n } n f hn rfl

theorem derived_inj (base : GName) : Function.Injective (fun i => GName.derived base i) := by
  intro a b h
  simpa using h

theorem component_inj (base : GName) :
    Function.Injective (fun i => GName.component base i) := by
  intro a b h
  simpa using h

/-- Closed form of `_create_glyph` for a layer without intra-glyph reuses:
one fresh glyph holding the drawn path. -/
theorem createGlyph_simple (ufo : UFO) (cg : ColorGlyph) (pl : PaintedLayer)
    (h : pl.reuses = []) :
    createGlyph ufo cg pl =
      ({ ufo with
          glyphs := ufo.glyphs ++
            [{ name := nextName ufo (fun i => .derived cg.glyph_name i)
               width := ufo.upem
               contours := [.drawn pl.path cg.transform] }]
          glyphOrder := ufo.glyphOrder ++
            [nextName ufo (fun i => .derived cg.glyph_name i)] },
        nextName ufo (fun i => .derived cg.glyph_name i)) := by
  have hg : nextName ufo (fun i => GName.derived cg.glyph_name i) ∉ ufo.names := by
    have := nextName_fresh ufo (fun i => .derived cg.glyph_name i) (derived_inj _)
    unfold UFO.contains at this
    simpa using this
  simp only [createGlyph, h]
  rw [if_neg (by simp)]
  rw [newGlyph_modify_fresh ufo _ _ hg]
  rw [modify_concat ufo _ _ _ hg rfl]
  rfl

theorem names_newGlyph (ufo : UFO) (n : GName) :
    (ufo.newGlyph n).names = ufo.names ++ [n] := by
  simp [UFO.newGlyph, UFO.names]

theorem drawnCount_newGlyph (ufo : UFO) (n : GName) :
    drawnCount (ufo.newGlyph n) = drawnCount ufo := by
  simp [UFO.newGlyph, drawnCount, glyphDrawn]

theorem drawnCount_append_one (ufo : UFO) (x : Glyph) :
    drawnCount ({ ufo with glyphs := ufo.glyphs ++ [x] } : UFO) =
      drawnCount ufo + glyphDrawn x := by
  simp [drawnCount, List.map_append, List.sum_append]

theorem names_update_glyphOrder (X : UFO) (l : List GName) :
    ({ X with glyphOrder := l } : UFO).names = X.names := rfl

theorem drawnCount_update_glyphOrder (X : UFO) (l : List GName) :
    drawnCount ({ X with glyphOrder := l } : UFO) = drawnCount X := rfl

/-- `_create_glyph` mints a fresh glyph name, extends the font's glyph set
by the new glyph (plus the base glyph when the layer has reuses), and draws
exactly one outline. -/
theorem createGlyph_names_drawn (ufo : UFO) (cg : ColorGlyph) (pl : PaintedLayer) :
    ((createGlyph ufo cg pl).2 ∉ ufo.names) ∧
    (∃ extra : List GName, (createGlyph ufo cg pl).1.names =
      ufo.names ++ (createGlyph ufo cg pl).2 :: extra) ∧
    drawnCount (createGlyph ufo cg pl).1 = drawnCount ufo + 1 := by
  have hg : nextName ufo (fun i => GName.derived cg.glyph_name i) ∉ ufo.names := by
    have := nextName_fresh ufo (fun i => .derived cg.glyph_name i) (derived_inj _)
    unfold UFO.contains at this
    simpa using this
  by_cases hrs : pl.reuses = []
  · rw [createGlyph_simple ufo cg pl hrs]
    refine ⟨hg, ?_, ?_⟩
    · exact ⟨[], by simp [UFO.names]⟩
    · rw [show ({ ufo with
          glyphs := ufo.glyphs ++
            [{ name := nextName ufo (fun i => .derived cg.glyph_name i)
               width := ufo.upem
               contours := [.drawn pl.path cg.transform] }]
          glyphOrder := ufo.glyphOrder ++
            [nextName ufo (fun i => .derived cg.glyph_name i)] } : UFO) =
          ({ { ufo with glyphOrder := ufo.glyphOrder ++
              [nextName ufo (fun i => .derived cg.glyph_name i)] } with
            glyphs := ({ ufo with glyphOrder := ufo.glyphOrder ++
              [nextName ufo (fun i => .derived cg.glyph_name i)] } : UFO).glyphs ++
              [{ name := nextName ufo (fun i => .derived cg.glyph_name i)
                 width := ufo.upem
                 contours := [.drawn pl.path cg.transform] }] } : UFO) from rfl]
      rw [drawnCount_append_one]
      have h1 : glyphDrawn
          { name := nextName ufo (fun i => GName.derived cg.glyph_name i)
            width := ufo.upem
            contours := [.drawn pl.path cg.transform] } = 1 := by
        simp [glyphDrawn]
      rw [h1]
      rfl
  · have hne : pl.reuses ≠ [] := hrs
    have hbf : nextName ((ufo.newGlyph (nextName ufo (fun i => .derived cg.glyph_name i))).modify
          (nextName ufo (fun i => .derived cg.glyph_name i))
          (fun g => { g with width := ufo.upem }))
        (fun i => .component (nextName ufo (fun i => .derived cg.glyph_name i)) i) ∉
        ((ufo.newGlyph (nextName ufo (fun i => .derived cg.glyph_name i))).modify
          (nextName ufo (fun i => .derived cg.glyph_name i))
          (fun g => { g with width := ufo.upem })).names := by
      have := nextName_fresh ((ufo.newGlyph (nextName ufo
          (fun i => .derived cg.glyph_name i))).modify
          (nextName ufo (fun i => .derived cg.glyph_name i))
          (fun g => { g with width := ufo.upem }))
        (fun i => .component (nextName ufo (fun i => .derived cg.glyph_name i)) i)
        (component_inj _)
      unfold UFO.contains at this
      simpa using this
    have hsnd : (createGlyph ufo cg pl).2 =
        nextName ufo (fun i => .derived cg.glyph_name i) := by
      simp only [createGlyph, if_pos hne]
    refine ⟨by rw [hsnd]; exact hg, ?_, ?_⟩
    · refine ⟨[nextName ((ufo.newGlyph (nextName ufo
          (fun i => .derived cg.glyph_name i))).modify
          (nextName ufo (fun i => .derived cg.glyph_name i))
          (fun g => { g with width := ufo.upem }))
        (fun i => .component (nextName ufo (fun i => .derived cg.glyph_name i)) i)], ?_⟩
      rw [hsnd]
      simp only [createGlyph, if_pos hne]
      rw [names_update_glyphOrder]
      rw [names_modify]
      · rw [names_modify]
        · rw [names_newGlyph]
          rw [names_modify]
          · rw [names_newGlyph]
            exact List.append_assoc _ _ _
          · intro g _
            rfl
        · intro g _
          rfl
      · intro g _
        rfl
    · simp only [createGlyph, if_pos hne]
      rw [drawnCount_update_glyphOrder]
      rw [drawnCount_modify]
      · rw [newGlyph_modify_fresh _ _ _ hbf]
        rw [drawnCount_append_one]
        rw [drawnCount_modify]
        · rw [drawnCount_newGlyph]
          rfl
        · intro g
          rfl
      · intro g
        rfl

/-- The glyf layer step on a reuse-key hit: no font change apart from the
component appended to the parent glyph. -/
theorem glyfLayer_hit (cg : ColorGlyph) (st : GlyfState) (pl : PaintedLayer)
    (g : GName) (hk : assocFind (interGlyphReuseKey pl) st.glyphs = some g) :
    glyfLayer cg st pl =
      { ufo := st.ufo.modify cg.glyph_name (fun pg =>
          { pg with components := pg.components ++ [UComponent.mk g Affine2D.identity] })
        glyphs := st.glyphs
        log := st.log ++ [⟨interGlyphReuseKey pl, g, false⟩] } := by
  simp only [glyfLayer, reuseLookup, hk]

/-- The glyf layer step on a reuse-key miss: materialize via
`_create_glyph`, register the key, append the component. -/
theorem glyfLayer_miss (cg : ColorGlyph) (st : GlyfState) (pl : PaintedLayer)
    (hk : assocFind (interGlyphReuseKey pl) st.glyphs = none) :
    glyfLayer cg st pl =
      { ufo := (createGlyph st.ufo cg pl).1.modify cg.glyph_name (fun pg =>
          { pg with components := pg.components ++
            [UComponent.mk (createGlyph st.ufo cg pl).2 Affine2D.identity] })
        glyphs := st.glyphs ++ [(interGlyphReuseKey pl, (createGlyph st.ufo cg pl).2)]
        log := st.log ++ [⟨interGlyphReuseKey pl, (createGlyph st.ufo cg pl).2, true⟩] } := by
  simp only [glyfLayer, reuseLookup, hk]

theorem glyfLayer_inv (cg : ColorGlyph) (st : GlyfState) (pl : PaintedLayer)
    (h : ReuseInv st.glyphs st.log) :
    ReuseInv (glyfLayer cg st pl).glyphs (glyfLayer cg st pl).log := by
  cases hk : assocFind (interGlyphReuseKey pl) st.glyphs with
  | some g =>
    rw [glyfLayer_hit cg st pl g hk]
    exact reuseInv_hit h hk
  | none =>
    rw [glyfLayer_miss cg st pl hk]
    exact reuseInv_miss _ h hk

/-- The collapse step of `_glyf_ufo` touches only the font, not the reuse
dict or the log. -/
theorem glyfGlyph_glyphs_log (st : GlyfState) (cg : ColorGlyph) :
    (glyfGlyph st cg).glyphs = (cg.layers.foldl (glyfLayer cg) st).glyphs ∧
    (glyfGlyph st cg).log = (cg.layers.foldl (glyfLayer cg) st).log := by
  simp only [glyfGlyph]
  cases (cg.layers.foldl (glyfLayer cg) st).ufo.get cg.glyph_name with
  | none => exact ⟨rfl, rfl⟩
  | some pg =>
    dsimp only
    by_cases hlen : pg.components.length = 1
    · rw [if_pos hlen]
      cases pg.components.head? with
      | none => exact ⟨rfl, rfl⟩
      | some comp =>
        dsimp only
        cases (cg.layers.foldl (glyfLayer cg) st).ufo.get comp.baseGlyph with
        | none => exact ⟨rfl, rfl⟩
        | some child => exact ⟨rfl, rfl⟩
    · rw [if_neg hlen]
      exact ⟨rfl, rfl⟩

theorem glyfGlyph_inv (st : GlyfState) (cg : ColorGlyph)
    (h : ReuseInv st.glyphs st.log) :
    ReuseInv (glyfGlyph st cg).glyphs (glyfGlyph st cg).log := by
  obtain ⟨hg, hl⟩ := glyfGlyph_glyphs_log st cg
  rw [hg, hl]
  exact foldl_preserves (fun s => ReuseInv s.glyphs s.log) (glyfLayer cg)
    (fun s a hP => glyfLayer_inv cg s a hP) cg.layers st h

theorem glyfUfo_inv (ufo : UFO) (color_glyphs : List ColorGlyph) :
    ReuseInv (glyfUfo ufo color_glyphs).glyphs (glyfUfo ufo color_glyphs).log := by
  unfold glyfUfo
  exact foldl_preserves (fun s => ReuseInv s.glyphs s.log) glyfGlyph
    (fun s a hP => glyfGlyph_inv s a hP) color_glyphs
    { ufo := ufo, glyphs := [], log := [] } reuseInv_nil

/-- The COLR layer step on a reuse-key hit succeeds exactly when the paint
computation does, leaving the font untouched and recording the reused glyph
with the layer's paint. -/
theorem colrLayer_hit (colr_version : Nat) (colors : List Color) (cg : ColorGlyph)
    (st : ColrState) (gl : List (GName × UfoPaint)) (pl : PaintedLayer) (g : GName)
    (hk : assocFind (interGlyphReuseKey pl) st.glyphs = some g) :
    colrLayer colr_version colors cg (st, gl) pl =
      (colrPaint colr_version pl.paint colors).map (fun paint =>
        ({ st with log := st.log ++ [⟨interGlyphReuseKey pl, g, false⟩] },
         gl ++ [(g, paint)])) := by
  simp only [colrLayer, reuseLookup, hk]
  cases colrPaint colr_version pl.paint colors with
  | error e => rfl
  | ok paint => rfl

/-- The COLR layer step on a reuse-key miss. -/
theorem colrLayer_miss (colr_version : Nat) (colors : List Color) (cg : ColorGlyph)
    (st : ColrState) (gl : List (GName × UfoPaint)) (pl : PaintedLayer)
    (hk : assocFind (interGlyphReuseKey pl) st.glyphs = none) :
    colrLayer colr_version colors cg (st, gl) pl =
      (colrPaint colr_version pl.paint colors).map (fun paint =>
        ({ st with
            ufo := (createGlyph st.ufo cg pl).1
            glyphs := st.glyphs ++
              [(interGlyphReuseKey pl, (createGlyph st.ufo cg pl).2)]
            log := st.log ++
              [⟨interGlyphReuseKey pl, (createGlyph st.ufo cg pl).2, true⟩] },
         gl ++ [((createGlyph st.ufo cg pl).2, paint)])) := by
  simp only [colrLayer, reuseLookup, hk]
  cases colrPaint colr_version pl.paint colors with
  | error e => rfl
  | ok paint => rfl

theorem colrLayer_inv (colr_version : Nat) (colors : List Color) (cg : ColorGlyph)
    (acc : ColrState × List (GName × UfoPaint)) (pl : PaintedLayer)
    (res : ColrState × List (GName × UfoPaint))
    (hinv : ReuseInv acc.1.glyphs acc.1.log)
    (h : colrLayer colr_version colors cg acc pl = .ok res) :
    ReuseInv res.1.glyphs res.1.log := by
  obtain ⟨st, gl⟩ := acc
  cases hk : assocFind (interGlyphReuseKey pl) st.glyphs with
  | some g =>
    rw [colrLayer_hit colr_version colors cg st gl pl g hk] at h
    cases hp : colrPaint colr_version pl.paint colors with
    | error e =>
      rw [hp] at h
      exact Except.noConfusion h
    | ok paint =>
      rw [hp] at h
      have := Except.ok.inj h
      rw [← this]
      exact reuseInv_hit hinv hk
  | none =>
    rw [colrLayer_miss colr_version colors cg st gl pl hk] at h
    cases hp : colrPaint colr_version pl.paint colors with
    | error e =>
      rw [hp] at h
      exact Except.noConfusion h
    | ok paint =>
      rw [hp] at h
      have := Except.ok.inj h
      rw [← this]
      exact reuseInv_miss _ hinv hk

theorem colrGlyph_inv (colr_version : Nat) (colors : List Color) (st : ColrState)
    (cg : ColorGlyph) (st' : ColrState)
    (h : colrGlyph colr_version colors st cg = .ok st')
    (hinv : ReuseInv st.glyphs st.log) :
    ReuseInv st'.glyphs st'.log := by
  unfold colrGlyph at h
  cases hfold : cg.layers.foldlM (colrLayer colr_version colors cg) (st, []) with
  | error e =>
    rw [hfold, exceptBind_error] at h
    exact Except.noConfusion h
  | ok p =>
    rw [hfold, exceptBind_ok] at h
    have hp : ReuseInv p.1.glyphs p.1.log :=
      foldlM_preserves (fun s => ReuseInv s.1.glyphs s.1.log)
        (colrLayer colr_version colors cg)
        (fun s a s' hP hs => colrLayer_inv colr_version colors cg s a s' hP hs)
        cg.layers (st, []) p hinv hfold
    have hst' : st' = { p.1 with
        ufo := p.1.ufo.modify cg.glyph_name (drawGlyphExtents p.1.ufo.upem)
        colorLayers := p.1.colorLayers ++ [(cg.glyph_name, p.2)] } := by
      have := h
      simpa [pure, Except.pure] using this.symm
    rw [hst']
    exact hp

theorem colrUfoFrom_inv (colorSet : List Color) (colr_version : Nat) (ufo : UFO)
    (color_glyphs : List ColorGlyph) (st' : ColrState)
    (h : colrUfoFrom colorSet colr_version ufo color_glyphs = .ok st') :
    ReuseInv st'.glyphs st'.log := by
  simp only [colrUfoFrom] at h
  cases hfold : color_glyphs.foldlM (colrGlyph colr_version (colorSet.mergeSort colorLe))
      { ufo := { ufo with colorPalettes := [colorSet.mergeSort colorLe] }, glyphs := [],
        colorLayers := [], log := [] } with
  | error e =>
    rw [hfold, exceptBind_error] at h
    exact Except.noConfusion h
  | ok s =>
    rw [hfold, exceptBind_ok] at h
    have hs : ReuseInv s.glyphs s.log :=
      foldlM_preserves (fun t => ReuseInv t.glyphs t.log)
        (colrGlyph colr_version (colorSet.mergeSort colorLe))
        (fun t a t' hP ht => colrGlyph_inv colr_version _ t a t' ht hP)
        color_glyphs _ s reuseInv_nil hfold
    have hst' : st' = { s with ufo := { s.ufo with colorLayers := s.colorLayers } } := by
      have := h
      simpa [pure, Except.pure] using this.symm
    rw [hst']
    exact hs

/-- The witness font for the reuse-identity run: empty, upem 16. -/
def wC1Ufo : UFO := { upem := 16 }

/-- The witness color glyph list: one glyph whose two layers share the same
path (hence the same reuse key) under different paints. -/
def wC1Glyphs : List ColorGlyph :=
  [⟨.fromCps [0x41], 0, [0x41],
    [⟨⟨"M0,0 Z", .plain ""⟩, .solid ⟨255, 0, 0, 255⟩, []⟩,
     ⟨⟨"M0,0 Z", .plain ""⟩, .solid ⟨0, 255, 0, 255⟩, []⟩],
    Affine2D.identity, []⟩]

/-- The state the COLR encoder returns on the witness input. -/
def wC1Cst : ColrState :=
  match colrUfo 0 wC1Ufo wC1Glyphs with
  | .ok st => st
  | .error _ => { ufo := wC1Ufo, glyphs := [], colorLayers := [], log := [] }

/-- C1: in both the glyf-style and the COLR-style runs, every two processed
layers presenting the same reuse key (`(path.d, reuses)`) reference the
identical outline glyph; a layer creates a glyph exactly when its key has not
occurred earlier in the run. On a reuse-dict hit the glyf step adds no glyph,
draws no outline, and only appends one component referencing the existing
glyph to the parent, while the COLR step leaves the font untouched entirely
and cites the existing glyph in the color layers; on a miss the glyf step
creates a fresh glyph (a name not yet in the font), registers it under the
key, and draws exactly one new outline. -/
theorem reuse_key_identity (ufo : UFO) (color_glyphs : List ColorGlyph)
    (colr_version : Nat) (cst : ColrState)
    (hc : colrUfo colr_version ufo color_glyphs = .ok cst) :
    (∀ e₁ ∈ (glyfUfo ufo color_glyphs).log, ∀ e₂ ∈ (glyfUfo ufo color_glyphs).log,
      e₁.key = e₂.key → e₁.glyph = e₂.glyph) ∧
    (∀ i (h : i < (glyfUfo ufo color_glyphs).log.length),
      ((glyfUfo ufo color_glyphs).log.get ⟨i, h⟩).isNew = true ↔
        ((glyfUfo ufo color_glyphs).log.get ⟨i, h⟩).key ∉
          ((glyfUfo ufo color_glyphs).log.take i).map (fun e => e.key)) ∧
    (∀ (cg : ColorGlyph) (st : GlyfState) (pl : PaintedLayer) (g : GName) (pg : Glyph),
      assocFind (interGlyphReuseKey pl) st.glyphs = some g →
      st.ufo.get cg.glyph_name = some pg →
      (glyfLayer cg st pl).ufo.names = st.ufo.names ∧
      drawnCount (glyfLayer cg st pl).ufo = drawnCount st.ufo ∧
      (glyfLayer cg st pl).glyphs = st.glyphs ∧
      (glyfLayer cg st pl).ufo.get cg.glyph_name = some
        { pg with components := pg.components ++ [UComponent.mk g Affine2D.identity] }) ∧
    (∀ (cg : ColorGlyph) (st : GlyfState) (pl : PaintedLayer),
      assocFind (interGlyphReuseKey pl) st.glyphs = none →
      (createGlyph st.ufo cg pl).2 ∉ st.ufo.names ∧
      (glyfLayer cg st pl).glyphs =
        st.glyphs ++ [(interGlyphReuseKey pl, (createGlyph st.ufo cg pl).2)] ∧
      drawnCount (glyfLayer cg st pl).ufo = drawnCount st.ufo + 1) ∧
    (∀ e₁ ∈ cst.log, ∀ e₂ ∈ cst.log, e₁.key = e₂.key → e₁.glyph = e₂.glyph) ∧
    (∀ i (h : i < cst.log.length),
      (cst.log.get ⟨i, h⟩).isNew = true ↔
        (cst.log.get ⟨i, h⟩).key ∉ (cst.log.take i).map (fun e => e.key)) ∧
    (∀ (colors : List Color) (cg : ColorGlyph) (st : ColrState)
        (gl : List (GName × UfoPaint)) (pl : PaintedLayer) (g : GName)
        (res : ColrState × List (GName × UfoPaint)),
      assocFind (interGlyphReuseKey pl) st.glyphs = some g →
      colrLayer colr_version colors cg (st, gl) pl = .ok res →
      res.1.ufo = st.ufo ∧ res.1.glyphs = st.glyphs ∧
      ∃ paint, res.2 = gl ++ [(g, paint)]) := by
  obtain ⟨hg1, hg2, hg3⟩ := glyfUfo_inv ufo color_glyphs
  have hcF : colrUfoFrom (colrColorSet colr_version color_glyphs)
      colr_version ufo color_glyphs = .ok cst := hc
  obtain ⟨hc1, hc2, hc3⟩ := colrUfoFrom_inv _ colr_version ufo color_glyphs cst hcF
  refine ⟨?_, hg3, ?_, ?_, ?_, hc3, ?_⟩
  · intro e₁ he₁ e₂ he₂ hk
    have q₁ := hg1 e₁ he₁
    have q₂ := hg1 e₂ he₂
    rw [hk] at q₁
    rw [q₁] at q₂
    exact Option.some.inj q₂
  · intro cg st pl g pg hk hpg
    rw [glyfLayer_hit cg st pl g hk]
    refine ⟨?_, ?_, rfl, ?_⟩
    · exact names_modify st.ufo cg.glyph_name
        (fun pg => { pg with components := pg.components ++
          [UComponent.mk g Affine2D.identity] }) (fun g' _ => rfl)
    · exact drawnCount_modify st.ufo cg.glyph_name
        (fun pg => { pg with components := pg.components ++
          [UComponent.mk g Affine2D.identity] }) (fun g' => rfl)
    · exact get_modify st.ufo cg.glyph_name
        (fun pg => { pg with components := pg.components ++
          [UComponent.mk g Affine2D.identity] }) (fun g' h => h) pg hpg
  · intro cg st pl hk
    obtain ⟨hfresh, _, hdc⟩ := createGlyph_names_drawn st.ufo cg pl
    rw [glyfLayer_miss cg st pl hk]
    refine ⟨hfresh, rfl, ?_⟩
    rw [drawnCount_modify (createGlyph st.ufo cg pl).1 cg.glyph_name
      (fun pg => { pg with components := pg.components ++
        [UComponent.mk (createGlyph st.ufo cg pl).2 Affine2D.identity] })
      (fun g' => rfl)]
    exact hdc
  · intro e₁ he₁ e₂ he₂ hk
    have q₁ := hc1 e₁ he₁
    have q₂ := hc1 e₂ he₂
    rw [hk] at q₁
    rw [q₁] at q₂
    exact Option.some.inj q₂
  · intro colors cg st gl pl g res hk hstep
    rw [colrLayer_hit colr_version colors cg st gl pl g hk] at hstep
    cases hp : colrPaint colr_version pl.paint colors with
    | error e =>
      rw [hp] at hstep
      exact Except.noConfusion hstep
    | ok paint =>
      rw [hp] at hstep
      simp only [Except.map] at hstep
      have hres := Except.ok.inj hstep
      rw [← hres]
      exact ⟨rfl, rfl, paint, rfl⟩

unseal List.merge List.mergeSort in
/-- Witness for C1: the two same-path layers of `wC1Glyphs`. -/
theorem reuse_key_identity_witness :
    colrUfo 0 wC1Ufo wC1Glyphs = .ok wC1Cst ∧
    (∀ e₁ ∈ (glyfUfo wC1Ufo wC1Glyphs).log, ∀ e₂ ∈ (glyfUfo wC1Ufo wC1Glyphs).log,
      e₁.key = e₂.key → e₁.glyph = e₂.glyph) ∧
    (∀ e₁ ∈ wC1Cst.log, ∀ e₂ ∈ wC1Cst.log, e₁.key = e₂.key → e₁.glyph = e₂.glyph) := by
  have hc : colrUfo 0 wC1Ufo wC1Glyphs = .ok wC1Cst := by rfl
  have hmain := reuse_key_identity wC1Ufo wC1Glyphs 0 wC1Cst hc
  exact ⟨hc, hmain.1, hmain.2.2.2.2.1⟩

/-- C6: after the glyf-style encoder finishes a color glyph's layers, a
parent glyph left with exactly one component is replaced by that single
component glyph's own contents (the slot takes over the child's definition,
keeping its name), while a parent with any other number of components is
retained unchanged. -/
theorem glyf_single_component_collapse (st : GlyfState) (cg : ColorGlyph)
    (pg : Glyph)
    (hpg : (cg.layers.foldl (glyfLayer cg) st).ufo.get cg.glyph_name = some pg) :
    (∀ comp, pg.components = [comp] →
      ∀ child, (cg.layers.foldl (glyfLayer cg) st).ufo.get comp.baseGlyph = some child →
      (glyfGlyph st cg).ufo =
        (cg.layers.foldl (glyfLayer cg) st).ufo.setGlyph cg.glyph_name child ∧
      (glyfGlyph st cg).ufo.get cg.glyph_name = some { child with name := cg.glyph_name }) ∧
    (pg.components.length ≠ 1 →
      (glyfGlyph st cg).ufo = (cg.layers.foldl (glyfLayer cg) st).ufo) := by
  constructor
  · intro comp hcomp child hchild
    have hufo : (glyfGlyph st cg).ufo =
        (cg.layers.foldl (glyfLayer cg) st).ufo.setGlyph cg.glyph_name child := by
      simp only [glyfGlyph]
      rw [hpg]
      dsimp only
      rw [if_pos (by rw [hcomp]; rfl)]
      rw [hcomp]
      dsimp only [List.head?]
      rw [hchild]
    refine ⟨hufo, ?_⟩
    rw [hufo]
    exact get_setGlyph _ _ _ pg hpg
  · intro hlen
    simp only [glyfGlyph]
    rw [hpg]
    dsimp only
    rw [if_neg hlen]

/-- Witness for C6: an assembled parent with a single component collapses
onto the child's contents. -/
theorem glyf_single_component_collapse_witness :
    (({ ufo := { upem := 16
                 glyphs := [{ name := .fromCps [0x41]
                              components := [UComponent.mk (.component (.fromCps [0x41]) 0)
                                Affine2D.identity] },
                            { name := .component (.fromCps [0x41]) 0
                              contours := [.drawn ⟨"M0,0 Z", .plain ""⟩ Affine2D.identity] }] }
        glyphs := []
        log := [] } : GlyfState).ufo.get (GName.fromCps [0x41]) =
      some { name := .fromCps [0x41]
             components := [UComponent.mk (.component (.fromCps [0x41]) 0)
               Affine2D.identity] }) ∧
    ((glyfGlyph { ufo := { upem := 16
                           glyphs := [{ name := .fromCps [0x41]
                                        components := [UComponent.mk
                                          (.component (.fromCps [0x41]) 0) Affine2D.identity] },
                                      { name := .component (.fromCps [0x41]) 0
                                        contours := [.drawn ⟨"M0,0 Z", .plain ""⟩
                                          Affine2D.identity] }] }
                  glyphs := []
                  log := [] }
        ⟨.fromCps [0x41], 0, [0x41], [], Affine2D.identity, []⟩).ufo.get
          (GName.fromCps [0x41]) =
      some { name := .fromCps [0x41]
             contours := [.drawn ⟨"M0,0 Z", .plain ""⟩ Affine2D.identity] }) := by
  refine ⟨rfl, ?_⟩
  have h := (glyf_single_component_collapse
    { ufo := { upem := 16
               glyphs := [{ name := .fromCps [0x41]
                            components := [UComponent.mk (.component (.fromCps [0x41]) 0)
                              Affine2D.identity] },
                          { name := .component (.fromCps [0x41]) 0
                            contours := [.drawn ⟨"M0,0 Z", .plain ""⟩ Affine2D.identity] }] }
      glyphs := []
      log := [] }
    ⟨.fromCps [0x41], 0, [0x41], [], Affine2D.identity, []⟩
    { name := .fromCps [0x41]
      components := [UComponent.mk (.component (.fromCps [0x41]) 0) Affine2D.identity] }
    rfl).1
    (UComponent.mk (.component (.fromCps [0x41]) 0) Affine2D.identity) rfl
    { name := .component (.fromCps [0x41]) 0
      contours := [.drawn ⟨"M0,0 Z", .plain ""⟩ Affine2D.identity] } rfl
  exact h.2

/-! ## C2: the partition and contiguity invariants of the embedded-document
encoder -/

/-- The invariant of the union-find structure: all sets nonempty, no glyph
name in two sets (or twice in one). -/
def DSInv (ds : DisjointSet) : Prop :=
  (∀ s ∈ ds.sets, s ≠ []) ∧ ds.sets.flatten.Nodup

theorem dsInv_empty : DSInv ⟨[]⟩ := ⟨by simp, by simp⟩

theorem make_set_inv (ds : DisjointSet) (x : GName) (h : DSInv ds) :
    DSInv (ds.make_set x) ∧ x ∈ (ds.make_set x).sets.flatten ∧
    (∀ y ∈ ds.sets.flatten, y ∈ (ds.make_set x).sets.flatten) ∧
    (∀ y ∈ (ds.make_set x).sets.flatten, y ∈ ds.sets.flatten ∨ y = x) := by
  unfold DisjointSet.make_set
  by_cases hc : ds.sets.any (fun s => s.contains x)
  · rw [if_pos hc]
    refine ⟨h, ?_, fun y hy => hy, fun y hy => Or.inl hy⟩
    obtain ⟨s, hs, hxs⟩ := List.any_eq_true.mp hc
    exact List.mem_flatten.mpr ⟨s, hs, by simpa using hxs⟩
  · rw [if_neg hc]
    have hnot : x ∉ ds.sets.flatten := by
      intro hx
      obtain ⟨s, hs, hxs⟩ := List.mem_flatten.mp hx
      exact hc (List.any_eq_true.mpr ⟨s, hs, by simpa using hxs⟩)
    refine ⟨⟨?_, ?_⟩, ?_, ?_, ?_⟩
    · intro s hs
      rcases List.mem_append.mp hs with h' | h'
      · exact h.1 s h'
      · simp only [List.mem_singleton] at h'
        rw [h']
        simp
    · rw [List.flatten_append]
      simp only [List.flatten_cons, List.flatten_nil, List.append_nil]
      rw [List.nodup_append]
      refine ⟨h.2, by simp, ?_⟩
      intro a ha hax
      simp only [List.mem_singleton] at hax
      subst hax
      exact hnot ha
    · rw [List.flatten_append]
      simp
    · intro y hy
      rw [List.flatten_append]
      simp [hy]
    · intro y hy
      rw [List.flatten_append] at hy
      rcases List.mem_append.mp hy with hmem' | hmem'
      · exact Or.inl hmem'
      · right
        simpa using hmem'

theorem set_erase_flatten_perm {α : Type} (A : List (List α)) (a : List α)
    (M : List (List α)) (b : List α) (C : List (List α)) :
    (((A ++ a :: (M ++ b :: C)).set A.length (a ++ b)).eraseIdx
        (A.length + 1 + M.length)).flatten.Perm
      (A ++ a :: (M ++ b :: C)).flatten := by
  have hset : (A ++ a :: (M ++ b :: C)).set A.length (a ++ b)
      = A ++ (a ++ b) :: (M ++ b :: C) := by
    rw [List.set_append]
    simp
  rw [hset]
  have herase : (A ++ (a ++ b) :: (M ++ b :: C)).eraseIdx (A.length + 1 + M.length)
      = A ++ (a ++ b) :: (M ++ C) := by
    rw [List.eraseIdx_append_of_length_le (by omega)]
    have h1 : A.length + 1 + M.length - A.length = M.length + 1 := by omega
    rw [h1, List.eraseIdx_cons_succ, List.eraseIdx_append_of_length_le (le_refl _)]
    simp
  rw [herase]
  simp only [List.flatten_append, List.flatten_cons, List.append_assoc]
  refine List.Perm.append_left _ ?_
  refine List.Perm.append_left _ ?_
  exact List.perm_append_comm_assoc b M.flatten C.flatten

theorem union_inv (ds : DisjointSet) (x y : GName) :
    (ds.union x y).sets.flatten.Perm ds.sets.flatten ∧
    ((∀ s ∈ ds.sets, s ≠ []) → ∀ s ∈ (ds.union x y).sets, s ≠ []) := by
  unfold DisjointSet.union
  cases hx : ds.sets.findIdx? (fun s => s.contains x) with
  | none => exact ⟨List.Perm.refl _, fun h => h⟩
  | some i =>
    cases hy : ds.sets.findIdx? (fun s => s.contains y) with
    | none => exact ⟨List.Perm.refl _, fun h => h⟩
    | some j =>
      dsimp only
      by_cases hij : i = j
      · rw [if_pos hij]
        exact ⟨List.Perm.refl _, fun h => h⟩
      · rw [if_neg hij]
        have hi : i < ds.sets.length := (List.findIdx?_eq_some_iff_findIdx_eq.mp hx).1
        have hj : j < ds.sets.length := (List.findIdx?_eq_some_iff_findIdx_eq.mp hy).1
        have hlo : min i j < ds.sets.length := by omega
        have hhi : max i j < ds.sets.length := by omega
        have hlohi : min i j < max i j := by omega
        obtain ⟨A, a, M, b, C, hdec, hAlen, hMlen, ha, hb⟩ :
            ∃ A a M b C, ds.sets = A ++ a :: (M ++ b :: C) ∧
              A.length = min i j ∧ M.length = max i j - min i j - 1 ∧
              ds.sets.getD (min i j) [] = a ∧ ds.sets.getD (max i j) [] = b := by
          refine ⟨ds.sets.take (min i j), ds.sets.get ⟨min i j, hlo⟩,
            (ds.sets.drop (min i j + 1)).take (max i j - min i j - 1),
            ds.sets.get ⟨max i j, hhi⟩, ds.sets.drop (max i j + 1),
            ?_, ?_, ?_, ?_, ?_⟩
          · conv_lhs => rw [← List.take_append_drop (min i j) ds.sets]
            congr 1
            rw [List.drop_eq_getElem_cons hlo]
            congr 1
            conv_lhs => rw [← List.take_append_drop (max i j - min i j - 1)
              (ds.sets.drop (min i j + 1))]
            congr 1
            rw [List.drop_drop]
            have h2 : min i j + 1 + (max i j - min i j - 1) = max i j := by omega
            rw [h2, List.drop_eq_getElem_cons hhi]
            rfl
          · rw [List.length_take]
            omega
          · rw [List.length_take, List.length_drop]
            omega
          · exact List.getD_eq_getElem _ _ hlo
          · exact List.getD_eq_getElem _ _ hhi
        rw [ha, hb]
        constructor
        · conv_lhs => rw [hdec, ← hAlen]
          conv_rhs => rw [hdec]
          have h3 : max i j = A.length + 1 + M.length := by omega
          rw [h3]
          exact set_erase_flatten_perm A a M b C
        · intro h s hs
          have hs' : s ∈ (ds.sets.set (min i j) (a ++ b)) :=
            ((ds.sets.set (min i j) (a ++ b)).eraseIdx_sublist (max i j)).mem hs
          rcases List.mem_or_eq_of_mem_set hs' with h' | h'
          · exact h s h'
          · rw [h']
            have hane : a ≠ [] := by
              apply h
              rw [← ha]
              rw [List.getD_eq_getElem _ _ hlo]
              exact List.getElem_mem hlo
            simp [hane]

theorem svgGroupsLayerStep_ds (n : GName)
    (acc₂ : List (ReuseKey × GName) × DisjointSet) (pl : PaintedLayer) :
    (svgGroupsLayerStep n acc₂ pl).2.sets.flatten.Perm acc₂.2.sets.flatten ∧
    ((∀ s ∈ acc₂.2.sets, s ≠ []) →
      ∀ s ∈ (svgGroupsLayerStep n acc₂ pl).2.sets, s ≠ []) := by
  cases h : assocFind (interGlyphReuseKey pl) acc₂.1 with
  | none =>
    simp only [svgGroupsLayerStep, h]
    exact ⟨List.Perm.refl _, fun h => h⟩
  | some owner =>
    simp only [svgGroupsLayerStep, h]
    exact union_inv acc₂.2 n owner

theorem svgGroupsLayers_ds (n : GName) : ∀ (layers : List PaintedLayer)
    (acc₂ : List (ReuseKey × GName) × DisjointSet),
    ((layers.foldl (svgGroupsLayerStep n) acc₂).2.sets.flatten.Perm
      acc₂.2.sets.flatten) ∧
    ((∀ s ∈ acc₂.2.sets, s ≠ []) →
      ∀ s ∈ (layers.foldl (svgGroupsLayerStep n) acc₂).2.sets, s ≠ [])
  | [], acc₂ => ⟨List.Perm.refl _, fun h => h⟩
  | pl :: rest, acc₂ => by
    obtain ⟨hp, hn⟩ := svgGroupsLayerStep_ds n acc₂ pl
    obtain ⟨hp', hn'⟩ := svgGroupsLayers_ds n rest (svgGroupsLayerStep n acc₂ pl)
    exact ⟨hp'.trans hp, fun h => hn' (hn h)⟩

theorem svgGroupsGlyphStep_ds (acc : List (ReuseKey × GName) × DisjointSet)
    (cg : ColorGlyph) (h : DSInv acc.2) :
    DSInv (svgGroupsGlyphStep acc cg).2 ∧
    cg.glyph_name ∈ (svgGroupsGlyphStep acc cg).2.sets.flatten ∧
    (∀ y ∈ acc.2.sets.flatten, y ∈ (svgGroupsGlyphStep acc cg).2.sets.flatten) ∧
    (∀ y ∈ (svgGroupsGlyphStep acc cg).2.sets.flatten,
      y ∈ acc.2.sets.flatten ∨ y = cg.glyph_name) := by
  unfold svgGroupsGlyphStep
  obtain ⟨hmk, hmem, hmono, hrev⟩ := make_set_inv acc.2 cg.glyph_name h
  obtain ⟨hperm, hne⟩ :=
    svgGroupsLayers_ds cg.glyph_name cg.layers (acc.1, acc.2.make_set cg.glyph_name)
  refine ⟨⟨hne hmk.1, hperm.symm.nodup hmk.2⟩, hperm.mem_iff.mpr hmem, ?_, ?_⟩
  · intro y hy
    exact hperm.mem_iff.mpr (hmono y hy)
  · intro y hy
    exact hrev y (hperm.mem_iff.mp hy)

theorem svgGroupsFold_inv : ∀ (cgs : List ColorGlyph)
    (acc : List (ReuseKey × GName) × DisjointSet), DSInv acc.2 →
    DSInv (cgs.foldl svgGroupsGlyphStep acc).2 ∧
    (∀ cg ∈ cgs, cg.glyph_name ∈ (cgs.foldl svgGroupsGlyphStep acc).2.sets.flatten) ∧
    (∀ y ∈ acc.2.sets.flatten, y ∈ (cgs.foldl svgGroupsGlyphStep acc).2.sets.flatten) ∧
    (∀ y ∈ (cgs.foldl svgGroupsGlyphStep acc).2.sets.flatten,
      y ∈ acc.2.sets.flatten ∨ ∃ cg ∈ cgs, y = cg.glyph_name)
  | [], acc, h => ⟨h, by simp, fun y hy => hy, fun y hy => Or.inl hy⟩
  | cg :: rest, acc, h => by
    obtain ⟨h1, h2, h3, h4⟩ := svgGroupsGlyphStep_ds acc cg h
    obtain ⟨h1', h2', h3', h4'⟩ := svgGroupsFold_inv rest (svgGroupsGlyphStep acc cg) h1
    refine ⟨h1', ?_, fun y hy => h3' y (h3 y hy), ?_⟩
    · intro c hc
      rcases List.mem_cons.mp hc with rfl | hc'
      · exact h3' c.glyph_name h2
      · exact h2' c hc'
    · intro y hy
      rcases h4' y hy with hy' | hcase
      · rcases h4 y hy' with hy2 | hy2
        · exact Or.inl hy2
        · exact Or.inr ⟨cg, List.mem_cons_self _ _, hy2⟩
      · obtain ⟨c, hc, hyc⟩ := hcase
        exact Or.inr ⟨c, List.mem_cons_of_mem cg hc, hyc⟩

theorem flatten_map_mergeSort_perm : ∀ (l : List (List GName)),
    ((l.map (fun s => s.mergeSort gnameLe)).flatten).Perm l.flatten
  | [] => List.Perm.refl _
  | s :: rest => by
    simp only [List.map_cons, List.flatten_cons]
    exact (List.mergeSort_perm s gnameLe).append (flatten_map_mergeSort_perm rest)

theorem sorted_flatten_perm (ds : DisjointSet) :
    ds.sorted.flatten.Perm ds.sets.flatten :=
  flatten_map_mergeSort_perm ds.sets

/-- `_svg_glyph_groups` yields a family of nonempty groups whose members are
pairwise distinct and include every color glyph's name. -/
theorem svgGlyphGroups_props (color_glyphs : List ColorGlyph) :
    (svgGlyphGroups color_glyphs).flatten.Nodup ∧
    (∀ gr ∈ svgGlyphGroups color_glyphs, gr ≠ []) ∧
    (∀ cg ∈ color_glyphs, cg.glyph_name ∈ (svgGlyphGroups color_glyphs).flatten) ∧
    (∀ y ∈ (svgGlyphGroups color_glyphs).flatten,
      ∃ cg ∈ color_glyphs, y = cg.glyph_name) := by
  unfold svgGlyphGroups
  obtain ⟨hinv, hmem, hmono, hrev⟩ := svgGroupsFold_inv color_glyphs ([], ⟨[]⟩) dsInv_empty
  have hperm := sorted_flatten_perm (color_glyphs.foldl svgGroupsGlyphStep ([], ⟨[]⟩)).2
  refine ⟨hperm.symm.nodup hinv.2, ?_, ?_, ?_⟩
  · intro gr hgr
    obtain ⟨s, hs, hsrt⟩ := List.mem_map.mp hgr
    intro hemp
    apply hinv.1 s hs
    have hlen := (List.mergeSort_perm s gnameLe).length_eq
    rw [hsrt, hemp] at hlen
    exact List.eq_nil_of_length_eq_zero hlen.symm
  · intro cg hcg
    exact hperm.mem_iff.mpr (hmem cg hcg)
  · intro y hy
    rcases hrev y (hperm.mem_iff.mp hy) with hy' | hy'
    · exact absurd hy' (by simp)
    · exact hy'

theorem not_mem_later_of_nodup_flatten {groups : List (List GName)}
    (h : groups.flatten.Nodup) {x : GName} {k l : Nat}
    (hk : k < groups.length) (hl : l < groups.length) (hkl : k < l)
    (hxk : x ∈ groups.get ⟨k, hk⟩) : x ∉ groups.get ⟨l, hl⟩ := by
  intro hxl
  have hsplit : ((groups.take (k+1)) ++ groups.drop (k+1)).flatten.Nodup := by
    rw [List.take_append_drop]
    exact h
  rw [List.flatten_append, List.nodup_append] at hsplit
  have hmem1 : x ∈ (groups.take (k+1)).flatten := by
    refine List.mem_flatten.mpr ⟨groups.get ⟨k, hk⟩, ?_, hxk⟩
    have hk' : k < (groups.take (k+1)).length := by
      rw [List.length_take]
      omega
    have heq : (groups.take (k+1)).get ⟨k, hk'⟩ = groups.get ⟨k, hk⟩ := by
      simp [List.getElem_take]
    rw [← heq]
    exact List.get_mem _ _ _
  have hmem2 : x ∈ (groups.drop (k+1)).flatten := by
    refine List.mem_flatten.mpr ⟨groups.get ⟨l, hl⟩, ?_, hxl⟩
    have hl' : l - (k+1) < (groups.drop (k+1)).length := by
      rw [List.length_drop]
      omega
    have heq : (groups.drop (k+1)).get ⟨l - (k+1), hl'⟩ = groups.get ⟨l, hl⟩ := by
      simp only [List.get_eq_getElem, List.getElem_drop]
      congr 1
      omega
    rw [← heq]
    exact List.get_mem _ _ _
  exact hsplit.2.2 hmem1 hmem2

theorem unique_group_of_nodup_flatten {groups : List (List GName)}
    (h : groups.flatten.Nodup) {x : GName} {k l : Nat}
    (hk : k < groups.length) (hl : l < groups.length)
    (hxk : x ∈ groups.get ⟨k, hk⟩) (hxl : x ∈ groups.get ⟨l, hl⟩) : k = l := by
  rcases Nat.lt_trichotomy k l with hlt | heq | hgt
  · exact absurd hxl (not_mem_later_of_nodup_flatten h hk hl hlt hxk)
  · exact heq
  · exact absurd hxk (not_mem_later_of_nodup_flatten h hl hk hgt hxl)

theorem dictGet?_cons {κ ν : Type} [DecidableEq κ] (p : κ × ν) (rest : List (κ × ν))
    (g : κ) :
    dictGet? (p :: rest) g = if p.1 = g then some p.2 else dictGet? rest g := by
  by_cases h : p.1 = g <;> simp [dictGet?, List.find?, h]

theorem dictGet?_mapUpd (m : List (GName × ColorGlyph)) (n : GName) (gid : Nat)
    (g : GName) :
    dictGet? (m.map (fun p => if p.1 = n then (p.1, { p.2 with glyph_id := gid }) else p)) g =
      if g = n then (dictGet? m g).map (fun c => { c with glyph_id := gid })
      else dictGet? m g := by
  induction m with
  | nil =>
    by_cases hg : g = n <;> simp [dictGet?, hg]
  | cons p rest ih =>
    rw [List.map_cons]
    by_cases hp1 : p.1 = n
    · rw [if_pos hp1]
      by_cases hpg : p.1 = g
      · have hg : g = n := by rw [← hpg, hp1]
        simp [dictGet?_cons, hpg, hg]
      · simp [dictGet?_cons, hpg, ih]
    · rw [if_neg hp1]
      by_cases hpg : p.1 = g
      · have hg : ¬ g = n := fun h => hp1 (by rw [hpg, h])
        simp [dictGet?_cons, hpg, hg]
      · simp [dictGet?_cons, hpg, ih]

theorem assignSeq_not_mem (g : GName) : ∀ (group : List GName) (gid : Nat)
    (m : List (GName × ColorGlyph)), g ∉ group →
    dictGet? (assignSeq gid m group) g = dictGet? m g
  | [], _, _, _ => rfl
  | n :: rest, gid, m, hg => by
    have hgn : ¬ g = n := fun h => hg (h ▸ List.mem_cons_self n rest)
    rw [assignSeq]
    rw [assignSeq_not_mem g rest (gid+1) _ (fun h => hg (List.mem_cons_of_mem n h))]
    rw [dictGet?_mapUpd, if_neg hgn]

theorem assignSeq_hit (g : GName) : ∀ (pre post : List GName) (gid : Nat)
    (m : List (GName × ColorGlyph)), g ∉ pre → g ∉ post →
    dictGet? (assignSeq gid m (pre ++ g :: post)) g =
      (dictGet? m g).map (fun c => { c with glyph_id := gid + pre.length })
  | [], post, gid, m, _, hpost => by
    simp only [List.nil_append]
    rw [assignSeq]
    rw [assignSeq_not_mem g post (gid+1) _ hpost]
    rw [dictGet?_mapUpd, if_pos rfl]
    simp
  | n :: pre', post, gid, m, hpre, hpost => by
    have hgn : ¬ g = n := fun h => hpre (h ▸ List.mem_cons_self n pre')
    simp only [List.cons_append]
    rw [assignSeq]
    rw [assignSeq_hit g pre' post (gid+1) _
      (fun h => hpre (List.mem_cons_of_mem n h)) hpost]
    rw [dictGet?_mapUpd, if_neg hgn]
    have harith : gid + 1 + pre'.length = gid + (n :: pre').length := by
      rw [List.length_cons]
      omega
    rw [harith]

theorem assignGroups_snd : ∀ (groups : List (List GName)) (gid : Nat)
    (m : List (GName × ColorGlyph)),
    (assignGroups gid m groups).2 = groups.flatten
  | [], gid, m => by simp [assignGroups]
  | gr :: rest, gid, m => by
    simp only [assignGroups]
    rw [assignGroups_snd rest]
    simp [List.flatten_cons]

theorem assignGroups_not_mem (g : GName) : ∀ (groups : List (List GName)) (gid : Nat)
    (m : List (GName × ColorGlyph)), g ∉ groups.flatten →
    dictGet? (assignGroups gid m groups).1 g = dictGet? m g
  | [], _, _, _ => rfl
  | gr :: rest, gid, m, hg => by
    have h1 : g ∉ gr := fun h => hg (by
      rw [List.flatten_cons]
      exact List.mem_append.mpr (Or.inl h))
    have h2 : g ∉ rest.flatten := fun h => hg (by
      rw [List.flatten_cons]
      exact List.mem_append.mpr (Or.inr h))
    simp only [assignGroups]
    rw [assignGroups_not_mem g rest _ _ h2, assignSeq_not_mem g gr gid m h1]

theorem assignGroups_hit (g : GName) : ∀ (preG : List (List GName))
    (pre post : List GName) (postG : List (List GName)) (gid : Nat)
    (m : List (GName × ColorGlyph)),
    g ∉ preG.flatten → g ∉ pre → g ∉ post → g ∉ postG.flatten →
    dictGet? (assignGroups gid m (preG ++ (pre ++ g :: post) :: postG)).1 g =
      (dictGet? m g).map
        (fun c => { c with glyph_id := gid + preG.flatten.length + pre.length })
  | [], pre, post, postG, gid, m, _, hpre, hpost, hpostG => by
    simp only [List.nil_append, assignGroups]
    rw [assignGroups_not_mem g postG _ _ hpostG]
    rw [assignSeq_hit g pre post gid m hpre hpost]
    simp
  | gr :: preG', pre, post, postG, gid, m, hpreG, hpre, hpost, hpostG => by
    have h1 : g ∉ gr := fun h => hpreG (by
      rw [List.flatten_cons]
      exact List.mem_append.mpr (Or.inl h))
    have h2 : g ∉ preG'.flatten := fun h => hpreG (by
      rw [List.flatten_cons]
      exact List.mem_append.mpr (Or.inr h))
    have hrec := assignGroups_hit g preG' pre post postG (gid + gr.length)
      (assignSeq gid m gr) h2 hpre hpost hpostG
    rw [assignSeq_not_mem g gr gid m h1] at hrec
    have harith : gid + gr.length + preG'.flatten.length + pre.length
        = gid + (gr :: preG').flatten.length + pre.length := by
      rw [List.flatten_cons, List.length_append]
      omega
    rw [harith] at hrec
    exact hrec

theorem svgUpdateGlyphOrder_eq (cgm : List (GName × ColorGlyph)) (ttfont : TTFont)
    (groups : List (List GName)) :
    svgUpdateGlyphOrder cgm ttfont groups =
      ((assignGroups (svgBaseOrder cgm.length ttfont).length cgm groups).1,
       { ttfont with glyphOrder :=
          svgBaseOrder cgm.length ttfont ++
            (assignGroups (svgBaseOrder cgm.length ttfont).length cgm groups).2 }) := rfl

theorem foldl_min_const : ∀ (xs : List Nat) (x : Nat), (∀ y ∈ xs, x ≤ y) →
    xs.foldl Nat.min x = x
  | [], _, _ => rfl
  | y :: ys, x, h => by
    rw [List.foldl_cons]
    have hxy : Nat.min x y = x := Nat.min_eq_left (h y (List.mem_cons_self y ys))
    rw [hxy]
    exact foldl_min_const ys x (fun z hz => h z (List.mem_cons_of_mem y hz))

theorem natListMin_range' (s n : Nat) (hn : n ≠ 0) :
    natListMin (List.range' s n) = s := by
  cases n with
  | zero => exact absurd rfl hn
  | succ n' =>
    rw [List.range'_succ]
    unfold natListMin
    apply foldl_min_const
    intro y hy
    have := List.mem_range'_1.mp hy
    omega

theorem foldl_max_range' : ∀ (n s x : Nat), n ≠ 0 →
    (List.range' s n).foldl Nat.max x = Nat.max x (s + n - 1)
  | 0, _, _, hn => absurd rfl hn
  | n' + 1, s, x, _ => by
    cases n' with
    | zero =>
      simp [List.range']
    | succ n'' =>
      rw [List.range'_succ, List.foldl_cons]
      rw [foldl_max_range' (n''+1) (s+1) (Nat.max x s) (by omega)]
      simp only [Nat.max_def]
      split_ifs <;> omega

theorem natListMax_range' (s n : Nat) (hn : n ≠ 0) :
    natListMax (List.range' s n) = s + n - 1 := by
  cases n with
  | zero => exact absurd rfl hn
  | succ n' =>
    rw [List.range'_succ]
    show (List.range' (s+1) n').foldl Nat.max s = s + (n'+1) - 1
    cases n' with
    | zero => simp [List.range']
    | succ n'' =>
      rw [foldl_max_range' (n''+1) (s+1) s (by omega)]
      simp only [Nat.max_def]
      split_ifs <;> omega

/-- Where `assignGroups` sends the `i`-th member of the `k`-th group: glyph
id `gid + (size of the earlier groups) + i`. -/
theorem assignGroups_getElem (gid : Nat) (m : List (GName × ColorGlyph))
    (groups : List (List GName)) (hnd : groups.flatten.Nodup)
    (k : Nat) (hk : k < groups.length) (i : Nat)
    (hi : i < (groups.get ⟨k, hk⟩).length) :
    dictGet? (assignGroups gid m groups).1 ((groups.get ⟨k, hk⟩).get ⟨i, hi⟩) =
      (dictGet? m ((groups.get ⟨k, hk⟩).get ⟨i, hi⟩)).map
        (fun c => { c with glyph_id := gid + (groups.take k).flatten.length + i }) := by
  obtain ⟨pre, post, hgr, hprelen⟩ :
      ∃ pre post, groups.get ⟨k, hk⟩ = pre ++ (groups.get ⟨k, hk⟩).get ⟨i, hi⟩ :: post ∧
        pre.length = i := by
    refine ⟨(groups.get ⟨k, hk⟩).take i, (groups.get ⟨k, hk⟩).drop (i+1), ?_, ?_⟩
    · conv_lhs => rw [← List.take_append_drop i (groups.get ⟨k, hk⟩)]
      congr 1
      rw [List.drop_eq_getElem_cons hi]
      rfl
    · rw [List.length_take]
      omega
  obtain ⟨preG, postG, hdec, hpreG⟩ :
      ∃ preG postG,
        groups = preG ++ (pre ++ (groups.get ⟨k, hk⟩).get ⟨i, hi⟩ :: post) :: postG ∧
        preG = groups.take k := by
    refine ⟨groups.take k, groups.drop (k+1), ?_, rfl⟩
    conv_lhs => rw [← List.take_append_drop k groups]
    congr 1
    rw [List.drop_eq_getElem_cons hk]
    rw [← hgr]
    rfl
  have hnd2 : (preG ++ (pre ++ (groups.get ⟨k, hk⟩).get ⟨i, hi⟩ :: post) :: postG).flatten.Nodup := by
    rw [← hdec]
    exact hnd
  rw [List.flatten_append, List.flatten_cons, List.nodup_append] at hnd2
  obtain ⟨nd1, nd2, disj1⟩ := hnd2
  rw [List.nodup_append] at nd2
  obtain ⟨nd3, nd4, disj2⟩ := nd2
  rw [List.nodup_append] at nd3
  obtain ⟨ndpre, ndcons, disj3⟩ := nd3
  have h2 : (groups.get ⟨k, hk⟩).get ⟨i, hi⟩ ∉ pre :=
    fun h => disj3 h (List.mem_cons_self _ _)
  have h3 : (groups.get ⟨k, hk⟩).get ⟨i, hi⟩ ∉ post := (List.nodup_cons.mp ndcons).1
  have h4 : (groups.get ⟨k, hk⟩).get ⟨i, hi⟩ ∉ postG.flatten :=
    fun h => disj2 (List.mem_append.mpr (Or.inr (List.mem_cons_self _ _))) h
  have h1 : (groups.get ⟨k, hk⟩).get ⟨i, hi⟩ ∉ preG.flatten :=
    fun h => disj1 h
      (List.mem_append.mpr (Or.inl (List.mem_append.mpr (Or.inr (List.mem_cons_self _ _)))))
  have hmain := assignGroups_hit ((groups.get ⟨k, hk⟩).get ⟨i, hi⟩) preG pre post postG
    gid m h1 h2 h3 h4
  rw [← hdec] at hmain
  rw [hpreG, hprelen] at hmain
  exact hmain

/-- The glyph ids of the `k`-th group after `assignGroups` are exactly the
contiguous run starting right after all earlier groups. -/
theorem assignGroups_group_gids (gid : Nat) (m : List (GName × ColorGlyph))
    (groups : List (List GName)) (hnd : groups.flatten.Nodup)
    (hmem : ∀ g ∈ groups.flatten, (dictGet? m g).isSome = true)
    (k : Nat) (hk : k < groups.length) :
    (groups.get ⟨k, hk⟩).map (fun g =>
      ((dictGet? (assignGroups gid m groups).1 g).map (fun c => c.glyph_id)).getD 0) =
      List.range' (gid + (groups.take k).flatten.length)
        (groups.get ⟨k, hk⟩).length := by
  apply List.ext_getElem
  · rw [List.length_map, List.length_range']
  · intro i h1 h2
    rw [List.getElem_map]
    have hi : i < (groups.get ⟨k, hk⟩).length := by simpa using h1
    have hx := assignGroups_getElem gid m groups hnd k hk i hi
    have hgx : (groups.get ⟨k, hk⟩)[i] = (groups.get ⟨k, hk⟩).get ⟨i, hi⟩ := rfl
    rw [hgx, hx]
    obtain ⟨c, hc⟩ := Option.isSome_iff_exists.mp (hmem _ (List.mem_flatten.mpr
      ⟨groups.get ⟨k, hk⟩, List.get_mem _ _ _, List.get_mem _ _ _⟩))
    rw [hc]
    simp only [Option.map_some', Option.getD_some]
    rw [List.getElem_range']
    omega

/-- After `assignGroups`, a glyph's recorded id points back at its own name
inside the concatenated group order. -/
theorem assignGroups_position (gid : Nat) (m : List (GName × ColorGlyph))
    (groups : List (List GName)) (hnd : groups.flatten.Nodup)
    (g : GName) (hgmem : g ∈ groups.flatten) (c : ColorGlyph)
    (h : dictGet? (assignGroups gid m groups).1 g = some c) :
    gid ≤ c.glyph_id ∧ c.glyph_id - gid < groups.flatten.length ∧
    groups.flatten.get? (c.glyph_id - gid) = some g := by
  obtain ⟨gr, hgrmem, hggr⟩ := List.mem_flatten.mp hgmem
  obtain ⟨⟨k, hk⟩, hgrk⟩ := List.mem_iff_get.mp hgrmem
  have hggr' : g ∈ groups.get ⟨k, hk⟩ := by
    rw [hgrk]
    exact hggr
  obtain ⟨⟨i, hi⟩, hgi⟩ := List.mem_iff_get.mp hggr'
  have hx := assignGroups_getElem gid m groups hnd k hk i hi
  rw [hgi] at hx
  rw [h] at hx
  cases hmg : dictGet? m g with
  | none =>
    rw [hmg] at hx
    exact absurd hx (by simp)
  | some c₀ =>
    rw [hmg] at hx
    simp only [Option.map_some'] at hx
    have hc : c = { c₀ with glyph_id := gid + (groups.take k).flatten.length + i } :=
      Option.some.inj hx
    have hgid : c.glyph_id = gid + (groups.take k).flatten.length + i := by rw [hc]
    have hsplit : groups.flatten.length =
        (groups.take k).flatten.length + (groups.drop k).flatten.length := by
      conv_lhs => rw [← List.take_append_drop k groups]
      rw [List.flatten_append, List.length_append]
    have hdropk : (groups.drop k).flatten.length =
        (groups.get ⟨k, hk⟩).length + (groups.drop (k+1)).flatten.length := by
      rw [List.drop_eq_getElem_cons hk, List.flatten_cons, List.length_append]
      rfl
    refine ⟨by omega, by omega, ?_⟩
    rw [hgid]
    have harith : gid + (groups.take k).flatten.length + i - gid =
        (groups.take k).flatten.length + i := by omega
    rw [harith, List.get?_eq_getElem?]
    have hflat : groups.flatten = (groups.take k).flatten ++ (groups.drop k).flatten := by
      conv_lhs => rw [← List.take_append_drop k groups]
      rw [List.flatten_append]
    rw [hflat]
    rw [List.getElem?_append_right (by omega)]
    have harith2 : (groups.take k).flatten.length + i - (groups.take k).flatten.length
        = i := by omega
    rw [harith2]
    rw [List.drop_eq_getElem_cons hk, List.flatten_cons]
    rw [List.getElem?_append_left (show i < (groups[k]).length from hi)]
    rw [List.getElem?_eq_getElem (show i < (groups[k]).length from hi)]
    rw [← hgi]
    rfl

/-- The doc ranges accumulated by `_svg_ttfont`'s loop: one
`(min gid, max gid)` entry per group, in order. -/
theorem svgDocStep_fold : ∀ (groups : List (List GName))
    (cgm : List (GName × ColorGlyph))
    (acc res : List (SvgDoc × Nat × Nat) × List (IdKey × SvgId)),
    groups.foldlM (svgDocStep cgm) acc = .ok res →
    res.1.map (fun e => e.2) = acc.1.map (fun e => e.2) ++
      groups.map (fun gr =>
        (natListMin (gr.map (fun g => ((dictGet? cgm g).map (fun c => c.glyph_id)).getD 0)),
         natListMax (gr.map (fun g => ((dictGet? cgm g).map (fun c => c.glyph_id)).getD 0))))
  | [], cgm, acc, res, h => by
    rw [List.foldlM_nil] at h
    have : acc = res := by
      simpa [pure, Except.pure] using h
    rw [← this]
    simp
  | gr :: rest, cgm, acc, res, h => by
    rw [List.foldlM_cons] at h
    cases hstep : svgDocStep cgm acc gr with
    | error e =>
      rw [hstep, exceptBind_error] at h
      exact Except.noConfusion h
    | ok acc' =>
      rw [hstep, exceptBind_ok] at h
      rw [svgDocStep_fold rest cgm acc' res h]
      unfold svgDocStep at hstep
      cases hdoc : svgDocForGroup cgm acc.2 gr with
      | error e =>
        rw [hdoc, exceptBind_error] at hstep
        exact Except.noConfusion hstep
      | ok p =>
        obtain ⟨doc, idu⟩ := p
        rw [hdoc, exceptBind_ok] at hstep
        have hacc' : acc' = (acc.1 ++
            [(doc,
              natListMin (gr.map (fun g => ((dictGet? cgm g).map (fun c => c.glyph_id)).getD 0)),
              natListMax (gr.map (fun g => ((dictGet? cgm g).map (fun c => c.glyph_id)).getD 0)))],
            idu) := by
          simpa [pure, Except.pure] using hstep.symm
        rw [hacc']
        simp

theorem flatten_take_succ (groups : List (List GName)) (k : Nat)
    (hk : k < groups.length) :
    (groups.take (k+1)).flatten.length =
      (groups.take k).flatten.length + (groups.get ⟨k, hk⟩).length := by
  rw [List.take_succ, List.getElem?_eq_getElem hk, List.flatten_append,
    List.length_append]
  simp only [Option.toList_some, List.flatten_cons, List.flatten_nil, List.append_nil]
  rfl

theorem flatten_take_mono (groups : List (List GName)) (k l : Nat) (h : k ≤ l) :
    (groups.take k).flatten.length ≤ (groups.take l).flatten.length := by
  have heq : groups.take k = (groups.take l).take k := by
    rw [List.take_take]
    congr 1
    omega
  rw [heq]
  conv_rhs => rw [← List.take_append_drop k (groups.take l)]
  rw [List.flatten_append, List.length_append]
  omega

theorem dictGet?_mem_keys {κ ν : Type} [DecidableEq κ] (m : List (κ × ν)) (g : κ)
    (v : ν) (h : dictGet? m g = some v) : g ∈ m.map (fun p => p.1) := by
  unfold dictGet? at h
  cases hf : m.find? (fun p => p.1 = g) with
  | none =>
    rw [hf] at h
    exact Option.noConfusion h
  | some p =>
    have hp := List.find?_some hf
    have hmem := List.mem_of_find?_eq_some hf
    have hpg : p.1 = g := by simpa using hp
    rw [← hpg]
    exact List.mem_map.mpr ⟨p, hmem, rfl⟩

theorem dictGet?_isSome_of_mem_keys {κ ν : Type} [DecidableEq κ] (m : List (κ × ν))
    (g : κ) (h : g ∈ m.map (fun p => p.1)) : (dictGet? m g).isSome = true := by
  obtain ⟨p, hp, hpg⟩ := List.mem_map.mp h
  unfold dictGet?
  cases hf : m.find? (fun q => q.1 = g) with
  | some q => rfl
  | none =>
    have := List.find?_eq_none.mp hf p hp
    rw [hpg] at this
    simp at this

/-- C2: after `_svg_update_glyph_order` reassigns glyph ids, every reuse
group of `_svg_glyph_groups` occupies a contiguous run of glyph ids (group
`k` starts right after the preserved base order and all earlier groups),
runs of distinct groups do not overlap, every color glyph's name lies in
exactly one group, each document emitted by `_svg_ttfont` records exactly
the inclusive `[min gid, max gid]` range of its group, and every color
glyph's recorded `glyph_id` again equals its position in the written-back
glyph order. -/
theorem svg_reuse_groups_contiguous (color_glyphs : List ColorGlyph)
    (ttfont : TTFont) (zip : Bool) (tt' : TTFont)
    (hok : svgTtfont color_glyphs ttfont zip = .ok tt') :
    (∀ cg ∈ color_glyphs, ∃ k, ∃ hk : k < (svgGlyphGroups color_glyphs).length,
      cg.glyph_name ∈ (svgGlyphGroups color_glyphs).get ⟨k, hk⟩) ∧
    (∀ (x : GName) (k l : Nat) (hk : k < (svgGlyphGroups color_glyphs).length)
      (hl : l < (svgGlyphGroups color_glyphs).length),
      x ∈ (svgGlyphGroups color_glyphs).get ⟨k, hk⟩ →
      x ∈ (svgGlyphGroups color_glyphs).get ⟨l, hl⟩ → k = l) ∧
    (∀ (k : Nat) (hk : k < (svgGlyphGroups color_glyphs).length),
      ((svgGlyphGroups color_glyphs).get ⟨k, hk⟩).map (fun g =>
        ((dictGet? (svgUpdateGlyphOrder (color_glyphs.map (fun c => (c.glyph_name, c)))
            ttfont (svgGlyphGroups color_glyphs)).1 g).map
          (fun c => c.glyph_id)).getD 0) =
      List.range'
        ((svgBaseOrder color_glyphs.length ttfont).length +
          ((svgGlyphGroups color_glyphs).take k).flatten.length)
        ((svgGlyphGroups color_glyphs).get ⟨k, hk⟩).length) ∧
    (∀ (k l : Nat) (hk : k < (svgGlyphGroups color_glyphs).length),
      l < (svgGlyphGroups color_glyphs).length → k < l →
      (svgBaseOrder color_glyphs.length ttfont).length +
        ((svgGlyphGroups color_glyphs).take k).flatten.length +
        ((svgGlyphGroups color_glyphs).get ⟨k, hk⟩).length ≤
      (svgBaseOrder color_glyphs.length ttfont).length +
        ((svgGlyphGroups color_glyphs).take l).flatten.length) ∧
    (∃ docs, tt'.svgTable = some (zip, docs) ∧
      docs.length = (svgGlyphGroups color_glyphs).length ∧
      (∀ (k : Nat) (hk : k < docs.length)
        (hk' : k < (svgGlyphGroups color_glyphs).length),
        (docs.get ⟨k, hk⟩).2 =
          ((svgBaseOrder color_glyphs.length ttfont).length +
            ((svgGlyphGroups color_glyphs).take k).flatten.length,
           (svgBaseOrder color_glyphs.length ttfont).length +
            ((svgGlyphGroups color_glyphs).take k).flatten.length +
            ((svgGlyphGroups color_glyphs).get ⟨k, hk'⟩).length - 1))) ∧
    (∀ (g : GName) (c : ColorGlyph),
      dictGet? (svgUpdateGlyphOrder (color_glyphs.map (fun c => (c.glyph_name, c)))
        ttfont (svgGlyphGroups color_glyphs)).1 g = some c →
      (svgUpdateGlyphOrder (color_glyphs.map (fun c => (c.glyph_name, c)))
        ttfont (svgGlyphGroups color_glyphs)).2.glyphOrder.get? c.glyph_id = some g) := by
  obtain ⟨hnd, hnegrp, hsub, hrev⟩ := svgGlyphGroups_props color_glyphs
  have hlenmap : (color_glyphs.map (fun c => (c.glyph_name, c))).length
      = color_glyphs.length := List.length_map _ _
  have hkeys : ∀ g ∈ (svgGlyphGroups color_glyphs).flatten,
      (dictGet? (color_glyphs.map (fun c => (c.glyph_name, c))) g).isSome = true := by
    intro g hg
    obtain ⟨cg, hcg, rfl⟩ := hrev g hg
    apply dictGet?_isSome_of_mem_keys
    rw [List.map_map]
    exact List.mem_map.mpr ⟨cg, hcg, rfl⟩
  have hcontig : ∀ (k : Nat) (hk : k < (svgGlyphGroups color_glyphs).length),
      ((svgGlyphGroups color_glyphs).get ⟨k, hk⟩).map (fun g =>
        ((dictGet? (svgUpdateGlyphOrder (color_glyphs.map (fun c => (c.glyph_name, c)))
            ttfont (svgGlyphGroups color_glyphs)).1 g).map
          (fun c => c.glyph_id)).getD 0) =
      List.range'
        ((svgBaseOrder color_glyphs.length ttfont).length +
          ((svgGlyphGroups color_glyphs).take k).flatten.length)
        ((svgGlyphGroups color_glyphs).get ⟨k, hk⟩).length := by
    intro k hk
    rw [svgUpdateGlyphOrder_eq, hlenmap]
    exact assignGroups_group_gids ((svgBaseOrder color_glyphs.length ttfont).length)
      _ _ hnd hkeys k hk
  refine ⟨?_, ?_, hcontig, ?_, ?_, ?_⟩
  · intro cg hcg
    obtain ⟨gr, hgr, hmem⟩ := List.mem_flatten.mp (hsub cg hcg)
    obtain ⟨⟨k, hk⟩, hgrk⟩ := List.mem_iff_get.mp hgr
    refine ⟨k, hk, ?_⟩
    rw [hgrk]
    exact hmem
  · intro x k l hk hl hxk hxl
    exact unique_group_of_nodup_flatten hnd hk hl hxk hxl
  · intro k l hk hl hkl
    have h1 := flatten_take_succ (svgGlyphGroups color_glyphs) k hk
    have h2 := flatten_take_mono (svgGlyphGroups color_glyphs) (k+1) l hkl
    omega
  · simp only [svgTtfont] at hok
    cases hfold : List.foldlM
        (svgDocStep (svgUpdateGlyphOrder (color_glyphs.map (fun c => (c.glyph_name, c)))
          ttfont (svgGlyphGroups color_glyphs)).1) ([], []) (svgGlyphGroups color_glyphs) with
    | error e =>
      rw [hfold, exceptBind_error] at hok
      exact Except.noConfusion hok
    | ok res =>
      rw [hfold, exceptBind_ok] at hok
      have htt : tt' = { (svgUpdateGlyphOrder (color_glyphs.map (fun c => (c.glyph_name, c)))
          ttfont (svgGlyphGroups color_glyphs)).2 with svgTable := some (zip, res.1) } := by
        simpa [pure, Except.pure] using hok.symm
      have hranges := svgDocStep_fold (svgGlyphGroups color_glyphs) _ ([], []) res hfold
      simp only [List.map_nil, List.nil_append] at hranges
      refine ⟨res.1, by rw [htt], ?_, ?_⟩
      · have hlen := congrArg List.length hranges
        simpa using hlen
      · intro k hk hk'
        have hk2 : k < (res.1.map (fun e => e.2)).length := by
          rw [List.length_map]
          exact hk
      
        have e1 : (res.1.map (fun e => e.2)).get? k =
            (((svgGlyphGroups color_glyphs)).map (fun gr =>
              (natListMin (gr.map (fun g =>
                ((dictGet? (svgUpdateGlyphOrder (color_glyphs.map (fun c => (c.glyph_name, c)))
                  ttfont (svgGlyphGroups color_glyphs)).1 g).map (fun c => c.glyph_id)).getD 0)),
               natListMax (gr.map (fun g =>
                ((dictGet? (svgUpdateGlyphOrder (color_glyphs.map (fun c => (c.glyph_name, c)))
                  ttfont (svgGlyphGroups color_glyphs)).1 g).map (fun c => c.glyph_id)).getD 0))))).get? k := by
          rw [hranges]
        have e2 : (res.1.map (fun e => e.2)).get? k = some ((res.1.get ⟨k, hk⟩).2) := by
          rw [List.get?_eq_get hk2]
          congr 1
          simp [List.getElem_map]
        have hk3 : k < (((svgGlyphGroups color_glyphs)).map (fun gr =>
              (natListMin (gr.map (fun g =>
                ((dictGet? (svgUpdateGlyphOrder (color_glyphs.map (fun c => (c.glyph_name, c)))
                  ttfont (svgGlyphGroups color_glyphs)).1 g).map (fun c => c.glyph_id)).getD 0)),
               natListMax (gr.map (fun g =>
                ((dictGet? (svgUpdateGlyphOrder (color_glyphs.map (fun c => (c.glyph_name, c)))
                  ttfont (svgGlyphGroups color_glyphs)).1 g).map (fun c => c.glyph_id)).getD 0))))).length := by
          rw [List.length_map]
          exact hk'
        have e3 : (((svgGlyphGroups color_glyphs)).map (fun gr =>
              (natListMin (gr.map (fun g =>
                ((dictGet? (svgUpdateGlyphOrder (color_glyphs.map (fun c => (c.glyph_name, c)))
                  ttfont (svgGlyphGroups color_glyphs)).1 g).map (fun c => c.glyph_id)).getD 0)),
               natListMax (gr.map (fun g =>
                ((dictGet? (svgUpdateGlyphOrder (color_glyphs.map (fun c => (c.glyph_name, c)))
                  ttfont (svgGlyphGroups color_glyphs)).1 g).map (fun c => c.glyph_id)).getD 0))))).get? k =
            some
              (natListMin (((svgGlyphGroups color_glyphs).get ⟨k, hk'⟩).map (fun g =>
                ((dictGet? (svgUpdateGlyphOrder (color_glyphs.map (fun c => (c.glyph_name, c)))
                  ttfont (svgGlyphGroups color_glyphs)).1 g).map (fun c => c.glyph_id)).getD 0)),
               natListMax (((svgGlyphGroups color_glyphs).get ⟨k, hk'⟩).map (fun g =>
                ((dictGet? (svgUpdateGlyphOrder (color_glyphs.map (fun c => (c.glyph_name, c)))
                  ttfont (svgGlyphGroups color_glyphs)).1 g).map (fun c => c.glyph_id)).getD 0))) := by
          rw [List.get?_eq_get hk3]
          congr 1
          simp [List.getElem_map]
        have hsome : some ((res.1.get ⟨k, hk⟩).2) =
            some
              (natListMin (((svgGlyphGroups color_glyphs).get ⟨k, hk'⟩).map (fun g =>
                ((dictGet? (svgUpdateGlyphOrder (color_glyphs.map (fun c => (c.glyph_name, c)))
                  ttfont (svgGlyphGroups color_glyphs)).1 g).map (fun c => c.glyph_id)).getD 0)),
               natListMax (((svgGlyphGroups color_glyphs).get ⟨k, hk'⟩).map (fun g =>
                ((dictGet? (svgUpdateGlyphOrder (color_glyphs.map (fun c => (c.glyph_name, c)))
                  ttfont (svgGlyphGroups color_glyphs)).1 g).map (fun c => c.glyph_id)).getD 0))) := by
          rw [← e2, e1, e3]
        have hmain := Option.some.inj hsome
        rw [hmain]
        rw [hcontig k hk']
        have hn0 : ((svgGlyphGroups color_glyphs).get ⟨k, hk'⟩).length ≠ 0 := by
          intro h0
          exact hnegrp _ (List.get_mem _ _ _) (List.eq_nil_of_length_eq_zero h0)
        rw [natListMin_range' _ _ hn0, natListMax_range' _ _ hn0]
  · intro g c hget
    rw [svgUpdateGlyphOrder_eq, hlenmap] at hget
    rw [svgUpdateGlyphOrder_eq, hlenmap]
    show (svgBaseOrder color_glyphs.length ttfont ++
        (assignGroups (svgBaseOrder color_glyphs.length ttfont).length
          (color_glyphs.map (fun c => (c.glyph_name, c)))
          (svgGlyphGroups color_glyphs)).2).get? c.glyph_id = some g
    rw [assignGroups_snd]
    by_cases hg : g ∈ (svgGlyphGroups color_glyphs).flatten
    · obtain ⟨hle, hlt, hpos⟩ := assignGroups_position
        ((svgBaseOrder color_glyphs.length ttfont).length) _ _ hnd g hg c hget
      rw [List.get?_eq_getElem?] at hpos ⊢
      rw [List.getElem?_append_right hle]
      exact hpos
    · exfalso
      rw [assignGroups_not_mem g _ _ _ hg] at hget
      have hkey := dictGet?_mem_keys _ g c hget
      rw [List.map_map] at hkey
      obtain ⟨cg, hcg, hname⟩ := List.mem_map.mp hkey
      simp only [Function.comp] at hname
      exact hg (hname ▸ hsub cg hcg)

/-- Witness input for the contiguity run: two color glyphs whose sole layers
share the same path, hence the same reuse key, forcing one group of two. -/
def wC2Glyphs : List ColorGlyph :=
  [⟨.fromCps [0x41], 0, [0x41],
    [⟨⟨"M0,0 Z", .plain ""⟩, .solid ⟨255, 0, 0, 255⟩, []⟩], Affine2D.identity, []⟩,
   ⟨.fromCps [0x42], 0, [0x42],
    [⟨⟨"M0,0 Z", .plain ""⟩, .solid ⟨0, 255, 0, 255⟩, []⟩], Affine2D.identity, []⟩]

/-- Witness font: notdef followed by the two color glyphs. -/
def wC2Tt : TTFont := { glyphOrder := [.notdef, .fromCps [0x41], .fromCps [0x42]] }

/-- The font the embedded-document encoder returns on the witness input. -/
def wC2Res : TTFont :=
  match svgTtfont wC2Glyphs wC2Tt false with
  | .ok t => t
  | .error _ => wC2Tt

unseal List.merge List.mergeSort in
/-- Witness for C2: the encoder succeeds on the two-glyph input and the
partition and recorded-range conclusions hold there. -/
theorem svg_reuse_groups_contiguous_witness :
    svgTtfont wC2Glyphs wC2Tt false = .ok wC2Res ∧
    (∀ cg ∈ wC2Glyphs, ∃ k, ∃ hk : k < (svgGlyphGroups wC2Glyphs).length,
      cg.glyph_name ∈ (svgGlyphGroups wC2Glyphs).get ⟨k, hk⟩) ∧
    (∃ docs, wC2Res.svgTable = some (false, docs) ∧
      docs.length = (svgGlyphGroups wC2Glyphs).length ∧
      (∀ (k : Nat) (hk : k < docs.length)
        (hk' : k < (svgGlyphGroups wC2Glyphs).length),
        (docs.get ⟨k, hk⟩).2 =
          ((svgBaseOrder wC2Glyphs.length wC2Tt).length +
            ((svgGlyphGroups wC2Glyphs).take k).flatten.length,
           (svgBaseOrder wC2Glyphs.length wC2Tt).length +
            ((svgGlyphGroups wC2Glyphs).take k).flatten.length +
            ((svgGlyphGroups wC2Glyphs).get ⟨k, hk'⟩).length - 1))) := by
  have hc : svgTtfont wC2Glyphs wC2Tt false = .ok wC2Res := by rfl
  have h := svg_reuse_groups_contiguous wC2Glyphs wC2Tt false wC2Res hc
  exact ⟨hc, h.1, h.2.2.2.2.1⟩

end Nanoemoji
